import Mathlib

/-!
# Sudoku solver (`sudoku.go`): embedding and verification

The Go package keeps a board as a 9x9 grid of solved digits (`0` = unsolved)
and a 9x9 grid of candidate maps (`ticks`).  The maps are `map[int]bool`, but
every write in the source stores `true` and every read is a membership test,
a `len` or a `range`, so a map is represented here by its key set, a
`Finset Int`; a nil map and an empty map are both the empty set (the source
only reads, ranges over and deletes from maps that may be nil, which Go
allows).  Array indices live in `Fin 9`: the source only indexes with loop
variables running over `0..8`, with the bounds computed by `square`, and in
`guess` with the result of `shortestTicks`, whose sentinel `-1` is modelled
as an index-out-of-range panic.
-/

namespace Sudoku

/-! ## Data model -/

/-- Board of the solver: `grid col row` is the solved digit of a cell (0 when
unsolved) and `ticks col row` the set of digits still possible there. -/
structure Board where
  name : String
  grid : Fin 9 → Fin 9 → Int
  ticks : Fin 9 → Fin 9 → Finset Int

/-- Zero value of the Go struct (`var b Board`): empty name, all digits 0, all
maps nil. -/
def Board.zero : Board := ⟨"", fun _ _ => 0, fun _ _ => ∅⟩

/-- Keys of a map as visited by a `range` loop whose effect does not depend on
the visiting order (Go leaves that order unspecified): increasing order.  The
loops concerned insert the keys into one map, untick them in one cell, or
run over a map of a single key. -/
def keys (s : Finset Int) : List Int :=
  Quot.liftOn s.val (fun l => l.insertionSort (· ≤ ·)) (fun _ _ h =>
    List.eq_of_perm_of_sorted
      (((List.perm_insertionSort _ _).trans h).trans (List.perm_insertionSort _ _).symm)
      (List.sorted_insertionSort _ _) (List.sorted_insertionSort _ _))

/-- Index values `lo, lo+1, ..., hi` of a loop `for c := lo; c <= hi; c++`
whose bounds come from `square` (so they lie within `0..8`). -/
def span (lo hi : Nat) : List (Fin 9) :=
  (List.finRange 9).filter fun i => lo ≤ i.val ∧ i.val ≤ hi

/-- Assignment `b.ticks[col][row] = s`. -/
def Board.setTicks (b : Board) (col row : Fin 9) (s : Finset Int) : Board :=
  { b with ticks := fun c r => if c = col ∧ r = row then s else b.ticks c r }

/-- Assignment `b.grid[col][row] = d`. -/
def Board.setGrid (b : Board) (col row : Fin 9) (d : Int) : Board :=
  { b with grid := fun c r => if c = col ∧ r = row then d else b.grid c r }

/-- Digits `1..9` of the loop `for digit := 1; digit <= 9; digit++`. -/
def digits : List Int := [1, 2, 3, 4, 5, 6, 7, 8, 9]

/-- Method `init`: every cell gets a fresh map holding the digits 1 to 9. -/
def Board.init (b : Board) : Board :=
  (List.finRange 9).foldl (fun b col =>
    (List.finRange 9).foldl (fun b row =>
      digits.foldl (fun b digit => b.setTicks col row (insert digit (b.ticks col row)))
        (b.setTicks col row ∅)) b) b

/-- Function `square`: bounding indices of the 3x3 square that `i` is in. -/
def square (i : Nat) : Nat × Nat :=
  let mm : Nat × Nat := (0, 2)
  let mm := if i ≥ 3 ∧ i ≤ 5 then (3, 5) else mm
  let mm := if i ≥ 6 then (6, 8) else mm
  mm

/-- Method `untick`: `delete(b.ticks[col][row], digit)`. -/
def Board.untick (b : Board) (col row : Fin 9) (digit : Int) : Board :=
  b.setTicks col row ((b.ticks col row).erase digit)

/-- Method `untickCol`: removes a tick from an entire column. -/
def Board.untickCol (b : Board) (col : Fin 9) (digit : Int) : Board :=
  (List.finRange 9).foldl (fun b row => b.untick col row digit) b

/-- Method `untickRow`: removes a tick from an entire row. -/
def Board.untickRow (b : Board) (row : Fin 9) (digit : Int) : Board :=
  (List.finRange 9).foldl (fun b col => b.untick col row digit) b

/-- Method `untickSquare`: removes a tick from an entire 3x3 square. -/
def Board.untickSquare (b : Board) (col row : Fin 9) (digit : Int) : Board :=
  let cm := square col.val
  let rm := square row.val
  (span cm.1 cm.2).foldl (fun b c =>
    (span rm.1 rm.2).foldl (fun b r => b.untick c r digit) b) b

/-- Method `setDigit`: sets the digit in the grid and unticks it in the row,
the column and the square of the cell; a no-op for digit 0. -/
def Board.setDigit (b : Board) (col row : Fin 9) (digit : Int) : Board :=
  if digit = 0 then b
  else
    let b := b.setGrid col row digit
    let b := b.setTicks col row ∅
    let b := b.untickRow row digit
    let b := b.untickCol col digit
    b.untickSquare col row digit

/-- Go string: its bytes. -/
abbrev GoString := List Nat

/-- Body of `New` for one cell: `digit := int(lines[row][col] - 48)` on bytes
(the subtraction wraps modulo 256), then `setDigit` unless the digit is 0.
`none` is the index-out-of-range panic of `lines[row][col]`. -/
def newCell (lines : List GoString) (ob : Option Board) (row col : Fin 9) : Option Board :=
  ob.bind fun b =>
    (lines.get? row.val).bind fun line =>
      (line.get? col.val).map fun byte =>
        let digit : Int := ((byte + 256 - 48) % 256 : Nat)
        if digit = 0 then b else b.setDigit col row digit

/-- Function `New`: a board populated with the given starting lines. -/
def New (name : String) (lines : List GoString) : Option Board :=
  let b := Board.zero.init
  let b := { b with name := name }
  (List.finRange 9).foldl (fun ob row =>
    (List.finRange 9).foldl (fun ob col => newCell lines ob row col) ob) (some b)

/-- Function `equal` on two maps: same length and every key of `a` present
in `b`. -/
def equal (a b : Finset Int) : Bool :=
  if a.card ≠ b.card then false
  else (keys a).all fun val => decide (val ∈ b)

/-- Method `equal`: tests whether two boards are equal (grid and ticks). -/
def Board.equal (b b2 : Board) : Bool :=
  (List.finRange 9).all fun col =>
    (List.finRange 9).all fun row =>
      if b.grid col row ≠ b2.grid col row then false
      else if ¬ Sudoku.equal (b.ticks col row) (b2.ticks col row) then false
      else true

/-- Method `copy`: a zero board receives the digits through `setDigit`, then
every map is rebuilt from the keys of the source map.  (The final comparison
with the source only prints a message.) -/
def Board.copy (b : Board) : Board :=
  let b2 := Board.zero
  let b2 := (List.finRange 9).foldl (fun b2 col =>
    (List.finRange 9).foldl (fun b2 row => b2.setDigit col row (b.grid col row)) b2) b2
  (List.finRange 9).foldl (fun b2 col =>
    (List.finRange 9).foldl (fun b2 row =>
      (keys (b.ticks col row)).foldl
        (fun b2 digit => b2.setTicks col row (insert digit (b2.ticks col row)))
        (b2.setTicks col row ∅)) b2) b2

/-- Method `singleTick`: every cell that has exactly one tick is set to it. -/
def Board.singleTick (b : Board) : Board :=
  (List.finRange 9).foldl (fun b col =>
    (List.finRange 9).foldl (fun b row =>
      if (b.ticks col row).card = 1 then
        (keys (b.ticks col row)).foldl (fun b digit => b.setDigit col row digit) b
      else b) b) b

/-- Row part of `doubleTickTwin`, inner loop: untick the digits of
`(col,row)` in every cell of the row but `c` and `col`. -/
def Board.untickOthersRow (b : Board) (col row c : Fin 9) : Board :=
  (List.finRange 9).foldl (fun b c2 =>
    if c2 = c ∨ c2 = col then b
    else (keys (b.ticks col row)).foldl (fun b digit => b.untick c2 row digit) b) b

/-- Row part of `doubleTickTwin`: the loop over `c`, left at the first twin. -/
def Board.twinRow (b : Board) (col row : Fin 9) : List (Fin 9) → Board
  | [] => b
  | c :: cs =>
    if c = col then b.twinRow col row cs
    else if Sudoku.equal (b.ticks col row) (b.ticks c row) then b.untickOthersRow col row c
    else b.twinRow col row cs

/-- Column part of `doubleTickTwin`, inner loop. -/
def Board.untickOthersCol (b : Board) (col row r : Fin 9) : Board :=
  (List.finRange 9).foldl (fun b r2 =>
    if r2 = r ∨ r2 = row then b
    else (keys (b.ticks col row)).foldl (fun b digit => b.untick col r2 digit) b) b

/-- Column part of `doubleTickTwin`: the loop over `r`, left at the first
twin. -/
def Board.twinCol (b : Board) (col row : Fin 9) : List (Fin 9) → Board
  | [] => b
  | r :: rs =>
    if r = row then b.twinCol col row rs
    else if Sudoku.equal (b.ticks col row) (b.ticks col r) then b.untickOthersCol col row r
    else b.twinCol col row rs

/-- Square part of `doubleTickTwin`, innermost loops: untick the digits of
`(col,row)` in every cell of the square but `(col,row)` and `(c,r)`. -/
def Board.untickOthersSquare (b : Board) (col row c r : Fin 9) : Board :=
  let cm := square col.val
  let rm := square row.val
  (span cm.1 cm.2).foldl (fun b c2 =>
    (span rm.1 rm.2).foldl (fun b r2 =>
      if c2 = col ∧ r2 = row then b
      else if c2 = c ∧ r2 = r then b
      else (keys (b.ticks col row)).foldl (fun b digit => b.untick c2 r2 digit) b) b) b

/-- Square part of `doubleTickTwin`: the loop over `r` for one `c`; the
`break` of the source leaves this loop only. -/
def Board.twinSquareRows (b : Board) (col row c : Fin 9) : List (Fin 9) → Board
  | [] => b
  | r :: rs =>
    if c = col ∧ r = row then b.twinSquareRows col row c rs
    else if Sudoku.equal (b.ticks col row) (b.ticks c r) then b.untickOthersSquare col row c r
    else b.twinSquareRows col row c rs

/-- Method `doubleTickTwin`: finds the twin of a given doubletick in the row,
then in the column, then in the square. -/
def Board.doubleTickTwin (b : Board) (col row : Fin 9) : Board :=
  let b := b.twinRow col row (List.finRange 9)
  let b := b.twinCol col row (List.finRange 9)
  let cm := square col.val
  let rm := square row.val
  (span cm.1 cm.2).foldl (fun b c => b.twinSquareRows col row c (span rm.1 rm.2)) b

/-- Method `doubleTick`: runs `doubleTickTwin` on every cell with two ticks. -/
def Board.doubleTick (b : Board) : Board :=
  (List.finRange 9).foldl (fun b col =>
    (List.finRange 9).foldl (fun b row =>
      if (b.ticks col row).card = 2 then b.doubleTickTwin col row else b) b) b

/-- Duplicate scan of `valid` over one line of digits: the flag and the
`digits` map after visiting the digits `ds`. -/
def scanLine (ds : List Int) (valid : Bool) : Bool × Finset Int :=
  ds.foldl (fun (st : Bool × Finset Int) d =>
    if d = 0 then st
    else (if d ∈ st.2 then false else st.1, insert d st.2)) (valid, ∅)

/-- Method `valid`: whether the board is in a valid state. -/
def Board.valid (b : Board) : Bool :=
  let valid := true
  let valid := (List.finRange 9).foldl (fun valid col =>
    (List.finRange 9).foldl (fun valid row =>
      let valid := if b.grid col row > 9 ∨ b.grid col row < 0 then false else valid
      let valid := if (b.ticks col row).card > 9 then false else valid
      let valid := if b.grid col row = 0 ∧ (b.ticks col row).card ≤ 0 then false else valid
      valid) valid) valid
  let valid := (List.finRange 9).foldl (fun valid col =>
    (scanLine ((List.finRange 9).map fun row => b.grid col row) valid).1) valid
  let valid := (List.finRange 9).foldl (fun valid row =>
    (scanLine ((List.finRange 9).map fun col => b.grid col row) valid).1) valid
  valid

/-- Method `countSolved`: the number of grid positions that have been
solved. -/
def Board.countSolved (b : Board) : Nat :=
  (List.finRange 9).foldl (fun count col =>
    (List.finRange 9).foldl (fun count row =>
      if b.grid col row ≠ 0 then count + 1 else count) count) 0

/-- Method `Solved`: valid and every digit within 1..9. -/
def Board.Solved (b : Board) : Bool :=
  if ¬ b.valid then false
  else (List.finRange 9).all fun col =>
    (List.finRange 9).all fun row =>
      if b.grid col row < 1 ∨ b.grid col row > 9 then false else true

/-- Method `shortestTicks`: scan state `(minLen, minCol, minRow)` after all
cells; the result is `(minCol, minRow)`, `(-1,-1)` when no cell qualified. -/
def Board.shortestTicksScan (b : Board) : Nat × Int × Int :=
  (List.finRange 9).foldl (fun st col =>
    (List.finRange 9).foldl (fun (st : Nat × Int × Int) row =>
      if b.grid col row = 0 ∧ (b.ticks col row).card < st.1 then
        ((b.ticks col row).card, (col.val : Int), (row.val : Int))
      else st) st) (10, -1, -1)

/-- Method `shortestTicks`: the shortest sequence of ticks on the board. -/
def Board.shortestTicks (b : Board) : Int × Int :=
  (b.shortestTicksScan.2.1, b.shortestTicksScan.2.2)

/-- Order in which a `range` over a candidate map visits its keys when the
order matters (the loop of `guess`).  Go fixes no order, so the solver is
parameterised by one; it may depend on the board at hand. -/
structure RangeOrder where
  pick : Board → Finset Int → List Int
  nodup : ∀ b s, (pick b s).Nodup
  mem : ∀ b s d, d ∈ pick b s ↔ d ∈ s

/-- Result of running `Solve` or `guess` with bounded fuel: the board left by
the call, an index-out-of-range panic, or fuel exhausted. -/
inductive Outcome where
  | done (b : Board)
  | panic
  | outOfFuel

/-- Array index of a Go `int`; `none` is an index-out-of-range panic. -/
def toIndex (i : Int) : Option (Fin 9) :=
  if h : 0 ≤ i ∧ i < 9 then some ⟨i.toNat, by omega⟩ else none

/-- Loop of `guess` over the candidate digits of the cell `(col,row)` of `b`:
each digit is tried on a copy, the first solved copy is returned, and `b`
itself when no digit is left. -/
def Board.guessLoop (solve : Board → Outcome) (b : Board) (col row : Fin 9) :
    List Int → Outcome
  | [] => .done b
  | digit :: rest =>
    match solve (b.copy.setDigit col row digit) with
    | .done b2 => if b2.Solved then .done b2 else b.guessLoop solve col row rest
    | .panic => .panic
    | .outOfFuel => .outOfFuel

/-- Method `guess`: makes a guess on the cell found by `shortestTicks` and
tries to solve that new board. -/
def Board.guess (o : RangeOrder) (solve : Board → Outcome) (b : Board) : Outcome :=
  match toIndex b.shortestTicks.1, toIndex b.shortestTicks.2 with
  | some col, some row => b.guessLoop solve col row (o.pick b (b.ticks col row))
  | _, _ => .panic

/-- Method `Solve`: tries to solve a given board.  One unit of fuel is spent
per pass of the propagation loop and per level of recursion through
`guess`. -/
def Board.Solve (o : RangeOrder) : Nat → Board → Outcome
  | 0, _ => .outOfFuel
  | fuel + 1, b =>
    let before := b.countSolved
    let b := b.singleTick
    let b := b.doubleTick
    if b.Solved then .done b
    else if ¬ b.valid then .done b
    else
      let after := b.countSolved
      if before = after then
        if ¬ b.Solved then b.guess o (Board.Solve o fuel) else .done b
      else Board.Solve o fuel b

/-- Range order visiting the keys in increasing order. -/
def RangeOrder.increasing : RangeOrder where
  pick := fun _ s => keys s
  nodup := fun _ s => by
    rcases s with ⟨m, hm⟩
    induction m using Quotient.inductionOn with
    | _ l => exact (List.perm_insertionSort _ l).nodup_iff.mpr hm
  mem := fun _ s d => by
    rcases s with ⟨m, hm⟩
    induction m using Quotient.inductionOn with
    | _ l => exact (List.perm_insertionSort _ l).mem_iff

/-! ## Specification vocabulary -/

/-- Cells `(c,r)` and `(col,row)` lie in the same 3x3 block. -/
def sameBlock (col row c r : Fin 9) : Prop :=
  c.val / 3 = col.val / 3 ∧ r.val / 3 = row.val / 3

instance (col row c r : Fin 9) : Decidable (sameBlock col row c r) := by
  unfold sameBlock; infer_instance

/-- Cell `(c,r)` shares the row, the column or the 3x3 block of `(col,row)`
(the cell itself included). -/
def sees (col row c r : Fin 9) : Prop :=
  r = row ∨ c = col ∨ sameBlock col row c r

instance (col row c r : Fin 9) : Decidable (sees col row c r) := by
  unfold sees; infer_instance

/-- Cell `(c,r)` is a peer of `(col,row)`: a different cell of the same row,
column or block. -/
def peer (col row c r : Fin 9) : Prop :=
  sees col row c r ∧ ¬ (c = col ∧ r = row)

instance (col row c r : Fin 9) : Decidable (peer col row c r) := by
  unfold peer; infer_instance

/-- Input of `New` of the expected shape: 9 strings of 9 bytes each. -/
def Lines9 (lines : List GoString) : Prop :=
  lines.length = 9 ∧ ∀ line ∈ lines, line.length = 9

instance (lines : List GoString) : Decidable (Lines9 lines) := by
  unfold Lines9; infer_instance

/-- Every byte of the input is one of the characters `'0'..'9'`. -/
def DigitChars (lines : List GoString) : Prop :=
  ∀ line ∈ lines, ∀ byte ∈ line, 48 ≤ byte ∧ byte ≤ 57

instance (lines : List GoString) : Decidable (DigitChars lines) := by
  unfold DigitChars; infer_instance

/-- Byte `col` of string `row` of the input, if there is one. -/
def byteAt (lines : List GoString) (row col : Fin 9) : Option Nat :=
  (lines.get? row.val).bind fun line => line.get? col.val

/-- Digit that `New` computes for string `row`, byte `col`: the byte minus 48
modulo 256 (0 where the input has no such byte). -/
def digitAt (lines : List GoString) (row col : Fin 9) : Int :=
  match byteAt lines row col with
  | some byte => ((byte + 256 - 48) % 256 : Nat)
  | none => 0

/-- First loop of `valid` on one cell. -/
def cellOk (b : Board) (col row : Fin 9) : Bool :=
  decide (0 ≤ b.grid col row ∧ b.grid col row ≤ 9 ∧ (b.ticks col row).card ≤ 9 ∧
    (b.grid col row = 0 → 1 ≤ (b.ticks col row).card))

/-- Solved cells have no candidates left. -/
def Clean (b : Board) : Prop := ∀ c r, b.grid c r ≠ 0 → b.ticks c r = ∅

/-- Every candidate is a digit within 1..9. -/
def KeysOk (b : Board) : Prop := ∀ c r d, d ∈ b.ticks c r → 1 ≤ d ∧ d ≤ 9

/-- No candidate of a cell is the digit of a solved cell of its row, column
or block. -/
def Excl (b : Board) : Prop :=
  ∀ c r c2 r2, sees c2 r2 c r → b.grid c2 r2 ≠ 0 → b.grid c2 r2 ∉ b.ticks c r

/-- No non-zero digit occurs twice in a row, a column or a block of `g`. -/
def Distinct (g : Fin 9 → Fin 9 → Int) : Prop :=
  ∀ c r c2 r2, peer c r c2 r2 → g c r ≠ 0 → g c r ≠ g c2 r2

instance (g : Fin 9 → Fin 9 → Int) : Decidable (Distinct g) := by
  unfold Distinct; infer_instance

/-- Every entry of `g` is 0 or a digit 1..9. -/
def InRange (g : Fin 9 → Fin 9 → Int) : Prop := ∀ c r, 0 ≤ g c r ∧ g c r ≤ 9

/-- Grid `g` is a complete valid Sudoku: every row, every column and every
3x3 block contains each digit 1..9 exactly once. -/
def CompleteValid (g : Fin 9 → Fin 9 → Int) : Prop :=
  (∀ r d, 1 ≤ d → d ≤ 9 → ∃! c, g c r = d) ∧
  (∀ c d, 1 ≤ d → d ≤ 9 → ∃! r, g c r = d) ∧
  (∀ (bc br : Fin 3) d, 1 ≤ d → d ≤ 9 →
    ∃! p : Fin 9 × Fin 9, (p.1.val / 3 = bc.val ∧ p.2.val / 3 = br.val) ∧ g p.1 p.2 = d)

/-- Every entry of `S` is a digit 1..9 and no digit occurs twice in a row, a
column or a block. -/
def IsSolution (S : Fin 9 → Fin 9 → Int) : Prop :=
  (∀ c r, 1 ≤ S c r ∧ S c r ≤ 9) ∧ Distinct S

instance (S : Fin 9 → Fin 9 → Int) : Decidable (IsSolution S) := by
  unfold IsSolution; infer_instance

/-- Board `b` is consistent with the grid `S`: every solved cell has an empty
candidate set and holds the digit of `S`, every unsolved cell has the digit
of `S` among its candidates. -/
def Consistent (b : Board) (S : Fin 9 → Fin 9 → Int) : Prop :=
  ∀ c r, (b.grid c r ≠ 0 → b.grid c r = S c r ∧ b.ticks c r = ∅) ∧
    (b.grid c r = 0 → S c r ∈ b.ticks c r)

/-- From `b` to `b2` solved digits are kept and candidate sets only shrink. -/
def Grows (b b2 : Board) : Prop :=
  (∀ c r, b.grid c r ≠ 0 → b2.grid c r = b.grid c r) ∧ ∀ c r, b2.ticks c r ⊆ b.ticks c r

/-- From `b` to `b2` the grid is unchanged and candidate sets only shrink. -/
def Shrinks (b b2 : Board) : Prop :=
  b2.grid = b.grid ∧ ∀ c r, b2.ticks c r ⊆ b.ticks c r

/-- Stepping from `b` to `b2` keeps the invariants of the solver: when `b`
is clean with candidates in 1..9, so is `b2`, solved digits are kept,
candidates only shrink, and exclusion, distinctness and digit range carry
over. -/
def Pres (b b2 : Board) : Prop :=
  Clean b → KeysOk b →
    Clean b2 ∧ KeysOk b2 ∧ Grows b b2 ∧
      (Excl b → Distinct b.grid → InRange b.grid →
        Excl b2 ∧ Distinct b2.grid ∧ InRange b2.grid)

/-- Stepping from `b` to `b2` loses no solution. -/
def Safe (b b2 : Board) : Prop :=
  ∀ S, IsSolution S → Consistent b S → Consistent b2 S

/-- One elimination pass of `doubleTickTwin` for the cell `(col,row)`: the
grid is kept, candidates only shrink, the candidates of `(col,row)` are kept
and, when they are two, no solution is lost. -/
def PairStep (col row : Fin 9) (b b2 : Board) : Prop :=
  Shrinks b b2 ∧ b2.ticks col row = b.ticks col row ∧
    ((b.ticks col row).card = 2 → Safe b b2)

/-- Digit given for the cell `(c,r)` by the input: the numeric value of
character `c` of string `r` (0 where the input has no such character). -/
def givens (lines : List GoString) (c r : Fin 9) : Int :=
  match byteAt lines r c with
  | some byte => (byte : Int) - 48
  | none => 0

/-- Input of nine strings `"000000000"`: the empty puzzle. -/
def blankLines : List GoString := List.replicate 9 (List.replicate 9 48)

/-- Input whose first character is a space, all others `'0'`. -/
def spaceLines : List GoString :=
  [32, 48, 48, 48, 48, 48, 48, 48, 48] :: List.replicate 8 (List.replicate 9 48)

/-- Input `"100000000"`, `"010000000"`, then seven strings `"000000000"`: the
digit 1 twice in the first block, in different rows and columns. -/
def blockDupLines : List GoString :=
  [49, 48, 48, 48, 48, 48, 48, 48, 48] :: [48, 49, 48, 48, 48, 48, 48, 48, 48] ::
    List.replicate 7 (List.replicate 9 48)

/-- Input `"110000000"`, then eight strings `"000000000"`: the digit 1 twice
in the first row. -/
def rowDupLines : List GoString :=
  [49, 49, 48, 48, 48, 48, 48, 48, 48] :: List.replicate 8 (List.replicate 9 48)

/-- A complete valid Sudoku: row `r` is the cyclic sequence 1..9 shifted by
`3 * (r % 3) + r / 3`. -/
def shifted (c r : Fin 9) : Int := ((3 * (r.val % 3) + r.val / 3 + c.val) % 9 + 1 : Nat)

/-- Cells that hold a digit. -/
def solvedCells (b : Board) : Finset (Fin 9 × Fin 9) :=
  Finset.univ.filter fun p => b.grid p.1 p.2 ≠ 0

/-- Range order visiting the keys in decreasing order. -/
def RangeOrder.decreasing : RangeOrder where
  pick := fun _ s => (keys s).reverse
  nodup := fun b s => List.nodup_reverse.mpr (RangeOrder.increasing.nodup b s)
  mem := fun b s d => List.mem_reverse.trans (RangeOrder.increasing.mem b s d)

instance (b : Board) (S : Fin 9 → Fin 9 → Int) : Decidable (Consistent b S) := by
  unfold Consistent; infer_instance

/-- Boards obtained from `New` on 9 strings of 9 characters `'0'..'9'` by any
sequence of `setDigit` with a digit in 1..9, `singleTick`, `doubleTick`,
`copy` and `Solve` (with any order of `guess`, whenever it returns). -/
inductive Reachable : Board → Prop where
  | new (name : String) (lines : List GoString) (b : Board) :
      Lines9 lines → DigitChars lines → New name lines = some b → Reachable b
  | setDigit (b : Board) (col row : Fin 9) (digit : Int) :
      Reachable b → 1 ≤ digit → digit ≤ 9 → Reachable (b.setDigit col row digit)
  | singleTick (b : Board) : Reachable b → Reachable b.singleTick
  | doubleTick (b : Board) : Reachable b → Reachable b.doubleTick
  | copy (b : Board) : Reachable b → Reachable b.copy
  | solve (o : RangeOrder) (n : Nat) (b b2 : Board) :
      Reachable b → b.Solve o n = .done b2 → Reachable b2

/-- Board with nothing solved and every digit possible everywhere. -/
def openBoard : Board := ⟨"open", fun _ _ => 0, fun _ _ => Finset.Icc 1 9⟩

/-- A complete valid Sudoku with a 9 in column 0 of row 0: the grid `shifted`
with every digit moved on by 8. -/
def shifted9 (c r : Fin 9) : Int :=
  ((3 * (r.val % 3) + r.val / 3 + c.val + 8) % 9 + 1 : Nat)

/-- Board with nothing solved on which the cells in columns 0 and 1 of row 0
and the cell in column 0 of row 1 have the candidates 1 and 2, every other
cell all nine digits. -/
def pairBoard : Board :=
  ⟨"pair", fun _ _ => 0, fun c r =>
    if (r = 0 ∧ (c = 0 ∨ c = 1)) ∨ (c = 0 ∧ r = 1) then {1, 2} else Finset.Icc 1 9⟩

/-- Input `"123456780"`, `"000000009"`, then seven strings `"000000000"`: the
last cell of the first row has no digit left. -/
def deadLines : List GoString :=
  [49, 50, 51, 52, 53, 54, 55, 56, 48] :: [48, 48, 48, 48, 48, 48, 48, 48, 57] ::
    List.replicate 7 (List.replicate 9 48)

/-- Input `"001234678"`, `"900000000"`, then seven strings `"000000000"`: the
first two cells of the first row can both only take the digit 5. -/
def singlesLines : List GoString :=
  [48, 48, 49, 50, 51, 52, 54, 55, 56] :: [57, 48, 48, 48, 48, 48, 48, 48, 48] ::
    List.replicate 7 (List.replicate 9 48)

instance (b : Board) : Decidable (Clean b) := by
  unfold Clean; infer_instance

instance (b : Board) : Decidable (KeysOk b) := by
  unfold KeysOk; infer_instance

/-- Board with nothing solved on which the cell in column 0 of row 0 has the
one candidate 5, every other cell all nine digits. -/
def oneSingleBoard : Board :=
  ⟨"single", fun _ _ => 0, fun c r => if c = 0 ∧ r = 0 then {5} else Finset.Icc 1 9⟩

/-- Input `"123406789"`, `"456789123"`, `"789123000"`, `"234567891"`,
`"000891234"`, `"891234567"`, `"340608902"`, `"008902300"`, `"902305078"`:
the grid `shifted` with 18 cells left blank. -/
def forkLines : List GoString :=
  [[1, 2, 3, 4, 0, 6, 7, 8, 9], [4, 5, 6, 7, 8, 9, 1, 2, 3], [7, 8, 9, 1, 2, 3, 0, 0, 0],
    [2, 3, 4, 5, 6, 7, 8, 9, 1], [0, 0, 0, 8, 9, 1, 2, 3, 4], [8, 9, 1, 2, 3, 4, 5, 6, 7],
    [3, 4, 0, 6, 0, 8, 9, 0, 2], [0, 0, 8, 9, 0, 2, 3, 0, 0],
    [9, 0, 2, 3, 0, 5, 0, 7, 8]].map fun line => line.map (· + 48)

/-- Board that `New` builds from `forkLines` under the name `"fork"`. -/
def forkBoard : Board := (New "fork" forkLines).getD Board.zero

/-- Board written out cell by cell: `rows` lists the digits row by row and
`cands` the candidates of the cells named by column and row; every other
cell has no candidate. -/
def tableBoard (name : String) (rows : List (List Int))
    (cands : List ((Nat × Nat) × List Int)) : Board :=
  ⟨name, fun c r => (rows.getD r.val []).getD c.val 0,
    fun c r => ((cands.lookup (c.val, r.val)).getD []).toFinset⟩

/-- Board `forkBoard` after the first pass of `singleTick` and `doubleTick`. -/
def forkStall : Board :=
  tableBoard "fork"
    [[1, 2, 3, 4, 5, 6, 7, 8, 9], [4, 5, 6, 7, 8, 9, 1, 2, 3], [7, 8, 9, 1, 2, 3, 0, 0, 0],
      [2, 3, 4, 5, 6, 7, 8, 9, 1], [0, 0, 0, 8, 9, 1, 2, 3, 4], [8, 9, 1, 2, 3, 4, 5, 6, 7],
      [3, 4, 0, 6, 0, 8, 9, 0, 2], [0, 0, 8, 9, 0, 2, 3, 0, 0], [9, 0, 2, 3, 0, 5, 0, 7, 8]]
    [((0, 4), [5, 6]), ((0, 7), [5, 6]), ((1, 4), [6, 7]), ((1, 7), [1, 7]), ((1, 8), [1, 6]),
      ((2, 4), [5, 7]), ((2, 6), [5, 7]), ((4, 6), [1, 7]), ((4, 7), [1, 4, 7]),
      ((4, 8), [1, 4]), ((6, 2), [4, 6]), ((6, 8), [4, 6]), ((7, 2), [4, 5]), ((7, 6), [1, 5]),
      ((7, 7), [1, 4]), ((8, 2), [5, 6]), ((8, 7), [5, 6])]

/-- Board `forkStall` with the digit 5 set in column 0 of row 4, after one
pass of `singleTick` and `doubleTick`. -/
def forkFive : Board :=
  tableBoard "fork"
    [[1, 2, 3, 4, 5, 6, 7, 8, 9], [4, 5, 6, 7, 8, 9, 1, 2, 3], [7, 8, 9, 1, 2, 3, 0, 0, 0],
      [2, 3, 4, 5, 6, 7, 8, 9, 1], [5, 0, 7, 8, 9, 1, 2, 3, 4], [8, 9, 1, 2, 3, 4, 5, 6, 7],
      [3, 4, 5, 6, 0, 8, 9, 1, 2], [6, 0, 8, 9, 0, 2, 3, 4, 5], [9, 1, 2, 3, 4, 5, 6, 7, 8]]
    [((1, 4), [6]), ((1, 7), [7]), ((4, 6), [7]), ((4, 7), [1, 7]), ((6, 2), [4]),
      ((7, 2), [5]), ((8, 2), [6])]

/-- Propagation loop of `Solve` on its own: the board on leaving the loop,
paired with `false` when `Solve` returns from inside the loop (board solved
or not valid) and with `true` when the loop is left by `break` (no progress),
where `guess` takes over.  One unit of fuel is spent per pass. -/
def Board.solveLoop : Nat → Board → Option (Board × Bool)
  | 0, _ => none
  | fuel + 1, b =>
    let before := b.countSolved
    let b := b.singleTick
    let b := b.doubleTick
    if b.Solved then some (b, false)
    else if ¬ b.valid then some (b, false)
    else
      let after := b.countSolved
      if before = after then some (b, true)
      else Board.solveLoop fuel b

/-- Input `"209368710"`, `"306971820"`, `"781542639"`, `"967415382"`,
`"874629153"`, `"693154278"`, `"512783496"`, `"425837961"`, `"138296547"`:
no digit twice in a row or a column, four blanks, and the digit 7 twice in
one block (column 2 of row 3 and column 1 of row 4). -/
def twistLines : List GoString :=
  [[2, 0, 9, 3, 6, 8, 7, 1, 0], [3, 0, 6, 9, 7, 1, 8, 2, 0], [7, 8, 1, 5, 4, 2, 6, 3, 9],
    [9, 6, 7, 4, 1, 5, 3, 8, 2], [8, 7, 4, 6, 2, 9, 1, 5, 3], [6, 9, 3, 1, 5, 4, 2, 7, 8],
    [5, 1, 2, 7, 8, 3, 4, 9, 6], [4, 2, 5, 8, 3, 7, 9, 6, 1],
    [1, 3, 8, 2, 9, 6, 5, 4, 7]].map fun line => line.map (· + 48)

/-- Board of the puzzle `twistLines` written out cell by cell, under a given
name: the four blank cells have the candidates 4 and 5. -/
def twistTable (name : String) : Board :=
  tableBoard name
    [[2, 0, 9, 3, 6, 8, 7, 1, 0], [3, 0, 6, 9, 7, 1, 8, 2, 0], [7, 8, 1, 5, 4, 2, 6, 3, 9],
      [9, 6, 7, 4, 1, 5, 3, 8, 2], [8, 7, 4, 6, 2, 9, 1, 5, 3], [6, 9, 3, 1, 5, 4, 2, 7, 8],
      [5, 1, 2, 7, 8, 3, 4, 9, 6], [4, 2, 5, 8, 3, 7, 9, 6, 1], [1, 3, 8, 2, 9, 6, 5, 4, 7]]
    [((1, 0), [4, 5]), ((1, 1), [4, 5]), ((8, 0), [4, 5]), ((8, 1), [4, 5])]

/-! ## Loops -/

theorem foldl_inv {α β : Type} (P : β → Prop) (f : β → α → β) (l : List α)
    (h : ∀ g x, x ∈ l → P g → P (f g x)) (g : β) (hg : P g) : P (l.foldl f g) := by
  induction l generalizing g with
  | nil => exact hg
  | cons x xs ih =>
    exact ih (fun g y hy => h g y (List.mem_cons_of_mem _ hy)) _ (h g x (List.mem_cons_self _ _) hg)

theorem foldl_nested {α β γ : Type} (f : γ → α → β → γ) (l1 : List α) (l2 : List β) (g : γ) :
    l1.foldl (fun g a => l2.foldl (fun g b => f g a b) g) g
      = (l1.flatMap fun a => l2.map fun b => (a, b)).foldl (fun g p => f g p.1 p.2) g := by
  induction l1 generalizing g with
  | nil => rfl
  | cons a as ih =>
    simp only [List.foldl_cons, List.flatMap_cons, List.foldl_append, List.foldl_map]
    exact ih _

theorem mem_span (lo hi : Nat) (i : Fin 9) : i ∈ span lo hi ↔ lo ≤ i.val ∧ i.val ≤ hi := by
  simp [span, List.mem_filter]

theorem mem_span_square (i j : Fin 9) :
    j ∈ span (square i.val).1 (square i.val).2 ↔ j.val / 3 = i.val / 3 := by
  rw [mem_span]
  unfold square
  have hi := i.isLt
  have hj := j.isLt
  split_ifs <;> simp only <;> omega

theorem mem_pairs {l1 l2 : List (Fin 9)} (c r : Fin 9) :
    (c, r) ∈ (l1.flatMap fun a => l2.map fun b => (a, b)) ↔ c ∈ l1 ∧ r ∈ l2 := by
  simp only [List.mem_flatMap, List.mem_map, Prod.mk.injEq]
  constructor
  · rintro ⟨a, ha, b, hb, rfl, rfl⟩; exact ⟨ha, hb⟩
  · rintro ⟨h1, h2⟩; exact ⟨c, h1, r, h2, rfl, rfl⟩

/-! ## Keys of a map -/

theorem mem_keys (s : Finset Int) (d : Int) : d ∈ keys s ↔ d ∈ s :=
  RangeOrder.increasing.mem Board.zero s d

theorem keys_nodup (s : Finset Int) : (keys s).Nodup :=
  RangeOrder.increasing.nodup Board.zero s

/-! ## Elementary updates -/

@[simp] theorem setTicks_grid (b : Board) (col row : Fin 9) (s : Finset Int) :
    (b.setTicks col row s).grid = b.grid := rfl

@[simp] theorem setTicks_name (b : Board) (col row : Fin 9) (s : Finset Int) :
    (b.setTicks col row s).name = b.name := rfl

@[simp] theorem setTicks_ticks (b : Board) (col row : Fin 9) (s : Finset Int) (c r : Fin 9) :
    (b.setTicks col row s).ticks c r = if c = col ∧ r = row then s else b.ticks c r := rfl

@[simp] theorem setGrid_grid (b : Board) (col row : Fin 9) (d : Int) (c r : Fin 9) :
    (b.setGrid col row d).grid c r = if c = col ∧ r = row then d else b.grid c r := rfl

@[simp] theorem setGrid_ticks (b : Board) (col row : Fin 9) (d : Int) :
    (b.setGrid col row d).ticks = b.ticks := rfl

@[simp] theorem setGrid_name (b : Board) (col row : Fin 9) (d : Int) :
    (b.setGrid col row d).name = b.name := rfl

@[simp] theorem untick_grid (b : Board) (col row : Fin 9) (d : Int) :
    (b.untick col row d).grid = b.grid := rfl

@[simp] theorem untick_name (b : Board) (col row : Fin 9) (d : Int) :
    (b.untick col row d).name = b.name := rfl

theorem untick_ticks (b : Board) (col row : Fin 9) (d : Int) (c r : Fin 9) :
    (b.untick col row d).ticks c r
      = if c = col ∧ r = row then (b.ticks c r).erase d else b.ticks c r := by
  unfold Board.untick
  rw [setTicks_ticks]
  split_ifs with h
  · rw [h.1, h.2]
  · rfl

/-- Unticking one digit over a list of cells erases it exactly there. -/
theorem untick_list (l : List (Fin 9 × Fin 9)) (d : Int) (b : Board) :
    (l.foldl (fun b p => b.untick p.1 p.2 d) b).grid = b.grid ∧
    (l.foldl (fun b p => b.untick p.1 p.2 d) b).name = b.name ∧
    ∀ c r, (l.foldl (fun b p => b.untick p.1 p.2 d) b).ticks c r
      = if (c, r) ∈ l then (b.ticks c r).erase d else b.ticks c r := by
  induction l generalizing b with
  | nil => simp
  | cons p ps ih =>
    obtain ⟨h1, h2, h3⟩ := ih (b.untick p.1 p.2 d)
    refine ⟨by rw [List.foldl_cons, h1, untick_grid], by rw [List.foldl_cons, h2, untick_name], ?_⟩
    intro c r
    rw [List.foldl_cons, h3, untick_ticks]
    by_cases hp : c = p.1 ∧ r = p.2
    · have : (c, r) = p := by ext <;> simp [hp.1, hp.2]
      simp [hp, this]
    · have : ¬ (c, r) = p := fun h => hp ⟨by rw [← h], by rw [← h]⟩
      simp [hp, this]

theorem untickRow_spec (b : Board) (row : Fin 9) (d : Int) :
    (b.untickRow row d).grid = b.grid ∧ (b.untickRow row d).name = b.name ∧
    ∀ c r, (b.untickRow row d).ticks c r
      = if r = row then (b.ticks c r).erase d else b.ticks c r := by
  have h := untick_list ((List.finRange 9).map fun c => (c, row)) d b
  rw [List.foldl_map] at h
  refine ⟨h.1, h.2.1, fun c r => ?_⟩
  have h3 := h.2.2 c r
  unfold Board.untickRow
  rw [h3]
  simp [eq_comm]

theorem untickCol_spec (b : Board) (col : Fin 9) (d : Int) :
    (b.untickCol col d).grid = b.grid ∧ (b.untickCol col d).name = b.name ∧
    ∀ c r, (b.untickCol col d).ticks c r
      = if c = col then (b.ticks c r).erase d else b.ticks c r := by
  have h := untick_list ((List.finRange 9).map fun r => (col, r)) d b
  rw [List.foldl_map] at h
  refine ⟨h.1, h.2.1, fun c r => ?_⟩
  have h3 := h.2.2 c r
  unfold Board.untickCol
  rw [h3]
  simp [eq_comm]

theorem untickSquare_spec (b : Board) (col row : Fin 9) (d : Int) :
    (b.untickSquare col row d).grid = b.grid ∧ (b.untickSquare col row d).name = b.name ∧
    ∀ c r, (b.untickSquare col row d).ticks c r
      = if sameBlock col row c r then (b.ticks c r).erase d else b.ticks c r := by
  unfold Board.untickSquare
  simp only
  have e := foldl_nested (fun (b : Board) (c r : Fin 9) => b.untick c r d)
    (span (square col.val).1 (square col.val).2) (span (square row.val).1 (square row.val).2) b
  rw [e]
  have h := untick_list ((span (square col.val).1 (square col.val).2).flatMap fun a =>
    (span (square row.val).1 (square row.val).2).map fun b => (a, b)) d b
  refine ⟨h.1, h.2.1, fun c r => ?_⟩
  have hm : (c, r) ∈ ((span (square col.val).1 (square col.val).2).flatMap fun a =>
      (span (square row.val).1 (square row.val).2).map fun b => (a, b))
      ↔ sameBlock col row c r := by
    rw [mem_pairs, mem_span_square, mem_span_square]
    rfl
  rw [h.2.2 c r]
  simp only [hm]

/-- Effect of `setDigit` with a non-zero digit, cell by cell. -/
theorem setDigit_spec (b : Board) (col row : Fin 9) (d : Int) (hd : d ≠ 0) :
    (b.setDigit col row d).name = b.name ∧
    (∀ c r, (b.setDigit col row d).grid c r = if c = col ∧ r = row then d else b.grid c r) ∧
    ∀ c r, (b.setDigit col row d).ticks c r
      = if c = col ∧ r = row then ∅
        else if sees col row c r then (b.ticks c r).erase d else b.ticks c r := by
  unfold Board.setDigit
  rw [if_neg hd]
  simp only
  obtain ⟨s1, s2, s3⟩ := untickSquare_spec
    ((((b.setGrid col row d).setTicks col row ∅).untickRow row d).untickCol col d) col row d
  obtain ⟨c1, c2, c3⟩ := untickCol_spec
    (((b.setGrid col row d).setTicks col row ∅).untickRow row d) col d
  obtain ⟨r1, r2, r3⟩ := untickRow_spec ((b.setGrid col row d).setTicks col row ∅) row d
  refine ⟨by rw [s2, c2, r2]; rfl, fun c r => by rw [s1, c1, r1]; rfl, fun c r => ?_⟩
  rw [s3, c3, r3, setTicks_ticks, setGrid_ticks]
  unfold sees
  by_cases h : c = col ∧ r = row
  · obtain ⟨rfl, rfl⟩ := h
    simp [sameBlock]
  · by_cases hr : r = row <;> by_cases hc : c = col <;> by_cases hs : sameBlock col row c r <;>
      simp [h, hr, hc, hs, Finset.erase_idem]

theorem setDigit_zero (b : Board) (col row : Fin 9) : b.setDigit col row 0 = b := by
  simp [Board.setDigit]

/-! ## Validity check -/

theorem foldl_and {α : Type} (ok : α → Bool) (l : List α) (v : Bool) :
    l.foldl (fun v x => v && ok x) v = (v && l.all ok) := by
  induction l generalizing v with
  | nil => simp
  | cons x xs ih => rw [List.foldl_cons, ih, List.all_cons, Bool.and_assoc]

/-- Generalised duplicate scan: starting from flag `v` and seen-set `seen`. -/
theorem scan_fold (ds : List Int) (v : Bool) (seen : Finset Int) :
    (ds.foldl (fun (st : Bool × Finset Int) d =>
      if d = 0 then st
      else (if d ∈ st.2 then false else st.1, insert d st.2)) (v, seen)).1 = true
      ↔ v = true ∧ (ds.filter (· ≠ 0)).Nodup ∧ ∀ d ∈ ds, d ≠ 0 → d ∉ seen := by
  induction ds generalizing v seen with
  | nil => simp
  | cons d ds ih =>
    rw [List.foldl_cons]
    by_cases hd : d = 0
    · rw [if_pos hd, ih]
      simp [hd]
    · rw [if_neg hd, ih]
      have hf : (d :: ds).filter (· ≠ 0) = d :: ds.filter (· ≠ 0) := by simp [hd]
      rw [hf, List.nodup_cons]
      constructor
      · rintro ⟨h1, h2, h3⟩
        have hds : d ∉ seen := by
          by_contra hc
          simp [hc] at h1
        refine ⟨by simpa [hds] using h1, ⟨?_, h2⟩, ?_⟩
        · intro hm
          have hm2 := (List.mem_filter.mp hm).1
          exact h3 d hm2 hd (Finset.mem_insert_self _ _)
        · intro e he hne
          rcases List.mem_cons.mp he with rfl | he
          · exact hds
          · exact fun hc => h3 e he hne (Finset.mem_insert_of_mem hc)
      · rintro ⟨h1, ⟨h2, h3⟩, h4⟩
        have hds : d ∉ seen := h4 d (List.mem_cons_self _ _) hd
        refine ⟨by simpa [hds] using h1, h3, ?_⟩
        intro e he hne hc
        rcases Finset.mem_insert.mp hc with rfl | hc
        · exact h2 (List.mem_filter.mpr ⟨he, by simpa using hne⟩)
        · exact h4 e (List.mem_cons_of_mem _ he) hne hc

theorem scanLine_true (ds : List Int) (v : Bool) :
    (scanLine ds v).1 = true ↔ v = true ∧ (ds.filter (· ≠ 0)).Nodup := by
  unfold scanLine
  rw [scan_fold]
  simp

theorem nodup_line (f : Fin 9 → Int) :
    (((List.finRange 9).map f).filter (· ≠ 0)).Nodup
      ↔ ∀ i j, i ≠ j → f i ≠ 0 → f i ≠ f j := by
  rw [List.filter_map, List.nodup_map_iff_inj_on ((List.nodup_finRange 9).filter _)]
  simp only [List.mem_filter, List.mem_finRange, true_and, Function.comp_apply,
    decide_eq_true_eq]
  constructor
  · intro h i j hij hi hfij
    exact hij (h i hi j (by rw [← hfij]; exact hi) hfij)
  · intro h i hi j _ hfij
    by_contra hij
    exact h i j hij hi hfij

/-- Sticky flag over the lines of `valid`: the flag stays true iff every line
is free of duplicates. -/
theorem scan_lines (line : Fin 9 → List Int) (l : List (Fin 9)) (v : Bool) :
    l.foldl (fun v i => (scanLine (line i) v).1) v = true
      ↔ v = true ∧ ∀ i ∈ l, ((line i).filter (· ≠ 0)).Nodup := by
  induction l generalizing v with
  | nil => simp
  | cons i is ih =>
    rw [List.foldl_cons, ih, scanLine_true]
    simp only [List.mem_cons, forall_eq_or_imp]
    tauto

theorem cells_fold (b : Board) (v : Bool) :
    (List.finRange 9).foldl (fun valid col =>
      (List.finRange 9).foldl (fun valid row =>
        let valid := if b.grid col row > 9 ∨ b.grid col row < 0 then false else valid
        let valid := if (b.ticks col row).card > 9 then false else valid
        let valid := if b.grid col row = 0 ∧ (b.ticks col row).card ≤ 0 then false else valid
        valid) valid) v = true
      ↔ v = true ∧ ∀ col row, cellOk b col row = true := by
  have hstep : ∀ (col : Fin 9), (fun (valid : Bool) (row : Fin 9) =>
        let valid := if b.grid col row > 9 ∨ b.grid col row < 0 then false else valid
        let valid := if (b.ticks col row).card > 9 then false else valid
        let valid := if b.grid col row = 0 ∧ (b.ticks col row).card ≤ 0 then false else valid
        valid) = fun valid row => valid && cellOk b col row := by
    intro col
    funext valid row
    have hP : cellOk b col row = true ↔ ¬ (b.grid col row > 9 ∨ b.grid col row < 0) ∧
        ¬ ((b.ticks col row).card > 9) ∧
        ¬ (b.grid col row = 0 ∧ (b.ticks col row).card ≤ 0) := by
      unfold cellOk
      rw [decide_eq_true_eq]
      omega
    dsimp only
    rcases Bool.eq_false_or_eq_true (cellOk b col row) with hc | hc
    · have h := hP.mp hc
      rw [if_neg h.2.2, if_neg h.2.1, if_neg h.1, hc, Bool.and_true]
    · have h : ¬ _ := fun h => (Bool.eq_false_iff.mp hc) (hP.mpr h)
      rw [hc, Bool.and_false]
      by_cases h3 : b.grid col row = 0 ∧ (b.ticks col row).card ≤ 0
      · rw [if_pos h3]
      · rw [if_neg h3]
        by_cases h2 : (b.ticks col row).card > 9
        · rw [if_pos h2]
        · rw [if_neg h2]
          by_cases h1 : b.grid col row > 9 ∨ b.grid col row < 0
          · rw [if_pos h1]
          · exact absurd ⟨h1, h2, h3⟩ h
  simp only [hstep, foldl_and]
  simp [List.all_eq_true]

/-- Characterisation of `valid`. -/
theorem valid_iff (b : Board) :
    b.valid = true ↔
      (∀ c r, 0 ≤ b.grid c r ∧ b.grid c r ≤ 9) ∧
      (∀ c r, (b.ticks c r).card ≤ 9) ∧
      (∀ c r, b.grid c r = 0 → 1 ≤ (b.ticks c r).card) ∧
      (∀ c r r2, r ≠ r2 → b.grid c r ≠ 0 → b.grid c r ≠ b.grid c r2) ∧
      (∀ r c c2, c ≠ c2 → b.grid c r ≠ 0 → b.grid c r ≠ b.grid c2 r) := by
  unfold Board.valid
  simp only
  rw [scan_lines (fun row => (List.finRange 9).map fun col => b.grid col row),
    scan_lines (fun col => (List.finRange 9).map fun row => b.grid col row), cells_fold]
  simp only [List.mem_finRange, true_implies, true_and, cellOk, decide_eq_true_eq]
  constructor
  · rintro ⟨⟨h1, h2⟩, h3⟩
    refine ⟨fun c r => ⟨(h1 c r).1, (h1 c r).2.1⟩, fun c r => (h1 c r).2.2.1,
      fun c r => (h1 c r).2.2.2, fun c => (nodup_line (fun r => b.grid c r)).mp (h2 c),
      fun r => (nodup_line (fun c => b.grid c r)).mp (h3 r)⟩
  · rintro ⟨h1, h2, h3, h4, h5⟩
    exact ⟨⟨fun c r => ⟨(h1 c r).1, (h1 c r).2, h2 c r, h3 c r⟩,
      fun c => (nodup_line (fun r => b.grid c r)).mpr (h4 c)⟩,
      fun r => (nodup_line (fun c => b.grid c r)).mpr (h5 r)⟩

/-- Characterisation of `Solved`. -/
theorem Solved_iff (b : Board) :
    b.Solved = true ↔ b.valid = true ∧ ∀ c r, 1 ≤ b.grid c r ∧ b.grid c r ≤ 9 := by
  unfold Board.Solved
  by_cases hv : b.valid = true
  · simp only [hv, not_true_eq_false, if_false, true_and, List.all_eq_true, List.mem_finRange,
      true_implies]
    constructor
    · intro h c r
      have := h c r
      by_cases hc : b.grid c r < 1 ∨ b.grid c r > 9
      · simp [hc] at this
      · omega
    · intro h c r
      have := h c r
      have hc : ¬ (b.grid c r < 1 ∨ b.grid c r > 9) := by omega
      simp [hc]
  · simp [hv]

/-- Nine pairwise distinct digits within 1..9 are each digit exactly once. -/
theorem latin_line (f : Fin 9 → Int) (hr : ∀ i, 1 ≤ f i ∧ f i ≤ 9)
    (hinj : ∀ i j, i ≠ j → f i ≠ f j) (d : Int) (hd : 1 ≤ d ∧ d ≤ 9) : ∃! i, f i = d := by
  have hi : Function.Injective f := by
    intro i j hij
    by_contra hne
    exact hinj i j hne hij
  have himg : Finset.univ.image f = Finset.Icc (1 : Int) 9 := by
    apply Finset.eq_of_subset_of_card_le
    · intro x hx
      obtain ⟨i, _, rfl⟩ := Finset.mem_image.mp hx
      exact Finset.mem_Icc.mpr (hr i)
    · rw [Finset.card_image_of_injective _ hi]
      simp
  have hm : d ∈ Finset.univ.image f := by
    rw [himg]
    exact Finset.mem_Icc.mpr hd
  obtain ⟨i, _, hfi⟩ := Finset.mem_image.mp hm
  exact ⟨i, hfi, fun j hj => hi (hj.trans hfi.symm)⟩

/-! ## Copying and comparing -/

theorem equal_iff (a b : Finset Int) : equal a b = true ↔ a = b := by
  unfold equal
  constructor
  · intro h
    by_cases hc : a.card ≠ b.card
    · simp [hc] at h
    · rw [if_neg hc, List.all_eq_true] at h
      apply Finset.eq_of_subset_of_card_le
      · intro x hx
        simpa using h x ((mem_keys a x).mpr hx)
      · omega
  · rintro rfl
    simp [List.all_eq_true, mem_keys]

theorem board_equal_iff (b b2 : Board) :
    b.equal b2 = true ↔ b.grid = b2.grid ∧ b.ticks = b2.ticks := by
  unfold Board.equal
  simp only [List.all_eq_true, List.mem_finRange, true_implies]
  constructor
  · intro h
    have hc : ∀ c r, b.grid c r = b2.grid c r ∧ b.ticks c r = b2.ticks c r := by
      intro c r
      have := h c r
      by_cases hg : b.grid c r ≠ b2.grid c r
      · simp [hg] at this
      · by_cases ht : Sudoku.equal (b.ticks c r) (b2.ticks c r) = true
        · exact ⟨not_not.mp hg, (Sudoku.equal_iff _ _).mp ht⟩
        · simp [hg, ht] at this
    exact ⟨funext fun c => funext fun r => (hc c r).1, funext fun c => funext fun r => (hc c r).2⟩
  · rintro ⟨hg, ht⟩ c r
    have e : Sudoku.equal (b2.ticks c r) (b2.ticks c r) = true := (Sudoku.equal_iff _ _).mpr rfl
    simp [hg, ht, e]

theorem keys_toFinset (s : Finset Int) : (keys s).toFinset = s := by
  ext d
  rw [List.mem_toFinset, mem_keys]

/-- Filling the map of one cell key by key (the loops of `init` and `copy`). -/
theorem fill_spec (l : List Int) (col row : Fin 9) (b : Board) :
    (l.foldl (fun b d => b.setTicks col row (insert d (b.ticks col row))) b).grid = b.grid ∧
    (l.foldl (fun b d => b.setTicks col row (insert d (b.ticks col row))) b).name = b.name ∧
    ∀ c r, (l.foldl (fun b d => b.setTicks col row (insert d (b.ticks col row))) b).ticks c r
      = if c = col ∧ r = row then b.ticks c r ∪ l.toFinset else b.ticks c r := by
  induction l generalizing b with
  | nil => simp
  | cons d ds ih =>
    obtain ⟨h1, h2, h3⟩ := ih (b.setTicks col row (insert d (b.ticks col row)))
    refine ⟨by rw [List.foldl_cons, h1, setTicks_grid], by rw [List.foldl_cons, h2, setTicks_name],
      fun c r => ?_⟩
    rw [List.foldl_cons, h3, setTicks_ticks]
    by_cases h : c = col ∧ r = row
    · obtain ⟨rfl, rfl⟩ := h
      simp only [and_self, if_true, List.toFinset_cons]
      ext x
      simp only [Finset.mem_union, Finset.mem_insert]
      tauto
    · simp [h]

/-- Nested loop over all cells whose body replaces the map of its cell by
`T col row` and touches nothing else. -/
theorem refill_all (f : Board → Fin 9 → Fin 9 → Board) (T : Fin 9 → Fin 9 → Finset Int)
    (hf : ∀ b col row, (f b col row).grid = b.grid ∧ (f b col row).name = b.name ∧
      ∀ c r, (f b col row).ticks c r = if c = col ∧ r = row then T col row else b.ticks c r)
    (b : Board) :
    ((List.finRange 9).foldl (fun b col =>
        (List.finRange 9).foldl (fun b row => f b col row) b) b).grid = b.grid ∧
    ((List.finRange 9).foldl (fun b col =>
        (List.finRange 9).foldl (fun b row => f b col row) b) b).name = b.name ∧
    ((List.finRange 9).foldl (fun b col =>
        (List.finRange 9).foldl (fun b row => f b col row) b) b).ticks = T := by
  rw [foldl_nested f]
  have key : ∀ (l : List (Fin 9 × Fin 9)) (b : Board),
      (l.foldl (fun g p => f g p.1 p.2) b).grid = b.grid ∧
      (l.foldl (fun g p => f g p.1 p.2) b).name = b.name ∧
      ∀ c r, (l.foldl (fun g p => f g p.1 p.2) b).ticks c r
        = if (c, r) ∈ l then T c r else b.ticks c r := by
    intro l
    induction l with
    | nil => intro b; simp
    | cons p ps ih =>
      intro b
      obtain ⟨h1, h2, h3⟩ := ih (f b p.1 p.2)
      obtain ⟨f1, f2, f3⟩ := hf b p.1 p.2
      refine ⟨by rw [List.foldl_cons, h1, f1], by rw [List.foldl_cons, h2, f2], fun c r => ?_⟩
      rw [List.foldl_cons, h3, f3]
      by_cases hp : c = p.1 ∧ r = p.2
      · have : (c, r) = p := by ext <;> simp [hp.1, hp.2]
        simp [hp, this]
      · have : ¬ (c, r) = p := fun h => hp ⟨by rw [← h], by rw [← h]⟩
        simp [hp, this]
  obtain ⟨h1, h2, h3⟩ := key _ b
  refine ⟨h1, h2, ?_⟩
  funext c r
  rw [h3, if_pos]
  exact (mem_pairs c r).mpr ⟨List.mem_finRange c, List.mem_finRange r⟩

theorem setDigit_grid (b : Board) (col row : Fin 9) (d : Int) (c r : Fin 9) :
    (b.setDigit col row d).grid c r = if d ≠ 0 ∧ c = col ∧ r = row then d else b.grid c r := by
  by_cases hd : d = 0
  · subst hd
    simp [setDigit_zero]
  · rw [(setDigit_spec b col row d hd).2.1]
    simp [hd]

theorem setDigit_name (b : Board) (col row : Fin 9) (d : Int) :
    (b.setDigit col row d).name = b.name := by
  by_cases hd : d = 0
  · subst hd
    simp [setDigit_zero]
  · exact (setDigit_spec b col row d hd).1

/-- Setting the digits `g` cell by cell (first loop of `copy`). -/
theorem setDigits_grid (g : Fin 9 → Fin 9 → Int) (l : List (Fin 9 × Fin 9)) (b : Board) :
    (l.foldl (fun b2 p => b2.setDigit p.1 p.2 (g p.1 p.2)) b).name = b.name ∧
    ∀ c r, (l.foldl (fun b2 p => b2.setDigit p.1 p.2 (g p.1 p.2)) b).grid c r
      = if (c, r) ∈ l ∧ g c r ≠ 0 then g c r else b.grid c r := by
  induction l generalizing b with
  | nil => simp
  | cons p ps ih =>
    obtain ⟨h1, h2⟩ := ih (b.setDigit p.1 p.2 (g p.1 p.2))
    refine ⟨by rw [List.foldl_cons, h1, setDigit_name], fun c r => ?_⟩
    rw [List.foldl_cons, h2, setDigit_grid]
    by_cases hp : c = p.1 ∧ r = p.2
    · obtain ⟨rfl, rfl⟩ := hp
      by_cases hg : g p.1 p.2 = 0 <;> simp [hg]
    · have : ¬ (c, r) = p := fun h => hp ⟨by rw [← h], by rw [← h]⟩
      simp [hp, this]

/-- Method `copy` returns the grid and the candidate sets of its source, under
an empty name. -/
theorem copy_spec (b : Board) :
    b.copy.grid = b.grid ∧ b.copy.ticks = b.ticks ∧ b.copy.name = "" := by
  unfold Board.copy
  simp only
  have e := foldl_nested (fun (b2 : Board) (col row : Fin 9) => b2.setDigit col row (b.grid col row))
    (List.finRange 9) (List.finRange 9) Board.zero
  rw [e]
  obtain ⟨p1, p2⟩ := setDigits_grid b.grid
    ((List.finRange 9).flatMap fun a => (List.finRange 9).map fun b => (a, b)) Board.zero
  obtain ⟨q1, q2, q3⟩ := refill_all
    (fun b2 col row => (keys (b.ticks col row)).foldl
        (fun b2 digit => b2.setTicks col row (insert digit (b2.ticks col row)))
        (b2.setTicks col row ∅)) b.ticks (by
      intro b2 col row
      obtain ⟨f1, f2, f3⟩ := fill_spec (keys (b.ticks col row)) col row (b2.setTicks col row ∅)
      refine ⟨f1, f2, fun c r => ?_⟩
      rw [f3, setTicks_ticks]
      by_cases h : c = col ∧ r = row
      · simp [h, keys_toFinset]
      · simp [h])
    (List.foldl (fun g p => g.setDigit p.1 p.2 (b.grid p.1 p.2)) Board.zero
      ((List.finRange 9).flatMap fun a => (List.finRange 9).map fun b => (a, b)))
  refine ⟨?_, q3, by rw [q2, p1]; rfl⟩
  rw [q1]
  funext c r
  rw [p2]
  have hm : (c, r) ∈ ((List.finRange 9).flatMap fun a => (List.finRange 9).map fun b => (a, b)) :=
    (mem_pairs c r).mpr ⟨List.mem_finRange c, List.mem_finRange r⟩
  by_cases hg : b.grid c r = 0
  · simp [hg, Board.zero]
  · simp [hg, hm]

/-! ## Construction -/

theorem foldl_some {α β : Type} (f : Option β → α → Option β) (g : β → α → β) (l : List α)
    (h : ∀ b x, x ∈ l → f (some b) x = some (g b x)) (b : β) :
    l.foldl f (some b) = some (l.foldl g b) := by
  induction l generalizing b with
  | nil => rfl
  | cons x xs ih =>
    rw [List.foldl_cons, List.foldl_cons, h b x (List.mem_cons_self _ _)]
    exact ih (fun b y hy => h b y (List.mem_cons_of_mem _ hy)) _

theorem byteAt_some (lines : List GoString) (h : Lines9 lines) (row col : Fin 9) :
    ∃ byte, byteAt lines row col = some byte ∧
      ∃ line ∈ lines, byte ∈ line := by
  obtain ⟨h1, h2⟩ := h
  have hr : row.val < lines.length := by rw [h1]; exact row.isLt
  have hl : (lines.get ⟨row.val, hr⟩).length = 9 := h2 _ (List.get_mem _ _ _)
  have hc : col.val < (lines.get ⟨row.val, hr⟩).length := by rw [hl]; exact col.isLt
  refine ⟨(lines.get ⟨row.val, hr⟩).get ⟨col.val, hc⟩, ?_, lines.get ⟨row.val, hr⟩,
    List.get_mem _ _ _, List.get_mem _ _ _⟩
  unfold byteAt
  rw [List.get?_eq_get hr, Option.some_bind, List.get?_eq_get hc]

theorem newCell_some (lines : List GoString) (h : Lines9 lines) (b : Board) (row col : Fin 9) :
    newCell lines (some b) row col = some (b.setDigit col row (digitAt lines row col)) := by
  obtain ⟨byte, hb, -⟩ := byteAt_some lines h row col
  have hd : digitAt lines row col = ((byte + 256 - 48) % 256 : Nat) := by
    unfold digitAt
    rw [hb]
  unfold byteAt at hb
  unfold newCell
  rw [Option.some_bind]
  cases hl : lines.get? row.val with
  | none => rw [hl] at hb; simp at hb
  | some line =>
    rw [hl, Option.some_bind] at hb
    rw [Option.some_bind, hb, Option.map_some', hd]
    by_cases hz : (((byte + 256 - 48) % 256 : Nat) : Int) = 0
    · simp only [hz, if_true, setDigit_zero]
    · simp only [hz, if_false]

theorem init_spec (b : Board) :
    b.init.grid = b.grid ∧ b.init.name = b.name ∧
      b.init.ticks = fun _ _ => Finset.Icc (1 : Int) 9 := by
  unfold Board.init
  refine refill_all (fun b col row => digits.foldl
      (fun b digit => b.setTicks col row (insert digit (b.ticks col row)))
      (b.setTicks col row ∅)) (fun _ _ => Finset.Icc (1 : Int) 9) ?_ b
  intro b2 col row
  obtain ⟨f1, f2, f3⟩ := fill_spec digits col row (b2.setTicks col row ∅)
  refine ⟨f1, f2, fun c r => ?_⟩
  rw [f3, setTicks_ticks]
  by_cases h : c = col ∧ r = row
  · simp only [h, and_self, if_true, Finset.empty_union]
    decide
  · simp [h]

theorem rename_grid (b : Board) (n : String) : ({ b with name := n } : Board).grid = b.grid := rfl

theorem rename_ticks (b : Board) (n : String) : ({ b with name := n } : Board).ticks = b.ticks := rfl

/-- Setting the digits `g` over a list of `(row, col)` pairs (loop of `New`). -/
theorem setDigits_spec (g : Fin 9 → Fin 9 → Int) (l : List (Fin 9 × Fin 9)) (b : Board) :
    (l.foldl (fun b p => b.setDigit p.2 p.1 (g p.1 p.2)) b).name = b.name ∧
    (∀ c r, (l.foldl (fun b p => b.setDigit p.2 p.1 (g p.1 p.2)) b).grid c r
      = if (r, c) ∈ l ∧ g r c ≠ 0 then g r c else b.grid c r) ∧
    ∀ c r d, d ∈ (l.foldl (fun b p => b.setDigit p.2 p.1 (g p.1 p.2)) b).ticks c r ↔
      ¬ ((r, c) ∈ l ∧ g r c ≠ 0) ∧ d ∈ b.ticks c r ∧
        ∀ q ∈ l, sees q.2 q.1 c r → g q.1 q.2 ≠ d ∨ g q.1 q.2 = 0 := by
  induction l generalizing b with
  | nil => simp
  | cons p ps ih =>
    obtain ⟨h1, h2, h3⟩ := ih (b.setDigit p.2 p.1 (g p.1 p.2))
    refine ⟨by rw [List.foldl_cons, h1, setDigit_name], fun c r => ?_, fun c r d => ?_⟩
    · rw [List.foldl_cons, h2, setDigit_grid]
      by_cases hp : c = p.2 ∧ r = p.1
      · obtain ⟨rfl, rfl⟩ := hp
        by_cases hg : g p.1 p.2 = 0 <;> simp [hg]
      · have : ¬ (r, c) = p := fun h => hp ⟨by rw [← h], by rw [← h]⟩
        simp [hp, this]
    · rw [List.foldl_cons, h3]
      simp only [List.mem_cons, forall_eq_or_imp]
      by_cases hg : g p.1 p.2 = 0
      · rw [hg, setDigit_zero]
        by_cases hp : (r, c) = p
        · have : g r c = 0 := by subst hp; exact hg
          simp [hp, this, hg]
        · simp [hp]
      · rw [(setDigit_spec b p.2 p.1 _ hg).2.2]
        by_cases hp : c = p.2 ∧ r = p.1
        · obtain ⟨rfl, rfl⟩ := hp
          simp [hg]
        · have hne : ¬ (r, c) = p := fun h => hp ⟨by rw [← h], by rw [← h]⟩
          by_cases hs : sees p.2 p.1 c r
          · simp only [hp, hs, if_false, if_true, Finset.mem_erase, hne, false_or, hg, or_false,
              true_implies]
            constructor
            · rintro ⟨a1, ⟨a2, a3⟩, a4⟩
              exact ⟨a1, a3, fun e => a2 e.symm, a4⟩
            · rintro ⟨a1, a3, a2, a4⟩
              exact ⟨a1, ⟨fun e => a2 e.symm, a3⟩, a4⟩
          · simp only [hp, hs, if_false, hne, false_or, false_implies, true_and]

/-- What `New` builds from 9 strings of 9 bytes. -/
theorem New_spec (name : String) (lines : List GoString) (h : Lines9 lines) :
    ∃ b, New name lines = some b ∧ b.name = name ∧
      (∀ c r, b.grid c r = digitAt lines r c) ∧
      ∀ c r d, d ∈ b.ticks c r ↔
        digitAt lines r c = 0 ∧ 1 ≤ d ∧ d ≤ 9 ∧
          ∀ c2 r2, sees c2 r2 c r → digitAt lines r2 c2 ≠ d := by
  unfold New
  simp only
  have e := foldl_nested (fun (ob : Option Board) (row col : Fin 9) => newCell lines ob row col)
    (List.finRange 9) (List.finRange 9)
    (some { Board.zero.init with name := name })
  rw [e, foldl_some _ (fun b p => b.setDigit p.2 p.1 (digitAt lines p.1 p.2)) _
    (fun b p _ => newCell_some lines h b p.1 p.2)]
  refine ⟨_, rfl, ?_⟩
  obtain ⟨s1, s2, s3⟩ := setDigits_spec (digitAt lines)
    ((List.finRange 9).flatMap fun a => (List.finRange 9).map fun b => (a, b))
    { Board.zero.init with name := name }
  obtain ⟨i1, -, i3⟩ := init_spec Board.zero
  have hm : ∀ r c : Fin 9,
      (r, c) ∈ ((List.finRange 9).flatMap fun a => (List.finRange 9).map fun b => (a, b)) :=
    fun r c => (mem_pairs r c).mpr ⟨List.mem_finRange r, List.mem_finRange c⟩
  refine ⟨s1, fun c r => ?_, fun c r d => ?_⟩
  · rw [s2]
    by_cases hg : digitAt lines r c = 0
    · rw [if_neg (fun hc => hc.2 hg), hg, rename_grid, i1]
      rfl
    · rw [if_pos ⟨hm r c, hg⟩]
  · rw [s3]
    rw [rename_ticks, i3, Finset.mem_Icc]
    constructor
    · rintro ⟨a1, ⟨a2, a3⟩, a4⟩
      refine ⟨?_, a2, a3, fun c2 r2 hs => ?_⟩
      · by_contra hc
        exact a1 ⟨hm r c, hc⟩
      · rcases a4 (r2, c2) (hm r2 c2) hs with h4 | h4
        · exact h4
        · rw [h4]; omega
    · rintro ⟨a1, a2, a3, a4⟩
      exact ⟨fun hc => hc.2 a1, ⟨a2, a3⟩, fun q _ hs => Or.inl (a4 q.2 q.1 hs)⟩

/-! ## Invariants of the elementary steps -/

theorem sees_symm {col row c r : Fin 9} (h : sees col row c r) : sees c r col row := by
  unfold sees sameBlock at *
  rcases h with h | h | ⟨h1, h2⟩
  · exact Or.inl h.symm
  · exact Or.inr (Or.inl h.symm)
  · exact Or.inr (Or.inr ⟨h1.symm, h2.symm⟩)

theorem sees_self (c r : Fin 9) : sees c r c r := Or.inl rfl

theorem peer_symm {col row c r : Fin 9} (h : peer col row c r) : peer c r col row :=
  ⟨sees_symm h.1, fun e => h.2 ⟨e.1.symm, e.2.symm⟩⟩

theorem grows_refl (b : Board) : Grows b b := ⟨fun _ _ _ => rfl, fun _ _ => Finset.Subset.refl _⟩

theorem Clean.unsolved {b : Board} (hc : Clean b) {c r : Fin 9} {d : Int}
    (hd : d ∈ b.ticks c r) : b.grid c r = 0 := by
  by_contra h
  rw [hc c r h] at hd
  exact absurd hd (Finset.not_mem_empty d)

theorem grows_trans {a b c : Board} (h1 : Grows a b) (h2 : Grows b c) : Grows a c := by
  refine ⟨fun x y hx => ?_, fun x y => (h2.2 x y).trans (h1.2 x y)⟩
  have e := h1.1 x y hx
  rw [h2.1 x y (by rw [e]; exact hx), e]

theorem pres_refl (b : Board) : Pres b b :=
  fun hc hk => ⟨hc, hk, grows_refl b, fun h1 h2 h3 => ⟨h1, h2, h3⟩⟩

theorem pres_trans {a b c : Board} (h1 : Pres a b) (h2 : Pres b c) : Pres a c := by
  intro hc hk
  obtain ⟨c1, k1, g1, s1⟩ := h1 hc hk
  obtain ⟨c2, k2, g2, s2⟩ := h2 c1 k1
  refine ⟨c2, k2, grows_trans g1 g2, fun e d i => ?_⟩
  obtain ⟨e1, d1, i1⟩ := s1 e d i
  exact s2 e1 d1 i1

theorem safe_refl (b : Board) : Safe b b := fun _ _ h => h

theorem safe_trans {a b c : Board} (h1 : Safe a b) (h2 : Safe b c) : Safe a c :=
  fun S hS h => h2 S hS (h1 S hS h)

theorem shrinks_refl (b : Board) : Shrinks b b := ⟨rfl, fun _ _ => Finset.Subset.refl _⟩

theorem shrinks_trans {a b c : Board} (h1 : Shrinks a b) (h2 : Shrinks b c) : Shrinks a c :=
  ⟨h2.1.trans h1.1, fun x y => (h2.2 x y).trans (h1.2 x y)⟩

theorem Shrinks.pres {b b2 : Board} (h : Shrinks b b2) : Pres b b2 := by
  obtain ⟨hg, ht⟩ := h
  intro hc hk
  refine ⟨fun c r hs => ?_, fun c r d hd => hk c r d (ht c r hd),
    ⟨fun c r _ => by rw [hg], ht⟩, fun e d i => ⟨fun c r c2 r2 hs hn hm => ?_, ?_, ?_⟩⟩
  · rw [hg] at hs
    exact Finset.subset_empty.mp (hc c r hs ▸ ht c r)
  · rw [hg] at hn hm
    exact e c r c2 r2 hs hn (ht c r hm)
  · rw [hg]; exact d
  · rw [hg]; exact i

theorem untick_shrinks (b : Board) (col row : Fin 9) (d : Int) : Shrinks b (b.untick col row d) := by
  refine ⟨rfl, fun c r => ?_⟩
  rw [untick_ticks]
  split_ifs
  · exact Finset.erase_subset _ _
  · exact Finset.Subset.refl _

/-- Setting a candidate digit in an unsolved cell keeps the invariants. -/
theorem setDigit_pres (b : Board) (col row : Fin 9) (d : Int) (hd : d ∈ b.ticks col row) :
    Pres b (b.setDigit col row d) := by
  intro hc hk
  have h0 : b.grid col row = 0 := hc.unsolved hd
  have hd0 : d ≠ 0 := by have := hk col row d hd; omega
  obtain ⟨-, sg, st⟩ := setDigit_spec b col row d hd0
  have hsub : ∀ c r, (b.setDigit col row d).ticks c r ⊆ b.ticks c r := by
    intro c r
    rw [st]
    split_ifs
    · exact Finset.empty_subset _
    · exact Finset.erase_subset _ _
    · exact Finset.Subset.refl _
  refine ⟨fun c r hs => ?_, fun c r e he => hk c r e (hsub c r he), ⟨fun c r hs => ?_, hsub⟩,
    fun e dd i => ⟨fun c r c2 r2 hs hn hm => ?_, fun c r c2 r2 hp hn => ?_, fun c r => ?_⟩⟩
  · by_cases hp : c = col ∧ r = row
    · rw [st, if_pos hp]
    · rw [sg, if_neg hp] at hs
      exact Finset.subset_empty.mp (hc c r hs ▸ hsub c r)
  · rw [sg]
    split_ifs with hp
    · rw [hp.1, hp.2] at hs
      exact absurd h0 hs
    · rfl
  · rw [sg] at hn hm
    by_cases hp2 : c2 = col ∧ r2 = row
    · rw [if_pos hp2] at hm
      obtain ⟨rfl, rfl⟩ := hp2
      rw [st] at hm
      split_ifs at hm
      · exact absurd hm (Finset.not_mem_empty _)
      · exact absurd rfl (Finset.mem_erase.mp hm).1
    · rw [if_neg hp2] at hn hm
      exact e c r c2 r2 hs hn (hsub c r hm)
  · rw [sg] at hn ⊢
    rw [sg]
    by_cases hp1 : c = col ∧ r = row
    · have hp2 : ¬ (c2 = col ∧ r2 = row) := fun h => hp.2 ⟨h.1.trans hp1.1.symm, h.2.trans hp1.2.symm⟩
      rw [if_pos hp1, if_neg hp2]
      obtain ⟨rfl, rfl⟩ := hp1
      by_cases hz : b.grid c2 r2 = 0
      · rw [hz]; exact hd0
      · intro heq
        exact e c r c2 r2 (sees_symm hp.1) hz (heq ▸ hd)
    · rw [if_neg hp1] at hn ⊢
      by_cases hp2 : c2 = col ∧ r2 = row
      · rw [if_pos hp2]
        obtain ⟨rfl, rfl⟩ := hp2
        intro heq
        exact e c2 r2 c r hp.1 hn (heq ▸ hd)
      · rw [if_neg hp2]
        exact dd c r c2 r2 hp hn
  · rw [sg]
    split_ifs
    · have := hk col row d hd; omega
    · exact i c r

/-- Setting the digit of the solution in an unsolved cell loses no solution
that the board is consistent with. -/
theorem setDigit_consistent (b : Board) (col row : Fin 9) (S : Fin 9 → Fin 9 → Int)
    (hS : IsSolution S) (h : Consistent b S) (h0 : b.grid col row = 0) :
    Consistent (b.setDigit col row (S col row)) S := by
  have hd0 : S col row ≠ 0 := by have := hS.1 col row; omega
  obtain ⟨-, sg, st⟩ := setDigit_spec b col row (S col row) hd0
  intro c r
  rw [sg, st]
  by_cases hp : c = col ∧ r = row
  · rw [if_pos hp, if_pos hp]
    obtain ⟨rfl, rfl⟩ := hp
    exact ⟨fun _ => ⟨rfl, rfl⟩, fun hz => absurd hz hd0⟩
  · rw [if_neg hp, if_neg hp]
    refine ⟨fun hn => ⟨((h c r).1 hn).1, ?_⟩, fun hz => ?_⟩
    · rw [((h c r).1 hn).2]
      split_ifs <;> simp
    · have hm := (h c r).2 hz
      split_ifs with hs
      · refine Finset.mem_erase.mpr ⟨?_, hm⟩
        have hpeer : peer c r col row :=
          ⟨sees_symm hs, fun e => hp ⟨e.1.symm, e.2.symm⟩⟩
        exact hS.2 c r col row hpeer (by have := hS.1 c r; omega)
      · exact hm

theorem Consistent.clean {b : Board} {S : Fin 9 → Fin 9 → Int} (h : Consistent b S) : Clean b :=
  fun c r hn => ((h c r).1 hn).2

/-- Shrinking candidate sets loses no solution as long as the digit of the
solution stays a candidate of every unsolved cell. -/
theorem Shrinks.consistent {b b2 : Board} {S : Fin 9 → Fin 9 → Int} (h : Shrinks b b2)
    (hc : Consistent b S) (hk : ∀ c r, b.grid c r = 0 → S c r ∈ b2.ticks c r) :
    Consistent b2 S := by
  intro c r
  rw [h.1]
  refine ⟨fun hn => ⟨((hc c r).1 hn).1, ?_⟩, hk c r⟩
  exact Finset.subset_empty.mp (((hc c r).1 hn).2 ▸ h.2 c r)

/-! ## Single candidates -/

theorem keys_singleton (d : Int) : keys {d} = [d] := rfl

/-- Body of `singleTick` on one cell. -/
theorem singleTick_cell (b : Board) (col row : Fin 9) :
    Pres b (if (b.ticks col row).card = 1 then
        (keys (b.ticks col row)).foldl (fun b digit => b.setDigit col row digit) b else b) ∧
    Safe b (if (b.ticks col row).card = 1 then
        (keys (b.ticks col row)).foldl (fun b digit => b.setDigit col row digit) b else b) := by
  by_cases h1 : (b.ticks col row).card = 1
  · rw [if_pos h1]
    obtain ⟨d, hd⟩ := Finset.card_eq_one.mp h1
    have hm : d ∈ b.ticks col row := by rw [hd]; exact Finset.mem_singleton_self d
    rw [hd, keys_singleton, List.foldl_cons, List.foldl_nil]
    refine ⟨setDigit_pres b col row d hm, fun S hS hc => ?_⟩
    have h0 : b.grid col row = 0 := hc.clean.unsolved hm
    have hs : S col row = d := by
      have := (hc col row).2 h0
      rw [hd] at this
      exact Finset.mem_singleton.mp this
    rw [← hs]
    exact setDigit_consistent b col row S hS hc h0
  · rw [if_neg h1]
    exact ⟨pres_refl b, safe_refl b⟩

theorem singleTick_pres_safe (b : Board) : Pres b b.singleTick ∧ Safe b b.singleTick := by
  unfold Board.singleTick
  refine foldl_inv (fun g => Pres b g ∧ Safe b g) _ _ (fun g col _ hg => ?_) b
    ⟨pres_refl b, safe_refl b⟩
  refine foldl_inv (fun g => Pres b g ∧ Safe b g) _ _ (fun g2 row _ hg2 => ?_) g hg
  exact ⟨pres_trans hg2.1 (singleTick_cell g2 col row).1,
    safe_trans hg2.2 (singleTick_cell g2 col row).2⟩

/-! ## Matched pairs -/

/-- Unticking every digit of a list in one cell. -/
theorem untickKeys_spec (l : List Int) (c2 r2 : Fin 9) (b : Board) :
    (l.foldl (fun g d => g.untick c2 r2 d) b).grid = b.grid ∧
    (l.foldl (fun g d => g.untick c2 r2 d) b).name = b.name ∧
    ∀ c r, (l.foldl (fun g d => g.untick c2 r2 d) b).ticks c r
      = if c = c2 ∧ r = r2 then b.ticks c r \ l.toFinset else b.ticks c r := by
  induction l generalizing b with
  | nil => simp
  | cons d ds ih =>
    obtain ⟨h1, h2, h3⟩ := ih (b.untick c2 r2 d)
    refine ⟨by rw [List.foldl_cons, h1, untick_grid], by rw [List.foldl_cons, h2, untick_name],
      fun c r => ?_⟩
    rw [List.foldl_cons, h3, untick_ticks]
    by_cases h : c = c2 ∧ r = r2
    · simp only [h, and_self, if_true, List.toFinset_cons]
      ext x
      simp only [Finset.mem_sdiff, Finset.mem_erase, Finset.mem_insert, List.mem_toFinset]
      tauto
    · simp [h]

/-- Inner loops of `doubleTickTwin` in general form: over a list of cells,
every cell that is not skipped loses the candidates of `(col,row)`. -/
theorem others_spec (skip : Fin 9 × Fin 9 → Prop) [DecidablePred skip] (col row : Fin 9)
    (hskip : skip (col, row)) (l : List (Fin 9 × Fin 9)) (b : Board) :
    (l.foldl (fun g x => if skip x then g
        else (keys (g.ticks col row)).foldl (fun g d => g.untick x.1 x.2 d) g) b).grid = b.grid ∧
    (l.foldl (fun g x => if skip x then g
        else (keys (g.ticks col row)).foldl (fun g d => g.untick x.1 x.2 d) g) b).name = b.name ∧
    ∀ c r, (l.foldl (fun g x => if skip x then g
        else (keys (g.ticks col row)).foldl (fun g d => g.untick x.1 x.2 d) g) b).ticks c r
      = if (c, r) ∈ l ∧ ¬ skip (c, r) then b.ticks c r \ b.ticks col row else b.ticks c r := by
  induction l generalizing b with
  | nil => simp
  | cons x xs ih =>
    rw [List.foldl_cons]
    by_cases hx : skip x
    · rw [if_pos hx]
      obtain ⟨h1, h2, h3⟩ := ih b
      refine ⟨h1, h2, fun c r => ?_⟩
      rw [h3]
      by_cases hc : (c, r) = x
      · have : skip (c, r) := hc ▸ hx
        simp [this]
      · simp [hc]
    · rw [if_neg hx]
      obtain ⟨u1, u2, u3⟩ := untickKeys_spec (keys (b.ticks col row)) x.1 x.2 b
      obtain ⟨h1, h2, h3⟩ := ih ((keys (b.ticks col row)).foldl (fun g d => g.untick x.1 x.2 d) b)
      have hne : ¬ (col = x.1 ∧ row = x.2) := by
        rintro ⟨e1, e2⟩
        have : x = (col, row) := by ext <;> simp [e1, e2]
        exact hx (this ▸ hskip)
      refine ⟨h1.trans u1, h2.trans u2, fun c r => ?_⟩
      rw [h3, u3 col row, if_neg hne, u3 c r, keys_toFinset]
      by_cases hc : c = x.1 ∧ r = x.2
      · have hcx : (c, r) = x := by ext <;> simp [hc.1, hc.2]
        have hs : ¬ skip (c, r) := hcx ▸ hx
        simp [hc, hcx, hs, hx]
      · have hcx : ¬ (c, r) = x := fun h => hc ⟨by rw [← h], by rw [← h]⟩
        simp [hc, hcx]

theorem untickOthersRow_spec (b : Board) (col row c : Fin 9) :
    (b.untickOthersRow col row c).grid = b.grid ∧ (b.untickOthersRow col row c).name = b.name ∧
    ∀ c2 r2, (b.untickOthersRow col row c).ticks c2 r2
      = if r2 = row ∧ c2 ≠ c ∧ c2 ≠ col then b.ticks c2 r2 \ b.ticks col row
        else b.ticks c2 r2 := by
  have h := others_spec (fun x => x.1 = c ∨ x.1 = col) col row (Or.inr rfl)
    ((List.finRange 9).map fun c2 => (c2, row)) b
  rw [List.foldl_map] at h
  refine ⟨h.1, h.2.1, fun c2 r2 => ?_⟩
  have h3 := h.2.2 c2 r2
  unfold Board.untickOthersRow
  rw [h3]
  have hm : (c2, r2) ∈ (List.finRange 9).map (fun c2 => (c2, row)) ↔ r2 = row := by
    simp [eq_comm]
  simp only [hm, not_or]

theorem untickOthersCol_spec (b : Board) (col row r : Fin 9) :
    (b.untickOthersCol col row r).grid = b.grid ∧ (b.untickOthersCol col row r).name = b.name ∧
    ∀ c2 r2, (b.untickOthersCol col row r).ticks c2 r2
      = if c2 = col ∧ r2 ≠ r ∧ r2 ≠ row then b.ticks c2 r2 \ b.ticks col row
        else b.ticks c2 r2 := by
  have h := others_spec (fun x => x.2 = r ∨ x.2 = row) col row (Or.inr rfl)
    ((List.finRange 9).map fun r2 => (col, r2)) b
  rw [List.foldl_map] at h
  refine ⟨h.1, h.2.1, fun c2 r2 => ?_⟩
  have h3 := h.2.2 c2 r2
  unfold Board.untickOthersCol
  rw [h3]
  have hm : (c2, r2) ∈ (List.finRange 9).map (fun r2 => (col, r2)) ↔ c2 = col := by
    simp [eq_comm]
  simp only [hm, not_or]

theorem untickOthersSquare_spec (b : Board) (col row c r : Fin 9) :
    (b.untickOthersSquare col row c r).grid = b.grid ∧
    (b.untickOthersSquare col row c r).name = b.name ∧
    ∀ c2 r2, (b.untickOthersSquare col row c r).ticks c2 r2
      = if sameBlock col row c2 r2 ∧ ¬ (c2 = col ∧ r2 = row) ∧ ¬ (c2 = c ∧ r2 = r)
        then b.ticks c2 r2 \ b.ticks col row else b.ticks c2 r2 := by
  have h := others_spec (fun x => (x.1 = col ∧ x.2 = row) ∨ (x.1 = c ∧ x.2 = r)) col row
    (Or.inl ⟨rfl, rfl⟩)
    ((span (square col.val).1 (square col.val).2).flatMap fun a =>
      (span (square row.val).1 (square row.val).2).map fun b => (a, b)) b
  have e := foldl_nested (fun (g : Board) (c2 r2 : Fin 9) =>
      if c2 = col ∧ r2 = row then g
      else if c2 = c ∧ r2 = r then g
      else (keys (g.ticks col row)).foldl (fun g digit => g.untick c2 r2 digit) g)
    (span (square col.val).1 (square col.val).2) (span (square row.val).1 (square row.val).2) b
  have hf : (fun (g : Board) (p : Fin 9 × Fin 9) =>
      if p.1 = col ∧ p.2 = row then g
      else if p.1 = c ∧ p.2 = r then g
      else (keys (g.ticks col row)).foldl (fun g digit => g.untick p.1 p.2 digit) g)
      = fun g x => if (x.1 = col ∧ x.2 = row) ∨ (x.1 = c ∧ x.2 = r) then g
        else (keys (g.ticks col row)).foldl (fun g d => g.untick x.1 x.2 d) g := by
    funext g p
    by_cases h1 : p.1 = col ∧ p.2 = row
    · simp [h1]
    · by_cases h2 : p.1 = c ∧ p.2 = r
      · simp [h2]
      · simp [h1, h2]
  unfold Board.untickOthersSquare
  simp only
  rw [e, hf]
  refine ⟨h.1, h.2.1, fun c2 r2 => ?_⟩
  rw [h.2.2 c2 r2]
  have hm : (c2, r2) ∈ ((span (square col.val).1 (square col.val).2).flatMap fun a =>
      (span (square row.val).1 (square row.val).2).map fun b => (a, b))
      ↔ sameBlock col row c2 r2 := by
    rw [mem_pairs, mem_span_square, mem_span_square]
    rfl
  simp only [hm, not_or]

/-- Naked pair: two peers that both take their digit from a two-element set
leave neither element to a common peer. -/
theorem pair_excludes (S : Fin 9 → Fin 9 → Int) (hS : IsSolution S) (T : Finset Int)
    (hT : T.card = 2) (c1 r1 c2 r2 c r : Fin 9) (h12 : peer c1 r1 c2 r2)
    (h1 : S c1 r1 ∈ T) (h2 : S c2 r2 ∈ T) (hx1 : peer c r c1 r1) (hx2 : peer c r c2 r2) :
    S c r ∉ T := by
  obtain ⟨x, y, -, rfl⟩ := Finset.card_eq_two.mp hT
  have n1 : S c1 r1 ≠ 0 := by have := hS.1 c1 r1; omega
  have n : S c r ≠ 0 := by have := hS.1 c r; omega
  have d12 := hS.2 c1 r1 c2 r2 h12 n1
  have dx1 := hS.2 c r c1 r1 hx1 n
  have dx2 := hS.2 c r c2 r2 hx2 n
  simp only [Finset.mem_insert, Finset.mem_singleton] at h1 h2 ⊢
  rintro (h | h) <;> rcases h1 with h1 | h1 <;> rcases h2 with h2 | h2 <;>
    simp_all

/-- Soundness of one elimination: `(col,row)` and its twin `(c,r)` share a
two-element candidate set, which is removed from common peers only. -/
theorem pair_safe (b b2 : Board) (col row c r : Fin 9) (hp : peer col row c r)
    (hq : b.ticks c r = b.ticks col row) (hg : b2.grid = b.grid)
    (ht : ∀ c2 r2, b2.ticks c2 r2 = b.ticks c2 r2 ∨
      (peer c2 r2 col row ∧ peer c2 r2 c r ∧ b2.ticks c2 r2 = b.ticks c2 r2 \ b.ticks col row)) :
    PairStep col row b b2 := by
  have hsh : Shrinks b b2 := by
    refine ⟨hg, fun c2 r2 => ?_⟩
    rcases ht c2 r2 with h | ⟨-, -, h⟩ <;> rw [h]
    exact Finset.sdiff_subset
  have hsame : b2.ticks col row = b.ticks col row := by
    rcases ht col row with h | ⟨h, -, -⟩
    · exact h
    · exact absurd ⟨rfl, rfl⟩ h.2
  refine ⟨hsh, hsame, fun hT S hS hc => hsh.consistent hc (fun c2 r2 h0 => ?_)⟩
  have hm := (hc c2 r2).2 h0
  rcases ht c2 r2 with h | ⟨p1, p2, h⟩
  · rw [h]; exact hm
  · rw [h]
    refine Finset.mem_sdiff.mpr ⟨hm, ?_⟩
    obtain ⟨d, hd⟩ := Finset.card_pos.mp (by rw [hT]; decide : 0 < (b.ticks col row).card)
    have u1 : b.grid col row = 0 := hc.clean.unsolved hd
    have u2 : b.grid c r = 0 := hc.clean.unsolved (hq ▸ hd)
    exact pair_excludes S hS _ hT col row c r c2 r2 hp ((hc col row).2 u1)
      (hq ▸ (hc c r).2 u2) p1 p2

theorem pairStep_refl (col row : Fin 9) (b : Board) : PairStep col row b b :=
  ⟨shrinks_refl b, rfl, fun _ => safe_refl b⟩

theorem pairStep_trans {col row : Fin 9} {a b c : Board} (h1 : PairStep col row a b)
    (h2 : PairStep col row b c) : PairStep col row a c :=
  ⟨shrinks_trans h1.1 h2.1, h2.2.1.trans h1.2.1,
    fun hT => safe_trans (h1.2.2 hT) (h2.2.2 (by rw [h1.2.1]; exact hT))⟩

/-- Outcome of the row search: no twin in the list, or the elimination for
the first twin of the list. -/
theorem twinRow_cases (b : Board) (col row : Fin 9) (l : List (Fin 9)) :
    (b.twinRow col row l = b ∧ ∀ c ∈ l, c ≠ col → b.ticks c row ≠ b.ticks col row) ∨
    ∃ l1 c l2, l = l1 ++ c :: l2 ∧ (∀ x ∈ l1, x ≠ col → b.ticks x row ≠ b.ticks col row) ∧
      c ≠ col ∧ b.ticks c row = b.ticks col row ∧
      b.twinRow col row l = b.untickOthersRow col row c := by
  induction l with
  | nil => exact Or.inl ⟨rfl, fun _ h => absurd h (List.not_mem_nil _)⟩
  | cons c cs ih =>
    unfold Board.twinRow
    by_cases hc : c = col
    · rw [if_pos hc]
      rcases ih with ⟨h1, h2⟩ | ⟨l1, x, l2, e, h1, h2, h3, h4⟩
      · refine Or.inl ⟨h1, fun y hy hne => ?_⟩
        rcases List.mem_cons.mp hy with rfl | hy
        · exact absurd hc hne
        · exact h2 y hy hne
      · refine Or.inr ⟨c :: l1, x, l2, by rw [e]; rfl, fun y hy hne => ?_, h2, h3, h4⟩
        rcases List.mem_cons.mp hy with rfl | hy
        · exact absurd hc hne
        · exact h1 y hy hne
    · rw [if_neg hc]
      by_cases he : Sudoku.equal (b.ticks col row) (b.ticks c row) = true
      · rw [if_pos he]
        exact Or.inr ⟨[], c, cs, rfl, fun _ h => absurd h (List.not_mem_nil _), hc,
          ((Sudoku.equal_iff _ _).mp he).symm, rfl⟩
      · rw [if_neg he]
        have hne : b.ticks c row ≠ b.ticks col row :=
          fun h => he ((Sudoku.equal_iff _ _).mpr h.symm)
        rcases ih with ⟨h1, h2⟩ | ⟨l1, x, l2, e, h1, h2, h3, h4⟩
        · refine Or.inl ⟨h1, fun y hy hy2 => ?_⟩
          rcases List.mem_cons.mp hy with rfl | hy
          · exact hne
          · exact h2 y hy hy2
        · refine Or.inr ⟨c :: l1, x, l2, by rw [e]; rfl, fun y hy hy2 => ?_, h2, h3, h4⟩
          rcases List.mem_cons.mp hy with rfl | hy
          · exact hne
          · exact h1 y hy hy2

/-- Outcome of the column search. -/
theorem twinCol_cases (b : Board) (col row : Fin 9) (l : List (Fin 9)) :
    (b.twinCol col row l = b ∧ ∀ r ∈ l, r ≠ row → b.ticks col r ≠ b.ticks col row) ∨
    ∃ l1 r l2, l = l1 ++ r :: l2 ∧ (∀ x ∈ l1, x ≠ row → b.ticks col x ≠ b.ticks col row) ∧
      r ≠ row ∧ b.ticks col r = b.ticks col row ∧
      b.twinCol col row l = b.untickOthersCol col row r := by
  induction l with
  | nil => exact Or.inl ⟨rfl, fun _ h => absurd h (List.not_mem_nil _)⟩
  | cons c cs ih =>
    unfold Board.twinCol
    by_cases hc : c = row
    · rw [if_pos hc]
      rcases ih with ⟨h1, h2⟩ | ⟨l1, x, l2, e, h1, h2, h3, h4⟩
      · refine Or.inl ⟨h1, fun y hy hne => ?_⟩
        rcases List.mem_cons.mp hy with rfl | hy
        · exact absurd hc hne
        · exact h2 y hy hne
      · refine Or.inr ⟨c :: l1, x, l2, by rw [e]; rfl, fun y hy hne => ?_, h2, h3, h4⟩
        rcases List.mem_cons.mp hy with rfl | hy
        · exact absurd hc hne
        · exact h1 y hy hne
    · rw [if_neg hc]
      by_cases he : Sudoku.equal (b.ticks col row) (b.ticks col c) = true
      · rw [if_pos he]
        exact Or.inr ⟨[], c, cs, rfl, fun _ h => absurd h (List.not_mem_nil _), hc,
          ((Sudoku.equal_iff _ _).mp he).symm, rfl⟩
      · rw [if_neg he]
        have hne : b.ticks col c ≠ b.ticks col row :=
          fun h => he ((Sudoku.equal_iff _ _).mpr h.symm)
        rcases ih with ⟨h1, h2⟩ | ⟨l1, x, l2, e, h1, h2, h3, h4⟩
        · refine Or.inl ⟨h1, fun y hy hy2 => ?_⟩
          rcases List.mem_cons.mp hy with rfl | hy
          · exact hne
          · exact h2 y hy hy2
        · refine Or.inr ⟨c :: l1, x, l2, by rw [e]; rfl, fun y hy hy2 => ?_, h2, h3, h4⟩
          rcases List.mem_cons.mp hy with rfl | hy
          · exact hne
          · exact h1 y hy hy2

/-- Outcome of the square search within one column of the square. -/
theorem twinSquareRows_cases (b : Board) (col row c : Fin 9) (l : List (Fin 9)) :
    b.twinSquareRows col row c l = b ∨
    ∃ r ∈ l, ¬ (c = col ∧ r = row) ∧ b.ticks c r = b.ticks col row ∧
      b.twinSquareRows col row c l = b.untickOthersSquare col row c r := by
  induction l with
  | nil => exact Or.inl rfl
  | cons r rs ih =>
    unfold Board.twinSquareRows
    by_cases hc : c = col ∧ r = row
    · rw [if_pos hc]
      rcases ih with h | ⟨x, hx, h⟩
      · exact Or.inl h
      · exact Or.inr ⟨x, List.mem_cons_of_mem _ hx, h⟩
    · rw [if_neg hc]
      by_cases he : Sudoku.equal (b.ticks col row) (b.ticks c r) = true
      · rw [if_pos he]
        exact Or.inr ⟨r, List.mem_cons_self _ _, hc, ((Sudoku.equal_iff _ _).mp he).symm, rfl⟩
      · rw [if_neg he]
        rcases ih with h | ⟨x, hx, h⟩
        · exact Or.inl h
        · exact Or.inr ⟨x, List.mem_cons_of_mem _ hx, h⟩

theorem twinRow_step (b : Board) (col row : Fin 9) (l : List (Fin 9)) :
    PairStep col row b (b.twinRow col row l) := by
  rcases twinRow_cases b col row l with ⟨h, -⟩ | ⟨-, c, -, -, -, hc, hq, h⟩
  · rw [h]; exact pairStep_refl col row b
  · rw [h]
    obtain ⟨s1, -, s3⟩ := untickOthersRow_spec b col row c
    refine pair_safe b _ col row c row ⟨Or.inl rfl, fun e => hc e.1⟩ hq s1 (fun c2 r2 => ?_)
    rw [s3]
    by_cases hx : r2 = row ∧ c2 ≠ c ∧ c2 ≠ col
    · rw [if_pos hx]
      exact Or.inr ⟨⟨Or.inl hx.1.symm, fun e => hx.2.2 e.1.symm⟩,
        ⟨Or.inl hx.1.symm, fun e => hx.2.1 e.1.symm⟩, rfl⟩
    · rw [if_neg hx]
      exact Or.inl rfl

theorem twinCol_step (b : Board) (col row : Fin 9) (l : List (Fin 9)) :
    PairStep col row b (b.twinCol col row l) := by
  rcases twinCol_cases b col row l with ⟨h, -⟩ | ⟨-, r, -, -, -, hr, hq, h⟩
  · rw [h]; exact pairStep_refl col row b
  · rw [h]
    obtain ⟨s1, -, s3⟩ := untickOthersCol_spec b col row r
    refine pair_safe b _ col row col r ⟨Or.inr (Or.inl rfl), fun e => hr e.2⟩ hq s1
      (fun c2 r2 => ?_)
    rw [s3]
    by_cases hx : c2 = col ∧ r2 ≠ r ∧ r2 ≠ row
    · rw [if_pos hx]
      exact Or.inr ⟨⟨Or.inr (Or.inl hx.1.symm), fun e => hx.2.2 e.2.symm⟩,
        ⟨Or.inr (Or.inl hx.1.symm), fun e => hx.2.1 e.2.symm⟩, rfl⟩
    · rw [if_neg hx]
      exact Or.inl rfl

theorem sameBlock_trans {c1 r1 c2 r2 c3 r3 : Fin 9} (h1 : sameBlock c1 r1 c2 r2)
    (h2 : sameBlock c1 r1 c3 r3) : sameBlock c3 r3 c2 r2 :=
  ⟨h1.1.trans h2.1.symm, h1.2.trans h2.2.symm⟩

theorem twinSquareRows_step (b : Board) (col row c : Fin 9)
    (hc : c ∈ span (square col.val).1 (square col.val).2) :
    PairStep col row b
      (b.twinSquareRows col row c (span (square row.val).1 (square row.val).2)) := by
  rcases twinSquareRows_cases b col row c (span (square row.val).1 (square row.val).2)
    with h | ⟨r, hr, hne, hq, h⟩
  · rw [h]; exact pairStep_refl col row b
  · rw [h]
    have hb : sameBlock col row c r :=
      ⟨(mem_span_square col c).mp hc, (mem_span_square row r).mp hr⟩
    obtain ⟨s1, -, s3⟩ := untickOthersSquare_spec b col row c r
    refine pair_safe b _ col row c r ⟨Or.inr (Or.inr hb), hne⟩ hq s1 (fun c2 r2 => ?_)
    rw [s3]
    by_cases hx : sameBlock col row c2 r2 ∧ ¬ (c2 = col ∧ r2 = row) ∧ ¬ (c2 = c ∧ r2 = r)
    · rw [if_pos hx]
      refine Or.inr ⟨⟨Or.inr (Or.inr ⟨hx.1.1.symm, hx.1.2.symm⟩),
        fun e => hx.2.1 ⟨e.1.symm, e.2.symm⟩⟩,
        ⟨Or.inr (Or.inr (sameBlock_trans hb hx.1)), fun e => hx.2.2 ⟨e.1.symm, e.2.symm⟩⟩, rfl⟩
    · rw [if_neg hx]
      exact Or.inl rfl

theorem doubleTickTwin_step (b : Board) (col row : Fin 9) :
    PairStep col row b (b.doubleTickTwin col row) := by
  unfold Board.doubleTickTwin
  simp only
  refine foldl_inv (fun g => PairStep col row b g) _ _
    (fun g c hc hg => pairStep_trans hg (twinSquareRows_step g col row c hc)) _ ?_
  exact pairStep_trans (twinRow_step b col row _) (twinCol_step _ col row _)

theorem doubleTick_shrinks_safe (b : Board) : Shrinks b b.doubleTick ∧ Safe b b.doubleTick := by
  unfold Board.doubleTick
  refine foldl_inv (fun g => Shrinks b g ∧ Safe b g) _ _ (fun g col _ hg => ?_) b
    ⟨shrinks_refl b, safe_refl b⟩
  refine foldl_inv (fun g => Shrinks b g ∧ Safe b g) _ _ (fun g2 row _ hg2 => ?_) g hg
  by_cases h2 : (g2.ticks col row).card = 2
  · rw [if_pos h2]
    obtain ⟨s1, -, s3⟩ := doubleTickTwin_step g2 col row
    exact ⟨shrinks_trans hg2.1 s1, safe_trans hg2.2 (s3 h2)⟩
  · rw [if_neg h2]
    exact hg2

/-! ## Counting and choosing cells -/

theorem countP_fold {α : Type} (p : α → Prop) [DecidablePred p] (l : List α) (n : Nat) :
    l.foldl (fun count x => if p x then count + 1 else count) n = n + l.countP p := by
  induction l generalizing n with
  | nil => simp
  | cons x xs ih =>
    rw [List.foldl_cons, ih, List.countP_cons]
    by_cases h : p x
    · simp [h]; omega
    · simp [h]

theorem pairs_nodup :
    ((List.finRange 9).flatMap fun a => (List.finRange 9).map fun b => (a, b)).Nodup := by
  decide

theorem countSolved_eq (b : Board) : b.countSolved = (solvedCells b).card := by
  unfold Board.countSolved
  have e := foldl_nested (fun (count : Nat) (col row : Fin 9) =>
    if b.grid col row ≠ 0 then count + 1 else count) (List.finRange 9) (List.finRange 9) 0
  rw [e, countP_fold (fun p : Fin 9 × Fin 9 => b.grid p.1 p.2 ≠ 0), Nat.zero_add,
    List.countP_eq_length_filter, ← List.toFinset_card_of_nodup (pairs_nodup.filter _)]
  congr 1
  ext p
  simp only [List.mem_toFinset, List.mem_filter, solvedCells, Finset.mem_filter,
    Finset.mem_univ, true_and, decide_eq_true_eq, and_iff_right_iff_imp]
  intro _
  exact (mem_pairs p.1 p.2).mpr ⟨List.mem_finRange _, List.mem_finRange _⟩

theorem countSolved_le (b : Board) : b.countSolved ≤ 81 := by
  rw [countSolved_eq]
  exact (Finset.card_le_univ _).trans (by decide)

theorem Grows.count_le {b b2 : Board} (h : Grows b b2) : b.countSolved ≤ b2.countSolved := by
  rw [countSolved_eq, countSolved_eq]
  apply Finset.card_le_card
  intro p hp
  simp only [solvedCells, Finset.mem_filter, Finset.mem_univ, true_and] at hp ⊢
  rw [h.1 p.1 p.2 hp]
  exact hp

theorem Grows.count_lt {b b2 : Board} (h : Grows b b2) (c r : Fin 9) (h0 : b.grid c r = 0)
    (h1 : b2.grid c r ≠ 0) : b.countSolved < b2.countSolved := by
  rw [countSolved_eq, countSolved_eq]
  apply Finset.card_lt_card
  refine Finset.ssubset_iff_of_subset (fun p hp => ?_) |>.mpr ⟨(c, r), ?_, ?_⟩
  · simp only [solvedCells, Finset.mem_filter, Finset.mem_univ, true_and] at hp ⊢
    rw [h.1 p.1 p.2 hp]
    exact hp
  · simp [solvedCells, h1]
  · simp [solvedCells, h0]

/-- Scan of `shortestTicks` over a list of cells from the state `st`: the
length found is at most the one at the start and at most the number of
candidates of any unsolved cell of the list; a length below the starting one
belongs to an unsolved cell. -/
theorem shortest_scan (b : Board) (l : List (Fin 9 × Fin 9)) (st : Nat × Int × Int) :
    let res := l.foldl (fun (st : Nat × Int × Int) p =>
      if b.grid p.1 p.2 = 0 ∧ (b.ticks p.1 p.2).card < st.1 then
        ((b.ticks p.1 p.2).card, (p.1.val : Int), (p.2.val : Int))
      else st) st
    res.1 ≤ st.1 ∧ (∀ p ∈ l, b.grid p.1 p.2 = 0 → res.1 ≤ (b.ticks p.1 p.2).card) ∧
      (res = st ∨ ∃ p ∈ l, b.grid p.1 p.2 = 0 ∧
        res = ((b.ticks p.1 p.2).card, (p.1.val : Int), (p.2.val : Int))) := by
  induction l generalizing st with
  | nil => simp
  | cons x xs ih =>
    simp only [List.foldl_cons]
    by_cases hx : b.grid x.1 x.2 = 0 ∧ (b.ticks x.1 x.2).card < st.1
    · rw [if_pos hx]
      obtain ⟨h1, h2, h3⟩ := ih ((b.ticks x.1 x.2).card, (x.1.val : Int), (x.2.val : Int))
      refine ⟨by simp only at h1; omega, fun p hp h0 => ?_, ?_⟩
      · rcases List.mem_cons.mp hp with rfl | hp
        · exact h1
        · exact h2 p hp h0
      · rcases h3 with h3 | ⟨p, hp, h0, h3⟩
        · exact Or.inr ⟨x, List.mem_cons_self _ _, hx.1, h3⟩
        · exact Or.inr ⟨p, List.mem_cons_of_mem _ hp, h0, h3⟩
    · rw [if_neg hx]
      obtain ⟨h1, h2, h3⟩ := ih st
      refine ⟨h1, fun p hp h0 => ?_, ?_⟩
      · rcases List.mem_cons.mp hp with rfl | hp
        · have : ¬ (b.ticks p.1 p.2).card < st.1 := fun h => hx ⟨h0, h⟩
          omega
        · exact h2 p hp h0
      · rcases h3 with h3 | ⟨p, hp, h0, h3⟩
        · exact Or.inl h3
        · exact Or.inr ⟨p, List.mem_cons_of_mem _ hp, h0, h3⟩

/-- With an unsolved cell of fewer than 10 candidates on the board,
`shortestTicks` returns the indices of an unsolved cell whose candidate count
is minimal among the unsolved cells. -/
theorem shortestTicks_spec (b : Board) (c0 r0 : Fin 9) (h0 : b.grid c0 r0 = 0)
    (h10 : (b.ticks c0 r0).card < 10) :
    ∃ c r : Fin 9, b.shortestTicks = ((c.val : Int), (r.val : Int)) ∧ b.grid c r = 0 ∧
      ∀ c2 r2, b.grid c2 r2 = 0 → (b.ticks c r).card ≤ (b.ticks c2 r2).card := by
  have e := foldl_nested (fun (st : Nat × Int × Int) (col row : Fin 9) =>
      if b.grid col row = 0 ∧ (b.ticks col row).card < st.1 then
        ((b.ticks col row).card, (col.val : Int), (row.val : Int))
      else st) (List.finRange 9) (List.finRange 9) (10, -1, -1)
  have hm : ∀ c r : Fin 9,
      (c, r) ∈ ((List.finRange 9).flatMap fun a => (List.finRange 9).map fun b => (a, b)) :=
    fun c r => (mem_pairs c r).mpr ⟨List.mem_finRange c, List.mem_finRange r⟩
  obtain ⟨-, h2, h3⟩ := shortest_scan b
    ((List.finRange 9).flatMap fun a => (List.finRange 9).map fun b => (a, b)) (10, -1, -1)
  rw [← e] at h2 h3
  have hs : b.shortestTicksScan = (List.finRange 9).foldl (fun st col =>
      (List.finRange 9).foldl (fun (st : Nat × Int × Int) row =>
        if b.grid col row = 0 ∧ (b.ticks col row).card < st.1 then
          ((b.ticks col row).card, (col.val : Int), (row.val : Int))
        else st) st) (10, -1, -1) := rfl
  rw [← hs] at h2 h3
  rcases h3 with h3 | ⟨p, -, hp0, h3⟩
  · have := h2 (c0, r0) (hm c0 r0) h0
    rw [h3] at this
    simp only at this
    omega
  · refine ⟨p.1, p.2, ?_, hp0, fun c2 r2 h => ?_⟩
    · unfold Board.shortestTicks
      rw [h3]
    · have := h2 (c2, r2) (hm c2 r2) h
      rw [h3] at this
      exact this

theorem toIndex_val (c : Fin 9) : toIndex (c.val : Int) = some c := by
  unfold toIndex
  have h : 0 ≤ (c.val : Int) ∧ (c.val : Int) < 9 := by have := c.isLt; omega
  rw [dif_pos h]
  congr 1

theorem guess_eq (o : RangeOrder) (solve : Board → Outcome) (b : Board) (c r : Fin 9)
    (h : b.shortestTicks = ((c.val : Int), (r.val : Int))) :
    b.guess o solve = b.guessLoop solve c r (o.pick b (b.ticks c r)) := by
  unfold Board.guess
  rw [h]
  simp only [toIndex_val]

/-! ## The solver -/

theorem Solve_succ (o : RangeOrder) (n : Nat) (b : Board) :
    b.Solve o (n + 1) =
      if b.singleTick.doubleTick.Solved then .done b.singleTick.doubleTick
      else if ¬ b.singleTick.doubleTick.valid then .done b.singleTick.doubleTick
      else if b.countSolved = b.singleTick.doubleTick.countSolved then
        if ¬ b.singleTick.doubleTick.Solved then
          b.singleTick.doubleTick.guess o (Board.Solve o n)
        else .done b.singleTick.doubleTick
      else Board.Solve o n b.singleTick.doubleTick := rfl

theorem propagate_pres_safe (b : Board) :
    Pres b b.singleTick.doubleTick ∧ Safe b b.singleTick.doubleTick :=
  ⟨pres_trans (singleTick_pres_safe b).1 (doubleTick_shrinks_safe _).1.pres,
    safe_trans (singleTick_pres_safe b).2 (doubleTick_shrinks_safe _).2⟩

theorem copy_shrinks (b : Board) : Shrinks b b.copy := by
  obtain ⟨h1, h2, -⟩ := copy_spec b
  exact ⟨h1, fun c r => by rw [h2]⟩

theorem copy_safe (b : Board) : Safe b b.copy := by
  intro S _ hc
  refine (copy_shrinks b).consistent hc (fun c r h0 => ?_)
  rw [(copy_spec b).2.1]
  exact (hc c r).2 h0

theorem KeysOk.card_le {b : Board} (hk : KeysOk b) (c r : Fin 9) : (b.ticks c r).card ≤ 9 := by
  have hsub : b.ticks c r ⊆ Finset.Icc (1 : Int) 9 :=
    fun d hd => Finset.mem_Icc.mpr (hk c r d hd)
  exact (Finset.card_le_card hsub).trans (by simp)

/-- Board consistent with a solution passes `valid`. -/
theorem consistent_valid (b : Board) (S : Fin 9 → Fin 9 → Int) (hS : IsSolution S)
    (hc : Consistent b S) (hk : KeysOk b) : b.valid = true := by
  have hr : ∀ c r, b.grid c r ≠ 0 → b.grid c r = S c r := fun c r h => ((hc c r).1 h).1
  rw [valid_iff]
  refine ⟨fun c r => ?_, hk.card_le, fun c r h0 => Finset.card_pos.mpr ⟨_, (hc c r).2 h0⟩,
    fun c r r2 hne hn => ?_, fun r c c2 hne hn => ?_⟩
  · by_cases h : b.grid c r = 0
    · omega
    · rw [hr c r h]
      have := hS.1 c r
      omega
  · by_cases h : b.grid c r2 = 0
    · rw [h]; exact hn
    · rw [hr c r hn, hr c r2 h]
      exact hS.2 c r c r2 ⟨Or.inr (Or.inl rfl), fun e => hne e.2.symm⟩
        (by have := hS.1 c r; omega)
  · by_cases h : b.grid c2 r = 0
    · rw [h]; exact hn
    · rw [hr c r hn, hr c2 r h]
      exact hS.2 c r c2 r ⟨Or.inl rfl, fun e => hne e.1.symm⟩
        (by have := hS.1 c r; omega)

/-- Valid board that is not solved has an unsolved cell. -/
theorem unsolved_cell (b : Board) (hv : b.valid = true) (hs : ¬ b.Solved = true) :
    ∃ c r, b.grid c r = 0 := by
  by_contra hne
  apply hs
  rw [Solved_iff]
  refine ⟨hv, fun c r => ?_⟩
  have h1 := ((valid_iff b).mp hv).1 c r
  have h2 : b.grid c r ≠ 0 := fun h => hne ⟨c, r, h⟩
  omega

/-- Loop of `guess`, given that the recursive calls on boards with more
solved cells return and keep the invariants. -/
theorem guessLoop_main (solve : Board → Outcome) (b : Board) (col row : Fin 9)
    (h0 : b.grid col row = 0) (hc : Clean b) (hk : KeysOk b)
    (IH : ∀ b2, Clean b2 → KeysOk b2 → b.countSolved < b2.countSolved →
      ∃ b3, solve b2 = .done b3 ∧ Pres b2 b3 ∧
        ∀ S, IsSolution S → Consistent b2 S → b3.Solved = true)
    (L : List Int) (hL : ∀ d ∈ L, d ∈ b.ticks col row) :
    ∃ b3, b.guessLoop solve col row L = .done b3 ∧ Pres b b3 ∧
      ∀ S, IsSolution S → Consistent b S → S col row ∈ L → b3.Solved = true := by
  induction L with
  | nil =>
    exact ⟨b, rfl, pres_refl b, fun S _ _ h => absurd h (List.not_mem_nil _)⟩
  | cons d ds ih =>
    obtain ⟨cg, ct, -⟩ := copy_spec b
    have hd : d ∈ b.copy.ticks col row := by rw [ct]; exact hL d (List.mem_cons_self _ _)
    have hd0 : d ≠ 0 := by
      have := hk col row d (hL d (List.mem_cons_self _ _)); omega
    have p2 : Pres b (b.copy.setDigit col row d) :=
      pres_trans (copy_shrinks b).pres (setDigit_pres b.copy col row d hd)
    obtain ⟨c2, k2, g2, -⟩ := p2 hc hk
    have hlt : b.countSolved < (b.copy.setDigit col row d).countSolved := by
      refine g2.count_lt col row h0 ?_
      rw [setDigit_grid, if_pos ⟨hd0, rfl, rfl⟩]
      exact hd0
    obtain ⟨b3, e3, p3, s3⟩ := IH _ c2 k2 hlt
    obtain ⟨b4, e4, p4, s4⟩ := ih (fun x hx => hL x (List.mem_cons_of_mem _ hx))
    unfold Board.guessLoop
    rw [e3]
    simp only
    by_cases hs : b3.Solved = true
    · rw [if_pos hs]
      exact ⟨b3, rfl, pres_trans p2 p3, fun _ _ _ _ => hs⟩
    · rw [if_neg hs]
      refine ⟨b4, e4, p4, fun S hS hcs hm => ?_⟩
      rcases List.mem_cons.mp hm with hm | hm
      · exfalso
        apply hs
        apply s3 S hS
        rw [← hm]
        refine setDigit_consistent b.copy col row S hS (copy_safe b S hS hcs) ?_
        rw [cg]
        exact h0
      · exact s4 S hS hcs hm

/-- Main statement on `Solve`: on a clean board with candidates in 1..9 and
fuel above the number of unsolved cells, `Solve` returns a board; the step
from the input keeps the invariants, and the result is solved whenever the
input is consistent with some solution. -/
theorem Solve_main (o : RangeOrder) (n : Nat) :
    ∀ b : Board, Clean b → KeysOk b → 81 - b.countSolved < n →
      ∃ b2, b.Solve o n = .done b2 ∧ Pres b b2 ∧
        ∀ S, IsSolution S → Consistent b S → b2.Solved = true := by
  induction n with
  | zero => intro b _ _ h; omega
  | succ n ih =>
    intro b hc hk hn
    obtain ⟨pp, ps⟩ := propagate_pres_safe b
    rw [Solve_succ]
    generalize b.singleTick.doubleTick = b1 at pp ps ⊢
    obtain ⟨c1, k1, g1, -⟩ := pp hc hk
    have hle := g1.count_le
    have h81 := countSolved_le b1
    by_cases hs : b1.Solved = true
    · rw [if_pos hs]
      exact ⟨_, rfl, pp, fun _ _ _ => hs⟩
    · rw [if_neg hs]
      by_cases hv : b1.valid = true
      · rw [if_neg (not_not.mpr hv)]
        by_cases hcnt : b.countSolved = b1.countSolved
        · rw [if_pos hcnt, if_pos hs]
          obtain ⟨c0, r0, h0⟩ := unsolved_cell _ hv hs
          have h10 : (b1.ticks c0 r0).card < 10 := by
            have := k1.card_le c0 r0; omega
          obtain ⟨c, r, hst, hz, -⟩ := shortestTicks_spec _ c0 r0 h0 h10
          rw [guess_eq o _ _ c r hst]
          obtain ⟨b3, e3, p3, s3⟩ := guessLoop_main (Board.Solve o n) b1
            c r hz c1 k1 (fun b2 cb kb hlt => ih b2 cb kb (by
              have := countSolved_le b2; omega))
            (o.pick b1 (b1.ticks c r))
            (fun d hd => (o.mem b1 (b1.ticks c r) d).mp hd)
          refine ⟨b3, e3, pres_trans pp p3, fun S hS hcs => ?_⟩
          have hc1 := ps S hS hcs
          exact s3 S hS hc1 ((o.mem b1 (b1.ticks c r) _).mpr ((hc1 c r).2 hz))
        · rw [if_neg hcnt]
          obtain ⟨b2, e2, p2, s2⟩ := ih b1 c1 k1 (by omega)
          exact ⟨b2, e2, pres_trans pp p2, fun S hS hcs => s2 S hS (ps S hS hcs)⟩
      · rw [if_pos hv]
        refine ⟨_, rfl, pp, fun S hS hcs => ?_⟩
        exact absurd (consistent_valid _ S hS (ps S hS hcs) k1) hv

/-- More fuel does not change a result of the loop of `guess`. -/
theorem guessLoop_mono (f g : Board → Outcome)
    (h : ∀ b b2, f b = .done b2 → g b = .done b2) (b : Board) (col row : Fin 9) (L : List Int)
    (b3 : Board) (hf : b.guessLoop f col row L = .done b3) :
    b.guessLoop g col row L = .done b3 := by
  induction L with
  | nil => exact hf
  | cons d ds ih =>
    unfold Board.guessLoop at hf ⊢
    cases e : f (b.copy.setDigit col row d) with
    | done b2 =>
      rw [e] at hf
      rw [h _ _ e]
      simp only at hf ⊢
      by_cases hs : b2.Solved = true
      · rw [if_pos hs] at hf ⊢
        exact hf
      · rw [if_neg hs] at hf ⊢
        exact ih hf
    | panic => rw [e] at hf; exact absurd hf (by simp)
    | outOfFuel => rw [e] at hf; exact absurd hf (by simp)

theorem guess_mono (o : RangeOrder) (f g : Board → Outcome)
    (h : ∀ b b2, f b = .done b2 → g b = .done b2) (b b3 : Board)
    (hf : b.guess o f = .done b3) : b.guess o g = .done b3 := by
  unfold Board.guess at hf ⊢
  cases e1 : toIndex b.shortestTicks.1 with
  | none => rw [e1] at hf; exact absurd hf (by simp)
  | some col =>
    cases e2 : toIndex b.shortestTicks.2 with
    | none => rw [e1, e2] at hf; exact absurd hf (by simp)
    | some row =>
      rw [e1, e2] at hf
      exact guessLoop_mono f g h b col row _ b3 hf

/-- More fuel does not change a result of `Solve`. -/
theorem Solve_mono (o : RangeOrder) (n : Nat) :
    ∀ b b2 : Board, b.Solve o n = .done b2 → b.Solve o (n + 1) = .done b2 := by
  induction n with
  | zero => intro b b2 h; exact absurd h (by simp [Board.Solve])
  | succ n ih =>
    intro b b2 h
    rw [Solve_succ] at h ⊢
    generalize b.singleTick.doubleTick = b1 at h ⊢
    by_cases hs : b1.Solved = true
    · rw [if_pos hs] at h ⊢; exact h
    · rw [if_neg hs] at h ⊢
      by_cases hv : ¬ b1.valid = true
      · rw [if_pos hv] at h ⊢; exact h
      · rw [if_neg hv] at h ⊢
        by_cases hc : b.countSolved = b1.countSolved
        · rw [if_pos hc, if_pos hs] at h ⊢
          exact guess_mono o _ _ ih b1 b2 h
        · rw [if_neg hc] at h ⊢
          exact ih b1 b2 h

theorem Solve_fuel (o : RangeOrder) (b b2 : Board) (n m : Nat) (hnm : n ≤ m)
    (h : b.Solve o n = .done b2) : b.Solve o m = .done b2 := by
  induction m with
  | zero =>
    have : n = 0 := by omega
    rw [← this]; exact h
  | succ m ih =>
    by_cases e : n = m + 1
    · rw [← e]; exact h
    · exact Solve_mono o m b b2 (ih (by omega))

/-- On a clean board with candidates in 1..9 every run of `Solve` with more
than 81 units of fuel returns one and the same board. -/
theorem Solve_total (o : RangeOrder) (b : Board) (hc : Clean b) (hk : KeysOk b) :
    ∃ b2, (∀ n, 82 ≤ n → b.Solve o n = .done b2) ∧ Pres b b2 ∧
      ∀ S, IsSolution S → Consistent b S → b2.Solved = true := by
  obtain ⟨b2, e, p, s⟩ := Solve_main o 82 b hc hk (by omega)
  exact ⟨b2, fun n hn => Solve_fuel o b b2 82 n hn e, p, s⟩

/-! ## Boards built by `New` -/

theorem digitAt_eq_givens (lines : List GoString) (h9 : Lines9 lines) (hd : DigitChars lines)
    (c r : Fin 9) : digitAt lines r c = givens lines c r ∧
      0 ≤ givens lines c r ∧ givens lines c r ≤ 9 := by
  obtain ⟨byte, hb, line, hl, hm⟩ := byteAt_some lines h9 r c
  have := hd line hl byte hm
  unfold digitAt givens
  rw [hb]
  simp only
  omega

/-- Invariants of a freshly built board. -/
theorem New_inv (name : String) (lines : List GoString) (h9 : Lines9 lines) :
    ∃ b, New name lines = some b ∧ b.name = name ∧ (∀ c r, b.grid c r = digitAt lines r c) ∧
      Clean b ∧ KeysOk b ∧ Excl b := by
  obtain ⟨b, e, hn, hg, ht⟩ := New_spec name lines h9
  refine ⟨b, e, hn, hg, fun c r h => ?_, fun c r d hd => ?_, fun c r c2 r2 hs h hm => ?_⟩
  · apply Finset.eq_empty_of_forall_not_mem
    intro d hd
    rw [hg] at h
    exact h ((ht c r d).mp hd).1
  · have := (ht c r d).mp hd
    exact ⟨this.2.1, this.2.2.1⟩
  · have := ((ht c r _).mp hm).2.2.2 c2 r2 hs
    rw [hg] at this
    exact this rfl

/-- Freshly built board is consistent with every solution that extends the
given digits. -/
theorem New_consistent (name : String) (lines : List GoString) (h9 : Lines9 lines)
    (b : Board) (e : New name lines = some b) (S : Fin 9 → Fin 9 → Int) (hS : IsSolution S)
    (hx : ∀ c r, digitAt lines r c ≠ 0 → S c r = digitAt lines r c) : Consistent b S := by
  obtain ⟨b2, e2, -, hg, ht⟩ := New_spec name lines h9
  rw [e] at e2
  cases e2
  intro c r
  refine ⟨fun h => ⟨?_, ?_⟩, fun h0 => ?_⟩
  · rw [hg] at h ⊢
    exact (hx c r h).symm
  · apply Finset.eq_empty_of_forall_not_mem
    intro d hd
    rw [hg] at h
    exact h ((ht c r d).mp hd).1
  · rw [ht]
    rw [hg] at h0
    refine ⟨h0, (hS.1 c r).1, (hS.1 c r).2, fun c2 r2 hs heq => ?_⟩
    have hn : digitAt lines r2 c2 ≠ 0 := by rw [heq]; have := hS.1 c r; omega
    have h2 := hx c2 r2 hn
    have hne : ¬ (c = c2 ∧ r = r2) := by
      rintro ⟨rfl, rfl⟩
      exact hn h0
    exact hS.2 c2 r2 c r ⟨hs, hne⟩ (by have := hS.1 c2 r2; omega) (by rw [h2, heq])

/-! ## Complete grids -/

/-- Cell number `k` of the block `(bc,br)`. -/
theorem block_cell (bc br : Fin 3) (k : Fin 9) :
    ∃ p : Fin 9 × Fin 9, p.1.val = 3 * bc.val + k.val / 3 ∧ p.2.val = 3 * br.val + k.val % 3 :=
  ⟨(⟨3 * bc.val + k.val / 3, by have := bc.isLt; have := k.isLt; omega⟩,
    ⟨3 * br.val + k.val % 3, by have := br.isLt; omega⟩), rfl, rfl⟩

theorem isSolution_completeValid (S : Fin 9 → Fin 9 → Int) (hS : IsSolution S) :
    CompleteValid S := by
  have hnz : ∀ c r, S c r ≠ 0 := fun c r => by have := hS.1 c r; omega
  refine ⟨fun r d h1 h2 => ?_, fun c d h1 h2 => ?_, fun bc br d h1 h2 => ?_⟩
  · exact latin_line (fun c => S c r) (fun c => hS.1 c r)
      (fun i j hij => hS.2 i r j r ⟨Or.inl rfl, fun e => hij e.1.symm⟩ (hnz i r)) d ⟨h1, h2⟩
  · exact latin_line (fun r => S c r) (fun r => hS.1 c r)
      (fun i j hij => hS.2 c i c j ⟨Or.inr (Or.inl rfl), fun e => hij e.2.symm⟩ (hnz c i))
      d ⟨h1, h2⟩
  · choose f hf1 hf2 using block_cell bc br
    have hlat := latin_line (fun k => S (f k).1 (f k).2) (fun k => hS.1 _ _)
      (fun i j hij => hS.2 _ _ _ _ ⟨Or.inr (Or.inr ⟨by
          have a := hf1 i; have b := hf1 j; have := i.isLt; have := j.isLt; omega, by
          have a := hf2 i; have b := hf2 j; omega⟩), fun e => hij (by
          have a1 := hf1 i; have b1 := hf1 j; have a2 := hf2 i; have b2 := hf2 j
          have e1 : (f j).1.val = (f i).1.val := by rw [e.1]
          have e2 : (f j).2.val = (f i).2.val := by rw [e.2]
          apply Fin.ext
          have := i.isLt; have := j.isLt
          omega)⟩ (hnz _ _)) d ⟨h1, h2⟩
    obtain ⟨k, hk, hu⟩ := hlat
    refine ⟨f k, ⟨⟨by have := hf1 k; have := k.isLt; omega, by have := hf2 k; omega⟩, hk⟩,
      fun p hp => ?_⟩
    obtain ⟨⟨p1, p2⟩, p3⟩ := hp
    have hlt : 3 * (p.1.val % 3) + p.2.val % 3 < 9 := by omega
    have hfk : f ⟨3 * (p.1.val % 3) + p.2.val % 3, hlt⟩ = p := by
      have a := hf1 ⟨3 * (p.1.val % 3) + p.2.val % 3, hlt⟩
      have b := hf2 ⟨3 * (p.1.val % 3) + p.2.val % 3, hlt⟩
      simp only at a b
      apply Prod.ext <;> apply Fin.ext <;> omega
    have := hu ⟨3 * (p.1.val % 3) + p.2.val % 3, hlt⟩ (by simp only [hfk]; exact p3)
    rw [← hfk, this]

theorem completeValid_isSolution (S : Fin 9 → Fin 9 → Int) (hS : CompleteValid S) :
    IsSolution S := by
  obtain ⟨hrow, hcol, hblk⟩ := hS
  have hrange : ∀ c r, 1 ≤ S c r ∧ S c r ≤ 9 := by
    intro c r
    have himg : Finset.Icc (1 : Int) 9 ⊆
        (Finset.univ.filter fun x : Fin 9 => 1 ≤ S x r ∧ S x r ≤ 9).image fun x => S x r := by
      intro d hd
      obtain ⟨h1, h2⟩ := Finset.mem_Icc.mp hd
      obtain ⟨x, hx, -⟩ := hrow r d h1 h2
      refine Finset.mem_image.mpr ⟨x, ?_, hx⟩
      simp only [Finset.mem_filter, Finset.mem_univ, true_and]
      rw [hx]; exact ⟨h1, h2⟩
    have hcard : 9 ≤ (Finset.univ.filter fun x : Fin 9 => 1 ≤ S x r ∧ S x r ≤ 9).card := by
      have h1 := Finset.card_le_card himg
      have h2 := Finset.card_image_le (s := Finset.univ.filter fun x : Fin 9 =>
        1 ≤ S x r ∧ S x r ≤ 9) (f := fun x => S x r)
      simp only [Int.card_Icc] at h1
      omega
    have huniv : (Finset.univ.filter fun x : Fin 9 => 1 ≤ S x r ∧ S x r ≤ 9) = Finset.univ := by
      apply Finset.eq_univ_of_card
      have := Finset.card_le_univ (Finset.univ.filter fun x : Fin 9 => 1 ≤ S x r ∧ S x r ≤ 9)
      simp only [Fintype.card_fin] at this ⊢
      omega
    have hm : c ∈ (Finset.univ.filter fun x : Fin 9 => 1 ≤ S x r ∧ S x r ≤ 9) := by
      rw [huniv]; exact Finset.mem_univ c
    exact (Finset.mem_filter.mp hm).2
  refine ⟨hrange, fun c r c2 r2 hp _ heq => ?_⟩
  obtain ⟨h1, h2⟩ := hrange c r
  rcases hp.1 with h | h | h
  · subst h
    exact hp.2 ⟨((hrow r2 _ h1 h2).unique rfl heq.symm).symm, rfl⟩
  · subst h
    exact hp.2 ⟨rfl, ((hcol c2 _ h1 h2).unique rfl heq.symm).symm⟩
  · have hu : ((c, r) : Fin 9 × Fin 9) = (c2, r2) :=
      (hblk ⟨c.val / 3, by omega⟩ ⟨r.val / 3, by omega⟩ _ h1 h2).unique
        ⟨⟨rfl, rfl⟩, rfl⟩ ⟨⟨h.1, h.2⟩, heq.symm⟩
    exact hp.2 ⟨(congrArg Prod.fst hu).symm, (congrArg Prod.snd hu).symm⟩

/-! ## Properties of the specification -/

/-- C1, solver soundness: for a board built by `New` from 9 strings of 9
characters `'0'..'9'` whose given digits have no digit twice in a row, column
or block, `Solve` returns (the same board for every fuel from 82 on, whatever
the order of `guess`), and if `Solved` holds of the result then the final grid
is a complete valid Sudoku that agrees with every given digit. -/
theorem solve_sound (o : RangeOrder) (name : String) (lines : List GoString)
    (h9 : Lines9 lines) (hd : DigitChars lines) (hg : Distinct (givens lines)) :
    ∃ b b2, New name lines = some b ∧ (∀ n, 82 ≤ n → b.Solve o n = .done b2) ∧
      (b2.Solved = true → CompleteValid b2.grid ∧
        ∀ c r, givens lines c r ≠ 0 → b2.grid c r = givens lines c r) := by
  obtain ⟨b, e, -, hgrid, hc, hk, hx⟩ := New_inv name lines h9
  have hgv : ∀ c r, b.grid c r = givens lines c r :=
    fun c r => (hgrid c r).trans (digitAt_eq_givens lines h9 hd c r).1
  have hfun : b.grid = givens lines := funext fun c => funext fun r => hgv c r
  obtain ⟨b2, e2, p2, -⟩ := Solve_total o b hc hk
  obtain ⟨-, -, g2, s2⟩ := p2 hc hk
  obtain ⟨-, d2, -⟩ := s2 hx (hfun ▸ hg)
    (fun c r => by rw [hgv]; exact (digitAt_eq_givens lines h9 hd c r).2)
  refine ⟨b, b2, e, e2, fun hs => ⟨?_, fun c r hn => ?_⟩⟩
  · exact isSolution_completeValid _ ⟨((Solved_iff b2).mp hs).2, d2⟩
  · rw [← hgv] at hn ⊢
    exact g2.1 c r hn

/-- C2, solver completeness: for a board built by `New` from 9 strings of 9
characters `'0'..'9'` whose given digits extend to a complete valid Sudoku,
`Solve` ends with `Solved` true, whatever order `guess` enumerates the
candidates in. -/
theorem solve_complete (o : RangeOrder) (name : String) (lines : List GoString)
    (h9 : Lines9 lines) (hd : DigitChars lines)
    (hx : ∃ S, CompleteValid S ∧ ∀ c r, givens lines c r ≠ 0 → S c r = givens lines c r) :
    ∃ b b2, New name lines = some b ∧ (∀ n, 82 ≤ n → b.Solve o n = .done b2) ∧
      b2.Solved = true := by
  obtain ⟨S, hS, hext⟩ := hx
  obtain ⟨b, e, -, -, hc, hk, -⟩ := New_inv name lines h9
  obtain ⟨b2, e2, -, s2⟩ := Solve_total o b hc hk
  refine ⟨b, b2, e, e2, s2 S (completeValid_isSolution S hS) ?_⟩
  refine New_consistent name lines h9 b e S (completeValid_isSolution S hS) (fun c r hn => ?_)
  rw [(digitAt_eq_givens lines h9 hd c r).1] at hn ⊢
  exact hext c r hn

set_option maxRecDepth 100000 in
/-- Witness of C2 on the empty puzzle, which the grid `shifted` extends. -/
theorem solve_complete_witness :
    ∃ b b2, New "empty" blankLines = some b ∧
      (∀ n, 82 ≤ n → b.Solve RangeOrder.increasing n = .done b2) ∧ b2.Solved = true :=
  solve_complete RangeOrder.increasing "empty" blankLines (by decide) (by decide)
    ⟨shifted, isSolution_completeValid shifted (by decide), by decide⟩

/-- C3, termination: on a board built by `New` from 9 strings of 9 characters
(`'0'..'9'` or any other), `Solve` returns for every fuel above the number of
unsolved cells (at most 81), whatever the order of `guess`.  The board is clean with
candidates in 1..9, and on every such board `g`: a pass of the propagation
loop keeps that, and either returns, or leaves the loop for `guess` with the
count of solved cells unchanged, or goes on with strictly more solved cells;
a copy with a candidate digit set in an unsolved cell, as `guess` makes it,
keeps that too and has strictly more solved cells. -/
theorem solve_terminates (o : RangeOrder) (name : String) (lines : List GoString)
    (h9 : Lines9 lines) :
    ∃ b, New name lines = some b ∧ Clean b ∧ KeysOk b ∧ b.countSolved ≤ 81 ∧
      (∀ n, 81 - b.countSolved < n → ∃ b2, b.Solve o n = .done b2) ∧
      (∀ g : Board, Clean g → KeysOk g →
        Clean g.singleTick.doubleTick ∧ KeysOk g.singleTick.doubleTick ∧
        ∀ n, g.Solve o (n + 1) = .done g.singleTick.doubleTick ∨
          (g.countSolved = g.singleTick.doubleTick.countSolved ∧
            g.Solve o (n + 1) = g.singleTick.doubleTick.guess o (Board.Solve o n)) ∨
          (g.countSolved < g.singleTick.doubleTick.countSolved ∧
            g.Solve o (n + 1) = g.singleTick.doubleTick.Solve o n)) ∧
      (∀ g : Board, Clean g → KeysOk g → ∀ col row d, g.grid col row = 0 →
        d ∈ g.ticks col row →
        Clean (g.copy.setDigit col row d) ∧ KeysOk (g.copy.setDigit col row d) ∧
        g.countSolved < (g.copy.setDigit col row d).countSolved) := by
  obtain ⟨b, e, -, -, hc, hk, -⟩ := New_inv name lines h9
  refine ⟨b, e, hc, hk, countSolved_le b, fun n hn => ?_, fun g gc gk => ?_,
    fun g gc gk col row d h0 hd => ?_⟩
  · obtain ⟨b2, e2, -⟩ := Solve_main o n b hc hk hn
    exact ⟨b2, e2⟩
  · obtain ⟨c1, k1, g1, -⟩ := (propagate_pres_safe g).1 gc gk
    refine ⟨c1, k1, fun n => ?_⟩
    have hle := g1.count_le
    rw [Solve_succ]
    generalize g.singleTick.doubleTick = g1 at hle ⊢
    by_cases hs : g1.Solved = true
    · rw [if_pos hs]; exact Or.inl rfl
    · rw [if_neg hs]
      by_cases hv : ¬ g1.valid = true
      · rw [if_pos hv]; exact Or.inl rfl
      · rw [if_neg hv]
        by_cases hcnt : g.countSolved = g1.countSolved
        · rw [if_pos hcnt, if_pos hs]; exact Or.inr (Or.inl ⟨hcnt, rfl⟩)
        · rw [if_neg hcnt]; exact Or.inr (Or.inr ⟨by omega, rfl⟩)
  · obtain ⟨cg, ct, -⟩ := copy_spec g
    have hd2 : d ∈ g.copy.ticks col row := by rw [ct]; exact hd
    have hd0 : d ≠ 0 := by have := gk col row d hd; omega
    obtain ⟨c2, k2, g2, -⟩ :=
      (pres_trans (copy_shrinks g).pres (setDigit_pres g.copy col row d hd2)) gc gk
    refine ⟨c2, k2, g2.count_lt col row h0 ?_⟩
    rw [setDigit_grid, if_pos ⟨hd0, rfl, rfl⟩]
    exact hd0

/-- Witness of C3 on the empty puzzle with candidates tried in increasing
order. -/
theorem solve_terminates_witness :
    ∃ b, New "empty" blankLines = some b ∧ Clean b ∧ KeysOk b ∧ b.countSolved ≤ 81 ∧
      (∀ n, 81 - b.countSolved < n → ∃ b2, b.Solve RangeOrder.increasing n = .done b2) ∧
      (∀ g : Board, Clean g → KeysOk g →
        Clean g.singleTick.doubleTick ∧ KeysOk g.singleTick.doubleTick ∧
        ∀ n, g.Solve RangeOrder.increasing (n + 1) = .done g.singleTick.doubleTick ∨
          (g.countSolved = g.singleTick.doubleTick.countSolved ∧
            g.Solve RangeOrder.increasing (n + 1)
              = g.singleTick.doubleTick.guess RangeOrder.increasing
                  (Board.Solve RangeOrder.increasing n)) ∨
          (g.countSolved < g.singleTick.doubleTick.countSolved ∧
            g.Solve RangeOrder.increasing (n + 1)
              = g.singleTick.doubleTick.Solve RangeOrder.increasing n)) ∧
      (∀ g : Board, Clean g → KeysOk g → ∀ col row d, g.grid col row = 0 →
        d ∈ g.ticks col row →
        Clean (g.copy.setDigit col row d) ∧ KeysOk (g.copy.setDigit col row d) ∧
        g.countSolved < (g.copy.setDigit col row d).countSolved) :=
  solve_terminates RangeOrder.increasing "empty" blankLines (by decide)

/-- C4, postcondition of `setDigit`: with digit 0 the board is unchanged;
otherwise the cell holds the digit and has no candidates, every other cell of
its row, column or block has lost exactly that digit as a candidate, and every
other grid entry and every candidate set outside those regions is
unchanged. -/
theorem setDigit_postcondition (b : Board) (col row : Fin 9) (digit : Int) :
    if digit = 0 then b.setDigit col row digit = b
    else
      (b.setDigit col row digit).grid col row = digit ∧
      (b.setDigit col row digit).ticks col row = ∅ ∧
      (∀ c r, peer col row c r →
        (b.setDigit col row digit).ticks c r = (b.ticks c r).erase digit) ∧
      (∀ c r, ¬ (c = col ∧ r = row) → (b.setDigit col row digit).grid c r = b.grid c r) ∧
      (∀ c r, ¬ sees col row c r → (b.setDigit col row digit).ticks c r = b.ticks c r) := by
  by_cases hd : digit = 0
  · rw [if_pos hd, hd]
    exact setDigit_zero b col row
  · rw [if_neg hd]
    obtain ⟨-, sg, st⟩ := setDigit_spec b col row digit hd
    refine ⟨by rw [sg, if_pos ⟨rfl, rfl⟩], by rw [st, if_pos ⟨rfl, rfl⟩], fun c r hp => ?_,
      fun c r hp => by rw [sg, if_neg hp], fun c r hs => ?_⟩
    · rw [st, if_neg hp.2, if_pos hp.1]
    · have hp : ¬ (c = col ∧ r = row) := fun h => hs (by rw [h.1, h.2]; exact sees_self col row)
      rw [st, if_neg hp, if_neg hs]

set_option maxRecDepth 100000 in
/-- C5, `valid` is true exactly when every grid entry is within 0..9, every
candidate set has at most 9 members, every cell with entry 0 has a candidate,
and no column and no row holds a non-zero digit twice.  Blocks are not
checked: the board built from `blockDupLines` has the digit 1 twice in one
block, in different rows and columns, and is valid. -/
theorem valid_spec :
    (∀ b : Board, b.valid = true ↔
      (∀ c r, 0 ≤ b.grid c r ∧ b.grid c r ≤ 9) ∧
      (∀ c r, (b.ticks c r).card ≤ 9) ∧
      (∀ c r, b.grid c r = 0 → 1 ≤ (b.ticks c r).card) ∧
      (∀ c r r2, r ≠ r2 → b.grid c r ≠ 0 → b.grid c r ≠ b.grid c r2) ∧
      (∀ r c c2, c ≠ c2 → b.grid c r ≠ 0 → b.grid c r ≠ b.grid c2 r)) ∧
    ∃ b : Board, New "dup" blockDupLines = some b ∧ b.valid = true ∧
      ∃ c r c2 r2, sameBlock c r c2 r2 ∧ c ≠ c2 ∧ r ≠ r2 ∧ b.grid c r ≠ 0 ∧
        b.grid c r = b.grid c2 r2 := by
  refine ⟨valid_iff, ?_⟩
  have h : (New "dup" blockDupLines).map
      (fun b => (b.valid, b.grid 0 0, b.grid 1 1)) = some (true, 1, 1) := by decide
  cases e : New "dup" blockDupLines with
  | none => rw [e] at h; exact absurd h (by simp)
  | some b =>
    rw [e] at h
    simp only [Option.map_some', Option.some.injEq, Prod.mk.injEq] at h
    refine ⟨b, rfl, h.1, 0, 0, 1, 1, by decide, by decide, by decide, ?_, ?_⟩
    · rw [h.2.1]; decide
    · rw [h.2.1, h.2.2]

/-- C6, `Solved` is true exactly when `valid` is true and every grid entry is
within 1..9; and then every row and every column contains each digit 1..9
exactly once. -/
theorem Solved_spec (b : Board) :
    (b.Solved = true ↔ b.valid = true ∧ ∀ c r, 1 ≤ b.grid c r ∧ b.grid c r ≤ 9) ∧
    (b.Solved = true →
      (∀ r d, 1 ≤ d → d ≤ 9 → ∃! c, b.grid c r = d) ∧
      (∀ c d, 1 ≤ d → d ≤ 9 → ∃! r, b.grid c r = d)) := by
  refine ⟨Solved_iff b, fun hs => ?_⟩
  obtain ⟨hv, hr⟩ := (Solved_iff b).mp hs
  obtain ⟨-, -, -, hcol, hrow⟩ := (valid_iff b).mp hv
  have hnz : ∀ c r, b.grid c r ≠ 0 := fun c r => by have := hr c r; omega
  exact ⟨fun r d h1 h2 => latin_line (fun c => b.grid c r) (fun c => hr c r)
      (fun i j hij => hrow r i j hij (hnz i r)) d ⟨h1, h2⟩,
    fun c d h1 h2 => latin_line (fun r => b.grid c r) (fun r => hr c r)
      (fun i j hij => hcol c i j hij (hnz c i)) d ⟨h1, h2⟩⟩

/-- C7, `copy` returns a board structurally equal to its source: same grid
entries and same candidate sets, so `b.equal(copy)` is true and the
"boards are not equal" branch of `copy` is never taken. -/
theorem copy_equal (b : Board) :
    b.copy.grid = b.grid ∧ b.copy.ticks = b.ticks ∧ b.equal b.copy = true := by
  obtain ⟨h1, h2, -⟩ := copy_spec b
  exact ⟨h1, h2, (board_equal_iff b b.copy).mpr ⟨h1.symm, h2.symm⟩⟩

/-- C8, postcondition of `New`: from 9 strings of 9 characters `'0'..'9'` the
board has `grid[col=j][row=i]` equal to the numeric value of character `j` of
string `i`; a cell given a non-zero digit has no candidates; the candidates of
an unsolved cell are exactly the digits 1..9 that are not given in the row,
the column or the block of the cell. -/
theorem New_postcondition (name : String) (lines : List GoString) (h9 : Lines9 lines)
    (hd : DigitChars lines) :
    ∃ b, New name lines = some b ∧
      (∀ i j : Fin 9, ∀ byte, byteAt lines i j = some byte → b.grid j i = (byte : Int) - 48) ∧
      (∀ c r, b.grid c r ≠ 0 → b.ticks c r = ∅) ∧
      (∀ c r, b.grid c r = 0 → ∀ d, d ∈ b.ticks c r ↔
        (1 ≤ d ∧ d ≤ 9 ∧ ∀ c2 r2, sees c r c2 r2 → b.grid c2 r2 ≠ d)) := by
  obtain ⟨b, e, -, hg, ht⟩ := New_spec name lines h9
  have hc : Clean b := by
    obtain ⟨b2, e2, -, -, hc, -, -⟩ := New_inv name lines h9
    rw [e] at e2
    cases e2
    exact hc
  refine ⟨b, e, fun i j byte hb => ?_, hc, fun c r h0 d => ?_⟩
  · rw [hg, (digitAt_eq_givens lines h9 hd j i).1]
    unfold givens
    rw [hb]
  · rw [ht]
    rw [hg] at h0
    constructor
    · rintro ⟨-, h1, h2, h3⟩
      exact ⟨h1, h2, fun c2 r2 hs => by rw [hg]; exact h3 c2 r2 (sees_symm hs)⟩
    · rintro ⟨h1, h2, h3⟩
      exact ⟨h0, h1, h2, fun c2 r2 hs => by rw [← hg]; exact h3 c2 r2 (sees_symm hs)⟩

/-- C10, contradictory input: when the input (characters `'0'..'9'`) has the
same non-zero digit twice in one row, `valid` is false on the board built by
`New`; `Solve` returns after its first propagate/check round (for every fuel
from 1 on and whatever the order of `guess`, at the `valid` check that comes
before `guess`), leaving a board on which `valid` and `Solved` are both
false. -/
theorem contradictory_input (o : RangeOrder) (name : String) (lines : List GoString)
    (h9 : Lines9 lines) (hd : DigitChars lines) (r c c2 : Fin 9) (hne : c ≠ c2)
    (hnz : givens lines c r ≠ 0) (heq : givens lines c r = givens lines c2 r) :
    ∃ b, New name lines = some b ∧ b.valid = false ∧
      b.singleTick.doubleTick.valid = false ∧ b.singleTick.doubleTick.Solved = false ∧
      ∀ n, b.Solve o (n + 1) = .done b.singleTick.doubleTick := by
  obtain ⟨b, e, -, hgrid, hc, hk, -⟩ := New_inv name lines h9
  have hgv : ∀ c r, b.grid c r = givens lines c r :=
    fun c r => (hgrid c r).trans (digitAt_eq_givens lines h9 hd c r).1
  obtain ⟨-, -, g1, -⟩ := (propagate_pres_safe b).1 hc hk
  have hbad : ∀ g : Board, Grows b g → g.valid = false := by
    intro g hg
    rw [Bool.eq_false_iff]
    intro hv
    have h1 : g.grid c r = givens lines c r := by
      rw [← hgv]; exact hg.1 c r (by rw [hgv]; exact hnz)
    have h2 : g.grid c2 r = givens lines c2 r := by
      rw [← hgv]; exact hg.1 c2 r (by rw [hgv, ← heq]; exact hnz)
    exact ((valid_iff g).mp hv).2.2.2.2 r c c2 hne (by rw [h1]; exact hnz)
      (by rw [h1, h2]; exact heq)
  have hv1 := hbad _ g1
  have hs1 : b.singleTick.doubleTick.Solved = false := by
    rw [Bool.eq_false_iff]
    intro hs
    rw [((Solved_iff _).mp hs).1] at hv1
    exact absurd hv1 (by simp)
  refine ⟨b, e, hbad b (grows_refl b), hv1, hs1, fun n => ?_⟩
  rw [Solve_succ, hs1, hv1]
  rfl

/-- Witness of C10 on `rowDupLines`, whose first row starts with two 1s. -/
theorem contradictory_input_witness :
    ∃ b, New "dup" rowDupLines = some b ∧ b.valid = false ∧
      b.singleTick.doubleTick.valid = false ∧ b.singleTick.doubleTick.Solved = false ∧
      ∀ n, b.Solve RangeOrder.increasing (n + 1) = .done b.singleTick.doubleTick :=
  contradictory_input RangeOrder.increasing "dup" rowDupLines (by decide) (by decide) 0 0 1
    (by decide) (by decide) (by decide)

/-! ## Further properties -/

/-- C11, `setDigit` is idempotent: calling it twice with the same cell and
digit leaves the same grid, the same candidate sets (those of the peers in
particular) and the same name as calling it once. -/
theorem setDigit_idempotent (b : Board) (col row : Fin 9) (digit : Int) :
    ((b.setDigit col row digit).setDigit col row digit).grid
        = (b.setDigit col row digit).grid ∧
      ((b.setDigit col row digit).setDigit col row digit).ticks
        = (b.setDigit col row digit).ticks ∧
      ((b.setDigit col row digit).setDigit col row digit).name
        = (b.setDigit col row digit).name := by
  by_cases hd : digit = 0
  · rw [hd, setDigit_zero, setDigit_zero]
    exact ⟨rfl, rfl, rfl⟩
  · obtain ⟨n1, g1, t1⟩ := setDigit_spec b col row digit hd
    obtain ⟨n2, g2, t2⟩ := setDigit_spec (b.setDigit col row digit) col row digit hd
    refine ⟨funext fun c => funext fun r => ?_, funext fun c => funext fun r => ?_, n2⟩
    · rw [g2, g1]
      split_ifs <;> rfl
    · rw [t2, t1]
      split_ifs
      · rfl
      · rw [Finset.erase_idem]
      · rfl

/-- C13, propagation never discards a solution: a board consistent with a
complete valid Sudoku `S` is still consistent with `S` after `singleTick`,
and after `doubleTick`. -/
theorem propagation_keeps_solutions (b : Board) (S : Fin 9 → Fin 9 → Int)
    (hS : CompleteValid S) (hc : Consistent b S) :
    Consistent b.singleTick S ∧ Consistent b.doubleTick S :=
  ⟨(singleTick_pres_safe b).2 S (completeValid_isSolution S hS) hc,
    (doubleTick_shrinks_safe b).2 S (completeValid_isSolution S hS) hc⟩

/-- C17, solving is one-way: on a board built by `New` from 9 strings of 9
characters (`'0'..'9'` or any other), after `singleTick`, after `doubleTick`
and after `Solve` (which returns, for every fuel from 82 on and every order
of `guess`) every cell solved before holds the same digit and no candidate
set has gained a digit. -/
theorem solving_one_way (o : RangeOrder) (name : String) (lines : List GoString)
    (h9 : Lines9 lines) :
    ∃ b, New name lines = some b ∧ Grows b b.singleTick ∧ Grows b b.doubleTick ∧
      ∃ b2, (∀ n, 82 ≤ n → b.Solve o n = .done b2) ∧ Grows b b2 := by
  obtain ⟨b, e, -, -, hc, hk, -⟩ := New_inv name lines h9
  obtain ⟨b2, e2, p2, -⟩ := Solve_total o b hc hk
  exact ⟨b, e, ((singleTick_pres_safe b).1 hc hk).2.2.1,
    ((doubleTick_shrinks_safe b).1.pres hc hk).2.2.1, b2, e2, (p2 hc hk).2.2.1⟩

/-- Setting any digit keeps solved cells free of candidates and candidates
within 1..9. -/
theorem setDigit_clean (b : Board) (col row : Fin 9) (d : Int) (hc : Clean b) (hk : KeysOk b) :
    Clean (b.setDigit col row d) ∧ KeysOk (b.setDigit col row d) := by
  by_cases hd : d = 0
  · rw [hd, setDigit_zero]
    exact ⟨hc, hk⟩
  · obtain ⟨-, sg, st⟩ := setDigit_spec b col row d hd
    have hsub : ∀ c r, (b.setDigit col row d).ticks c r ⊆ b.ticks c r := by
      intro c r
      rw [st]
      split_ifs
      · exact Finset.empty_subset _
      · exact Finset.erase_subset _ _
      · exact Finset.Subset.refl _
    refine ⟨fun c r hs => ?_, fun c r e he => hk c r e (hsub c r he)⟩
    by_cases hp : c = col ∧ r = row
    · rw [st, if_pos hp]
    · rw [sg, if_neg hp] at hs
      exact Finset.subset_empty.mp (hc c r hs ▸ hsub c r)

/-- Invariant of the reachable boards. -/
theorem reachable_clean (b : Board) (h : Reachable b) : Clean b ∧ KeysOk b := by
  induction h with
  | new name lines b h9 _ e =>
    obtain ⟨b2, e2, -, -, hc, hk, -⟩ := New_inv name lines h9
    rw [e] at e2
    cases e2
    exact ⟨hc, hk⟩
  | setDigit b col row digit _ _ _ ih => exact setDigit_clean b col row digit ih.1 ih.2
  | singleTick b _ ih =>
    obtain ⟨c1, k1, -⟩ := (singleTick_pres_safe b).1 ih.1 ih.2
    exact ⟨c1, k1⟩
  | doubleTick b _ ih =>
    obtain ⟨c1, k1, -⟩ := (doubleTick_shrinks_safe b).1.pres ih.1 ih.2
    exact ⟨c1, k1⟩
  | copy b _ ih =>
    obtain ⟨c1, k1, -⟩ := (copy_shrinks b).pres ih.1 ih.2
    exact ⟨c1, k1⟩
  | solve o n b b2 _ e ih =>
    obtain ⟨b3, e3, p3, -⟩ := Solve_total o b ih.1 ih.2
    have e4 := Solve_fuel o b b2 n (max n 82) (le_max_left _ _) e
    rw [e3 (max n 82) (le_max_right _ _)] at e4
    cases e4
    obtain ⟨c1, k1, -⟩ := p3 ih.1 ih.2
    exact ⟨c1, k1⟩

/-- C18, reachable-state invariant: on every board obtained from `New`
(characters `'0'..'9'`) by `setDigit` with a digit in 1..9, `singleTick`,
`doubleTick`, `copy` and `Solve`, every solved cell has an empty candidate
set, so its candidate count is 0, and every candidate of every cell is a
digit in 1..9. -/
theorem reachable_invariant (b : Board) (h : Reachable b) :
    (∀ c r, b.grid c r ≠ 0 → b.ticks c r = ∅ ∧ (b.ticks c r).card = 0) ∧
      ∀ c r d, d ∈ b.ticks c r → 1 ≤ d ∧ d ≤ 9 := by
  obtain ⟨hc, hk⟩ := reachable_clean b h
  exact ⟨fun c r hn => ⟨hc c r hn, by rw [hc c r hn]; rfl⟩, hk⟩

/-- Witness of C18: the empty puzzle, a digit set, one propagation round, a
copy. -/
theorem reachable_invariant_witness :
    ∃ b, New "empty" blankLines = some b ∧
      (∀ c r, ((b.setDigit 0 0 5).singleTick.doubleTick.copy).grid c r ≠ 0 →
        ((b.setDigit 0 0 5).singleTick.doubleTick.copy).ticks c r = ∅ ∧
        (((b.setDigit 0 0 5).singleTick.doubleTick.copy).ticks c r).card = 0) ∧
      ∀ c r d, d ∈ ((b.setDigit 0 0 5).singleTick.doubleTick.copy).ticks c r →
        1 ≤ d ∧ d ≤ 9 := by
  obtain ⟨b, e, -⟩ := New_inv "empty" blankLines (by decide)
  exact ⟨b, e, reachable_invariant _ (Reachable.copy _ (Reachable.doubleTick _
    (Reachable.singleTick _ (Reachable.setDigit b 0 0 5
      (Reachable.new "empty" blankLines b (by decide) (by decide) e) (by decide) (by decide)))))⟩

/-! ## Branching and names -/

theorem guessLoop_no_panic (solve : Board → Outcome) (hs : ∀ x, solve x ≠ .panic) (b : Board)
    (col row : Fin 9) (L : List Int) : b.guessLoop solve col row L ≠ .panic := by
  induction L with
  | nil => simp [Board.guessLoop]
  | cons d ds ih =>
    unfold Board.guessLoop
    cases e : solve (b.copy.setDigit col row d) with
    | done b2 =>
      simp only
      by_cases h : b2.Solved = true
      · rw [if_pos h]; simp
      · rw [if_neg h]; exact ih
    | panic => exact absurd e (hs _)
    | outOfFuel => simp

/-- On a valid board that is not solved `shortestTicks` returns the indices
of an unsolved cell that has a candidate. -/
theorem shortestTicks_valid (b : Board) (hv : b.valid = true) (hs : ¬ b.Solved = true) :
    ∃ col row : Fin 9, b.shortestTicks = ((col.val : Int), (row.val : Int)) ∧
      b.grid col row = 0 ∧ 1 ≤ (b.ticks col row).card := by
  obtain ⟨c0, r0, h0⟩ := unsolved_cell b hv hs
  obtain ⟨-, h9, h1, -⟩ := (valid_iff b).mp hv
  obtain ⟨c, r, hst, hz, -⟩ := shortestTicks_spec b c0 r0 h0 (by have := h9 c0 r0; omega)
  exact ⟨c, r, hst, hz, h1 c r hz⟩

/-- Method `Solve` never runs into the index panic of `guess`. -/
theorem Solve_no_panic (o : RangeOrder) (n : Nat) : ∀ g : Board, g.Solve o n ≠ .panic := by
  induction n with
  | zero => intro g; simp [Board.Solve]
  | succ n ih =>
    intro g
    rw [Solve_succ]
    generalize g.singleTick.doubleTick = g1
    by_cases hs : g1.Solved = true
    · rw [if_pos hs]; simp
    · rw [if_neg hs]
      by_cases hv : ¬ g1.valid = true
      · rw [if_pos hv]; simp
      · rw [if_neg hv]
        by_cases hc : g.countSolved = g1.countSolved
        · rw [if_pos hc, if_pos hs]
          obtain ⟨c, r, hst, -, -⟩ := shortestTicks_valid g1 (not_not.mp hv) hs
          rw [guess_eq o _ _ c r hst]
          exact guessLoop_no_panic _ ih g1 c r _
        · rw [if_neg hc]
          exact ih g1

/-- C19, index safety of the branch step: on a board where `valid` is true
and `Solved` is false, `shortestTicks` returns indices within 0..8 of an
unsolved cell with at least one candidate, so `guess` reads the candidates of
that cell; and as `Solve` calls `guess` on such boards only, no run of `Solve`
on any board ends in the index panic. -/
theorem branch_index_safe (b : Board) (hv : b.valid = true) (hs : b.Solved = false) :
    (∃ col row : Fin 9, b.shortestTicks = ((col.val : Int), (row.val : Int)) ∧
      b.grid col row = 0 ∧ 1 ≤ (b.ticks col row).card ∧
      ∀ (o : RangeOrder) (solve : Board → Outcome),
        b.guess o solve = b.guessLoop solve col row (o.pick b (b.ticks col row))) ∧
    ∀ (o : RangeOrder) (n : Nat) (g : Board), g.Solve o n ≠ .panic := by
  obtain ⟨c, r, hst, hz, h1⟩ := shortestTicks_valid b hv (by rw [hs]; simp)
  exact ⟨⟨c, r, hst, hz, h1, fun o solve => guess_eq o solve b c r hst⟩,
    fun o n g => Solve_no_panic o n g⟩

/-- Witness of C19 on the open board. -/
theorem branch_index_safe_witness :
    (∃ col row : Fin 9, openBoard.shortestTicks = ((col.val : Int), (row.val : Int)) ∧
      openBoard.grid col row = 0 ∧ 1 ≤ (openBoard.ticks col row).card ∧
      ∀ (o : RangeOrder) (solve : Board → Outcome),
        openBoard.guess o solve
          = openBoard.guessLoop solve col row (o.pick openBoard (openBoard.ticks col row))) ∧
    ∀ (o : RangeOrder) (n : Nat) (g : Board), g.Solve o n ≠ .panic :=
  branch_index_safe openBoard (by decide) (by decide)

theorem singleTick_name (b : Board) : b.singleTick.name = b.name := by
  unfold Board.singleTick
  refine foldl_inv (fun g : Board => g.name = b.name) _ _ (fun g col _ hg => ?_) b rfl
  refine foldl_inv (fun g : Board => g.name = b.name) _ _ (fun g2 row _ hg2 => ?_) g hg
  split_ifs
  · exact foldl_inv (fun g : Board => g.name = b.name) _ _
      (fun g3 d _ hg3 => (setDigit_name g3 col row d).trans hg3) g2 hg2
  · exact hg2

theorem doubleTickTwin_name (b : Board) (col row : Fin 9) :
    (b.doubleTickTwin col row).name = b.name := by
  unfold Board.doubleTickTwin
  simp only
  refine foldl_inv (fun g : Board => g.name = b.name) _ _ (fun g c _ hg => ?_) _ ?_
  · rcases twinSquareRows_cases g col row c (span (square row.val).1 (square row.val).2)
      with h | ⟨r, -, -, -, h⟩
    · show (g.twinSquareRows col row c _).name = b.name
      rw [h]; exact hg
    · show (g.twinSquareRows col row c _).name = b.name
      rw [h, (untickOthersSquare_spec g col row c r).2.1]; exact hg
  · have h1 : (b.twinRow col row (List.finRange 9)).name = b.name := by
      rcases twinRow_cases b col row (List.finRange 9) with ⟨h, -⟩ | ⟨-, c, -, -, -, -, -, h⟩
      · rw [h]
      · rw [h, (untickOthersRow_spec b col row c).2.1]
    rcases twinCol_cases (b.twinRow col row (List.finRange 9)) col row (List.finRange 9)
      with ⟨h, -⟩ | ⟨-, r, -, -, -, -, -, h⟩
    · show ((b.twinRow col row (List.finRange 9)).twinCol col row _).name = b.name
      rw [h]; exact h1
    · show ((b.twinRow col row (List.finRange 9)).twinCol col row _).name = b.name
      rw [h, (untickOthersCol_spec _ col row r).2.1]; exact h1

theorem doubleTick_name (b : Board) : b.doubleTick.name = b.name := by
  unfold Board.doubleTick
  refine foldl_inv (fun g : Board => g.name = b.name) _ _ (fun g col _ hg => ?_) b rfl
  refine foldl_inv (fun g : Board => g.name = b.name) _ _ (fun g2 row _ hg2 => ?_) g hg
  split_ifs
  · exact (doubleTickTwin_name g2 col row).trans hg2
  · exact hg2

/-- Loop of `guess`: the result is the board itself, or a solved board that a
recursive call returned for a copy with one digit set. -/
theorem guessLoop_done (solve : Board → Outcome) (b : Board) (col row : Fin 9) (L : List Int)
    (b3 : Board) (h : b.guessLoop solve col row L = .done b3) :
    b3 = b ∨ (b3.Solved = true ∧ ∃ d ∈ L, solve (b.copy.setDigit col row d) = .done b3) := by
  induction L with
  | nil =>
    unfold Board.guessLoop at h
    cases h
    exact Or.inl rfl
  | cons d ds ih =>
    unfold Board.guessLoop at h
    cases e : solve (b.copy.setDigit col row d) with
    | done b2 =>
      rw [e] at h
      simp only at h
      by_cases hs : b2.Solved = true
      · rw [if_pos hs] at h
        cases h
        exact Or.inr ⟨hs, d, List.mem_cons_self _ _, e⟩
      · rw [if_neg hs] at h
        rcases ih h with h1 | ⟨h1, x, hx, h2⟩
        · exact Or.inl h1
        · exact Or.inr ⟨h1, x, List.mem_cons_of_mem _ hx, h2⟩
    | panic => rw [e] at h; exact absurd h (by simp)
    | outOfFuel => rw [e] at h; exact absurd h (by simp)

theorem guess_done (o : RangeOrder) (solve : Board → Outcome) (b b3 : Board)
    (h : b.guess o solve = .done b3) :
    b3 = b ∨ (b3.Solved = true ∧ ∃ col row d, solve (b.copy.setDigit col row d) = .done b3) := by
  unfold Board.guess at h
  cases e1 : toIndex b.shortestTicks.1 with
  | none => rw [e1] at h; exact absurd h (by simp)
  | some col =>
    cases e2 : toIndex b.shortestTicks.2 with
    | none => rw [e1, e2] at h; exact absurd h (by simp)
    | some row =>
      rw [e1, e2] at h
      rcases guessLoop_done solve b col row _ b3 h with h1 | ⟨h1, d, -, h2⟩
      · exact Or.inl h1
      · exact Or.inr ⟨h1, col, row, d, h2⟩

/-- Name after `Solve`: that of the input, or the empty name on a solved
board. -/
theorem Solve_name_cases (o : RangeOrder) (n : Nat) :
    ∀ b b2 : Board, b.Solve o n = .done b2 →
      b2.name = b.name ∨ (b2.name = "" ∧ b2.Solved = true) := by
  induction n with
  | zero => intro b b2 h; exact absurd h (by simp [Board.Solve])
  | succ n ih =>
    intro b b2 h
    have hn : b.singleTick.doubleTick.name = b.name := by
      rw [doubleTick_name, singleTick_name]
    rw [Solve_succ] at h
    generalize b.singleTick.doubleTick = b1 at h hn
    by_cases hs : b1.Solved = true
    · rw [if_pos hs] at h; cases h; exact Or.inl hn
    · rw [if_neg hs] at h
      by_cases hv : ¬ b1.valid = true
      · rw [if_pos hv] at h; cases h; exact Or.inl hn
      · rw [if_neg hv] at h
        by_cases hc : b.countSolved = b1.countSolved
        · rw [if_pos hc, if_pos hs] at h
          rcases guess_done o _ b1 b2 h with h1 | ⟨h1, col, row, d, h2⟩
          · rw [h1]; exact Or.inl hn
          · refine Or.inr ⟨?_, h1⟩
            rcases ih _ _ h2 with h3 | h3
            · rw [h3, setDigit_name, (copy_spec b1).2.2]
            · exact h3.1
        · rw [if_neg hc] at h
          rcases ih b1 b2 h with h3 | h3
          · exact Or.inl (h3.trans hn)
          · exact Or.inr h3

/-! ## Order of the guesses -/

theorem foldl_fixed {α β : Type} (f : β → α → β) (l : List α) (g : β)
    (h : ∀ x ∈ l, f g x = g) : l.foldl f g = g := by
  induction l with
  | nil => rfl
  | cons x xs ih =>
    rw [List.foldl_cons, h x (List.mem_cons_self _ _)]
    exact ih (fun y hy => h y (List.mem_cons_of_mem _ hy))

/-- Without a cell of exactly one candidate `singleTick` changes nothing. -/
theorem singleTick_noop (b : Board) (h : ∀ c r, (b.ticks c r).card ≠ 1) : b.singleTick = b := by
  unfold Board.singleTick
  refine foldl_fixed _ _ b (fun col _ => foldl_fixed _ _ b (fun row _ => ?_))
  rw [if_neg (h col row)]

/-- Without a cell of exactly two candidates `doubleTick` changes nothing. -/
theorem doubleTick_noop (b : Board) (h : ∀ c r, (b.ticks c r).card ≠ 2) : b.doubleTick = b := by
  unfold Board.doubleTick
  refine foldl_fixed _ _ b (fun col _ => foldl_fixed _ _ b (fun row _ => ?_))
  rw [if_neg (h col row)]

/-- On a stalled board that is consistent with a solution `S`, whose `guess`
tries the digit of `S` first, `Solve` adopts the board solved from that
digit. -/
theorem Solve_first_digit (o : RangeOrder) (b : Board) (hk : KeysOk b)
    (h1 : ∀ c r, (b.ticks c r).card ≠ 1) (h2 : ∀ c r, (b.ticks c r).card ≠ 2)
    (col row : Fin 9) (hst : b.shortestTicks = ((col.val : Int), (row.val : Int)))
    (h0 : b.grid col row = 0) (d : Int) (rest : List Int)
    (hp : o.pick b (b.ticks col row) = d :: rest)
    (S : Fin 9 → Fin 9 → Int) (hS : IsSolution S) (hcons : Consistent b S)
    (hd : S col row = d) :
    ∃ r, (∀ n, 82 ≤ n → b.Solve o n = .done r) ∧ r.Solved = true ∧ r.grid col row = d := by
  have hc : Clean b := hcons.clean
  have hv : b.valid = true := consistent_valid b S hS hcons hk
  have hs : ¬ b.Solved = true := fun h => by
    have := ((Solved_iff b).mp h).2 col row
    omega
  have hd0 : d ≠ 0 := by rw [← hd]; have := hS.1 col row; omega
  obtain ⟨cg, ct, -⟩ := copy_spec b
  have hdm : d ∈ b.copy.ticks col row := by
    rw [ct, ← hd]; exact (hcons col row).2 h0
  have p2 : Pres b (b.copy.setDigit col row d) :=
    pres_trans (copy_shrinks b).pres (setDigit_pres b.copy col row d hdm)
  obtain ⟨c2, k2, g2, -⟩ := p2 hc hk
  have hg2 : (b.copy.setDigit col row d).grid col row = d := by
    rw [setDigit_grid, if_pos ⟨hd0, rfl, rfl⟩]
  have hlt : b.countSolved < (b.copy.setDigit col row d).countSolved :=
    g2.count_lt col row h0 (by rw [hg2]; exact hd0)
  have hcons2 : Consistent (b.copy.setDigit col row d) S := by
    rw [← hd]
    exact setDigit_consistent b.copy col row S hS (copy_safe b S hS hcons) (by rw [cg]; exact h0)
  obtain ⟨b3, e3, p3, s3⟩ := Solve_main o 81 (b.copy.setDigit col row d) c2 k2 (by omega)
  have hs3 := s3 S hS hcons2
  obtain ⟨-, -, g3, -⟩ := p3 c2 k2
  have e82 : b.Solve o 82 = .done b3 := by
    rw [Solve_succ, singleTick_noop b h1, doubleTick_noop b h2, if_neg hs,
      if_neg (not_not.mpr hv), if_pos rfl, if_pos hs, guess_eq o _ b col row hst, hp]
    unfold Board.guessLoop
    rw [e3]
    simp only
    rw [if_pos hs3]
  refine ⟨b3, fun n hn => Solve_fuel o b b3 82 n hn e82, hs3, ?_⟩
  rw [g3.1 col row (by rw [hg2]; exact hd0), hg2]

set_option maxRecDepth 100000 in
/-- On the empty puzzle `Solve` ends with a 1 in column 0 of row 0 when
`guess` visits the candidates in increasing order, and with a 9 there when it
visits them in decreasing order. -/
theorem blank_two_orders :
    ∃ b r1 r2, New "empty" blankLines = some b ∧
      (∀ n, 82 ≤ n → b.Solve RangeOrder.increasing n = .done r1) ∧
      (∀ n, 82 ≤ n → b.Solve RangeOrder.decreasing n = .done r2) ∧
      r1.grid 0 0 = 1 ∧ r2.grid 0 0 = 9 ∧ r1.grid ≠ r2.grid := by
  have h : (New "empty" blankLines).map (fun b => (b.shortestTicks,
      decide (∀ c r, (b.ticks c r).card = 9), decide (b.ticks 0 0 = Finset.Icc 1 9), b.grid 0 0))
      = some ((0, 0), true, true, 0) := by decide
  obtain ⟨b, e, -, hg, -, hk, -⟩ := New_inv "empty" blankLines (by decide)
  rw [e] at h
  simp only [Option.map_some', Option.some.injEq, Prod.mk.injEq, decide_eq_true_eq] at h
  obtain ⟨hst, h9, ht, h0⟩ := h
  have hx : ∀ c r, digitAt blankLines r c = 0 := by decide
  have c1 : Consistent b shifted :=
    New_consistent "empty" blankLines (by decide) b e shifted (by decide)
      (fun c r hn => absurd (hx c r) hn)
  have c9 : Consistent b shifted9 :=
    New_consistent "empty" blankLines (by decide) b e shifted9 (by decide)
      (fun c r hn => absurd (hx c r) hn)
  obtain ⟨r1, e1, -, g1⟩ := Solve_first_digit RangeOrder.increasing b hk
    (fun c r => by rw [h9]; decide) (fun c r => by rw [h9]; decide) 0 0 hst h0 1
    [2, 3, 4, 5, 6, 7, 8, 9] (by
      show keys (b.ticks 0 0) = _
      rw [ht]; decide) shifted (by decide) c1 (by decide)
  obtain ⟨r2, e2, -, g2⟩ := Solve_first_digit RangeOrder.decreasing b hk
    (fun c r => by rw [h9]; decide) (fun c r => by rw [h9]; decide) 0 0 hst h0 9
    [8, 7, 6, 5, 4, 3, 2, 1] (by
      show (keys (b.ticks 0 0)).reverse = _
      rw [ht]; decide) shifted9 (by decide) c9 (by decide)
  refine ⟨b, r1, r2, e, e1, e2, g1, g2, fun heq => ?_⟩
  have := congrFun (congrFun heq 0) 0
  rw [g1, g2] at this
  exact absurd this (by decide)

/-! ## Matched pairs in a row and in a column -/

theorem finRange_split_lt (l1 l2 : List (Fin 9)) (c : Fin 9)
    (h : List.finRange 9 = l1 ++ c :: l2) (x : Fin 9) (hx : x < c) : x ∈ l1 := by
  have hm : x ∈ l1 ++ c :: l2 := h ▸ List.mem_finRange x
  have hp : List.Pairwise (· < ·) (l1 ++ c :: l2) := h ▸ List.pairwise_lt_finRange 9
  rcases List.mem_append.mp hm with h1 | h1
  · exact h1
  · exfalso
    rcases List.mem_cons.mp h1 with h2 | h2
    · rw [h2] at hx; exact lt_irrefl _ hx
    · have := (List.pairwise_cons.mp (List.pairwise_append.mp hp).2.1).1 x h2
      exact lt_asymm hx this

/-- The three passes of `doubleTickTwin` in sequence: the later ones only
shrink the candidate sets left by the earlier ones. -/
theorem doubleTickTwin_parts (b : Board) (col row : Fin 9) :
    Shrinks (b.twinRow col row (List.finRange 9)) (b.doubleTickTwin col row) ∧
    Shrinks ((b.twinRow col row (List.finRange 9)).twinCol col row (List.finRange 9))
      (b.doubleTickTwin col row) := by
  have h2 : Shrinks ((b.twinRow col row (List.finRange 9)).twinCol col row (List.finRange 9))
      (b.doubleTickTwin col row) := by
    unfold Board.doubleTickTwin
    simp only
    exact foldl_inv (fun g : Board => Shrinks
        ((b.twinRow col row (List.finRange 9)).twinCol col row (List.finRange 9)) g) _ _
      (fun g c hc hg => shrinks_trans hg (twinSquareRows_step g col row c hc).1) _
      (shrinks_refl _)
  exact ⟨shrinks_trans (twinCol_step _ col row _).1 h2, h2⟩

/-- The row pass of `doubleTickTwin` leaves the column of the cell as it
is. -/
theorem twinRow_col (b : Board) (col row r : Fin 9) :
    (b.twinRow col row (List.finRange 9)).ticks col r = b.ticks col r := by
  rcases twinRow_cases b col row (List.finRange 9) with ⟨h, -⟩ | ⟨-, c, -, -, -, -, -, h⟩
  · rw [h]
  · rw [h, (untickOthersRow_spec b col row c).2.2, if_neg (fun hx => hx.2.2 rfl)]

/-- C14, naked-pair elimination in a row and in a column.  Let the cell
`(col,row)` have exactly the two candidates `x` and `y`.  After
`doubleTickTwin(col,row)` it still has exactly these.  If another cell of the
row has the same candidate set, then with `c1` the first such column no cell
of the row other than `(col,row)` and `(c1,row)` has `x` or `y` as a
candidate; likewise in the column with the first such row `r1`.  When the row
has no twin the row pass changes nothing, and when the column has no twin the
column pass changes nothing. -/
theorem naked_pair_row_col (b : Board) (col row : Fin 9) (x y : Int) (_hxy : x ≠ y)
    (hT : b.ticks col row = {x, y}) :
    (b.doubleTickTwin col row).ticks col row = {x, y} ∧
    ((∃ c, c ≠ col ∧ b.ticks c row = b.ticks col row) →
      ∃ c1, c1 ≠ col ∧ b.ticks c1 row = b.ticks col row ∧
        (∀ c, c < c1 → c ≠ col → b.ticks c row ≠ b.ticks col row) ∧
        ∀ c2, c2 ≠ col → c2 ≠ c1 →
          x ∉ (b.doubleTickTwin col row).ticks c2 row ∧
          y ∉ (b.doubleTickTwin col row).ticks c2 row) ∧
    ((∃ r, r ≠ row ∧ b.ticks col r = b.ticks col row) →
      ∃ r1, r1 ≠ row ∧ b.ticks col r1 = b.ticks col row ∧
        (∀ r, r < r1 → r ≠ row → b.ticks col r ≠ b.ticks col row) ∧
        ∀ r2, r2 ≠ row → r2 ≠ r1 →
          x ∉ (b.doubleTickTwin col row).ticks col r2 ∧
          y ∉ (b.doubleTickTwin col row).ticks col r2) ∧
    ((∀ c, c ≠ col → b.ticks c row ≠ b.ticks col row) →
      b.twinRow col row (List.finRange 9) = b) ∧
    ((∀ r, r ≠ row → b.ticks col r ≠ b.ticks col row) →
      (b.twinRow col row (List.finRange 9)).twinCol col row (List.finRange 9)
        = b.twinRow col row (List.finRange 9)) := by
  obtain ⟨sh1, sh2⟩ := doubleTickTwin_parts b col row
  have hx : x ∈ b.ticks col row := by rw [hT]; simp
  have hy : y ∈ b.ticks col row := by rw [hT]; simp
  refine ⟨by rw [(doubleTickTwin_step b col row).2.1, hT], fun ⟨c, hc, hq⟩ => ?_,
    fun ⟨r, hr, hq⟩ => ?_, fun hno => ?_, fun hno => ?_⟩
  · rcases twinRow_cases b col row (List.finRange 9) with ⟨-, h⟩ | ⟨l1, c1, l2, e, hl1, h1, h2, h3⟩
    · exact absurd hq (h c (List.mem_finRange c) hc)
    · refine ⟨c1, h1, h2, fun c' hlt hne => hl1 c' (finRange_split_lt l1 l2 c1 e c' hlt) hne,
        fun c2 hc2 hc1 => ?_⟩
      have ht : (b.twinRow col row (List.finRange 9)).ticks c2 row
          = b.ticks c2 row \ b.ticks col row := by
        rw [h3, (untickOthersRow_spec b col row c1).2.2, if_pos ⟨rfl, hc1, hc2⟩]
      constructor
      · intro hm
        have := sh1.2 c2 row hm
        rw [ht] at this
        exact (Finset.mem_sdiff.mp this).2 hx
      · intro hm
        have := sh1.2 c2 row hm
        rw [ht] at this
        exact (Finset.mem_sdiff.mp this).2 hy
  · rcases twinCol_cases (b.twinRow col row (List.finRange 9)) col row (List.finRange 9)
      with ⟨-, h⟩ | ⟨l1, r1, l2, e, hl1, h1, h2, h3⟩
    · have := h r (List.mem_finRange r) hr
      rw [twinRow_col, twinRow_col] at this
      exact absurd hq this
    · rw [twinRow_col, twinRow_col] at h2
      refine ⟨r1, h1, h2, fun r' hlt hne => ?_, fun r2 hr2 hr1 => ?_⟩
      · have := hl1 r' (finRange_split_lt l1 l2 r1 e r' hlt) hne
        rw [twinRow_col, twinRow_col] at this
        exact this
      · have ht : ((b.twinRow col row (List.finRange 9)).twinCol col row (List.finRange 9)).ticks
            col r2 = b.ticks col r2 \ b.ticks col row := by
          rw [h3, (untickOthersCol_spec _ col row r1).2.2, if_pos ⟨rfl, hr1, hr2⟩, twinRow_col,
            twinRow_col]
        constructor
        · intro hm
          have := sh2.2 col r2 hm
          rw [ht] at this
          exact (Finset.mem_sdiff.mp this).2 hx
        · intro hm
          have := sh2.2 col r2 hm
          rw [ht] at this
          exact (Finset.mem_sdiff.mp this).2 hy
  · rcases twinRow_cases b col row (List.finRange 9) with ⟨h, -⟩ | ⟨-, c1, -, -, -, h1, h2, -⟩
    · exact h
    · exact absurd h2 (hno c1 h1)
  · rcases twinCol_cases (b.twinRow col row (List.finRange 9)) col row (List.finRange 9)
      with ⟨h, -⟩ | ⟨-, r1, -, -, -, h1, h2, -⟩
    · exact h
    · rw [twinRow_col, twinRow_col] at h2
      exact absurd h2 (hno r1 h1)

/-- Witness of C14 on `pairBoard`, whose cell in column 0 of row 0 has a twin
in its row and one in its column. -/
theorem naked_pair_row_col_witness :
    (pairBoard.doubleTickTwin 0 0).ticks 0 0 = {1, 2} ∧
    ((∃ c, c ≠ 0 ∧ pairBoard.ticks c 0 = pairBoard.ticks 0 0) →
      ∃ c1, c1 ≠ 0 ∧ pairBoard.ticks c1 0 = pairBoard.ticks 0 0 ∧
        (∀ c, c < c1 → c ≠ 0 → pairBoard.ticks c 0 ≠ pairBoard.ticks 0 0) ∧
        ∀ c2, c2 ≠ 0 → c2 ≠ c1 →
          (1 : Int) ∉ (pairBoard.doubleTickTwin 0 0).ticks c2 0 ∧
          (2 : Int) ∉ (pairBoard.doubleTickTwin 0 0).ticks c2 0) ∧
    ((∃ r, r ≠ 0 ∧ pairBoard.ticks 0 r = pairBoard.ticks 0 0) →
      ∃ r1, r1 ≠ 0 ∧ pairBoard.ticks 0 r1 = pairBoard.ticks 0 0 ∧
        (∀ r, r < r1 → r ≠ 0 → pairBoard.ticks 0 r ≠ pairBoard.ticks 0 0) ∧
        ∀ r2, r2 ≠ 0 → r2 ≠ r1 →
          (1 : Int) ∉ (pairBoard.doubleTickTwin 0 0).ticks 0 r2 ∧
          (2 : Int) ∉ (pairBoard.doubleTickTwin 0 0).ticks 0 r2) ∧
    ((∀ c, c ≠ 0 → pairBoard.ticks c 0 ≠ pairBoard.ticks 0 0) →
      pairBoard.twinRow 0 0 (List.finRange 9) = pairBoard) ∧
    ((∀ r, r ≠ 0 → pairBoard.ticks 0 r ≠ pairBoard.ticks 0 0) →
      (pairBoard.twinRow 0 0 (List.finRange 9)).twinCol 0 0 (List.finRange 9)
        = pairBoard.twinRow 0 0 (List.finRange 9)) :=
  naked_pair_row_col pairBoard 0 0 1 2 (by decide) (by decide)

/-! ## Choice of the branching cell -/

/-- Scan of `shortestTicks` over a list of cells from the state `st`: the
state is kept when no cell qualifies, else it is that of the first unsolved
cell with the fewest candidates. -/
theorem shortest_scan_first (b : Board) (l : List (Fin 9 × Fin 9)) (st : Nat × Int × Int) :
    (l.foldl (fun (st : Nat × Int × Int) p =>
        if b.grid p.1 p.2 = 0 ∧ (b.ticks p.1 p.2).card < st.1 then
          ((b.ticks p.1 p.2).card, (p.1.val : Int), (p.2.val : Int))
        else st) st = st ∧
      ∀ p ∈ l, b.grid p.1 p.2 = 0 → st.1 ≤ (b.ticks p.1 p.2).card) ∨
    ∃ l1 p l2, l = l1 ++ p :: l2 ∧ b.grid p.1 p.2 = 0 ∧ (b.ticks p.1 p.2).card < st.1 ∧
      l.foldl (fun (st : Nat × Int × Int) p =>
        if b.grid p.1 p.2 = 0 ∧ (b.ticks p.1 p.2).card < st.1 then
          ((b.ticks p.1 p.2).card, (p.1.val : Int), (p.2.val : Int))
        else st) st = ((b.ticks p.1 p.2).card, (p.1.val : Int), (p.2.val : Int)) ∧
      (∀ q ∈ l1, b.grid q.1 q.2 = 0 → (b.ticks p.1 p.2).card < (b.ticks q.1 q.2).card) ∧
      ∀ q ∈ l2, b.grid q.1 q.2 = 0 → (b.ticks p.1 p.2).card ≤ (b.ticks q.1 q.2).card := by
  induction l using List.reverseRecOn with
  | nil => exact Or.inl ⟨rfl, fun _ h => absurd h (List.not_mem_nil _)⟩
  | append_singleton l x ih =>
    rw [List.foldl_append, List.foldl_cons, List.foldl_nil]
    rcases ih with ⟨e, hall⟩ | ⟨l1, p, l2, e, hp0, hplt, hres, h1, h2⟩
    · rw [e]
      by_cases hx : b.grid x.1 x.2 = 0 ∧ (b.ticks x.1 x.2).card < st.1
      · rw [if_pos hx]
        refine Or.inr ⟨l, x, [], rfl, hx.1, hx.2, rfl, fun q hq hq0 => ?_,
          fun _ h => absurd h (List.not_mem_nil _)⟩
        have := hall q hq hq0
        omega
      · rw [if_neg hx]
        refine Or.inl ⟨rfl, fun q hq hq0 => ?_⟩
        rcases List.mem_append.mp hq with hq | hq
        · exact hall q hq hq0
        · rw [List.mem_singleton.mp hq] at hq0 ⊢
          have : ¬ (b.ticks x.1 x.2).card < st.1 := fun h => hx ⟨hq0, h⟩
          omega
    · rw [hres]
      by_cases hx : b.grid x.1 x.2 = 0 ∧ (b.ticks x.1 x.2).card < (b.ticks p.1 p.2).card
      · rw [if_pos hx]
        refine Or.inr ⟨l, x, [], rfl, hx.1, by omega, rfl, fun q hq hq0 => ?_,
          fun _ h => absurd h (List.not_mem_nil _)⟩
        rw [e] at hq
        rcases List.mem_append.mp hq with hq | hq
        · have := h1 q hq hq0; omega
        · rcases List.mem_cons.mp hq with hq | hq
          · rw [hq]; exact hx.2
          · have := h2 q hq hq0; omega
      · rw [if_neg hx]
        refine Or.inr ⟨l1, p, l2 ++ [x], by rw [e]; simp, hp0, hplt, rfl, h1, fun q hq hq0 => ?_⟩
        rcases List.mem_append.mp hq with hq | hq
        · exact h2 q hq hq0
        · rw [List.mem_singleton.mp hq] at hq0 ⊢
          have : ¬ (b.ticks x.1 x.2).card < (b.ticks p.1 p.2).card := fun h => hx ⟨hq0, h⟩
          omega

theorem pairs_lex :
    List.Pairwise (fun p q : Fin 9 × Fin 9 => p.1 < q.1 ∨ (p.1 = q.1 ∧ p.2 < q.2))
      ((List.finRange 9).flatMap fun a => (List.finRange 9).map fun b => (a, b)) := by
  decide

/-- Cell met earlier in the scan than a cell of the list of all cells lies in
the part of the list before it. -/
theorem pairs_split_lt (l1 l2 : List (Fin 9 × Fin 9)) (p q : Fin 9 × Fin 9)
    (h : ((List.finRange 9).flatMap fun a => (List.finRange 9).map fun b => (a, b))
      = l1 ++ p :: l2)
    (hq : q.1 < p.1 ∨ (q.1 = p.1 ∧ q.2 < p.2)) : q ∈ l1 := by
  have hm : q ∈ l1 ++ p :: l2 :=
    h ▸ (mem_pairs q.1 q.2).mpr ⟨List.mem_finRange _, List.mem_finRange _⟩
  have hp := pairs_lex
  rw [h] at hp
  rcases List.mem_append.mp hm with h1 | h1
  · exact h1
  · exfalso
    rcases List.mem_cons.mp h1 with h2 | h2
    · rw [h2] at hq
      rcases hq with hq | hq
      · exact lt_irrefl _ hq
      · exact lt_irrefl _ hq.2
    · have := (List.pairwise_cons.mp (List.pairwise_append.mp hp).2.1).1 q h2
      rcases hq with hq | hq <;> rcases this with h3 | h3
      · exact lt_asymm hq h3
      · rw [h3.1] at hq; exact lt_irrefl _ hq
      · rw [hq.1] at h3; exact lt_irrefl _ h3
      · exact lt_asymm hq.2 h3.2

set_option maxRecDepth 100000 in
/-- C16 as stated fails: on the board built from `deadLines` the last cell of
the first row is unsolved without any candidate, and `shortestTicks` returns
that cell, although the unsolved cell in column 0 of row 1 has 5
candidates. -/
theorem shortestTicks_takes_empty :
    ∃ b, New "dead" deadLines = some b ∧ b.shortestTicks = (8, 0) ∧ b.grid 8 0 = 0 ∧
      (b.ticks 8 0).card = 0 ∧ b.grid 0 1 = 0 ∧ (b.ticks 0 1).card = 5 := by
  have h : (New "dead" deadLines).map (fun b => (b.shortestTicks, b.grid 8 0,
      (b.ticks 8 0).card, b.grid 0 1, (b.ticks 0 1).card)) = some ((8, 0), 0, 0, 0, 5) := by
    decide
  obtain ⟨b, e, -⟩ := New_inv "dead" deadLines (by decide)
  rw [e] at h
  simp only [Option.map_some', Option.some.injEq, Prod.mk.injEq] at h
  exact ⟨b, e, by rw [h.1], h.2.1, h.2.2.1, h.2.2.2.1, h.2.2.2.2⟩

/-- C16 amended: on a board with an unsolved cell of fewer than 10
candidates `shortestTicks` returns the unsolved cell with the smallest
candidate-set size, size 0 included, and among the cells of that size the
first one met when scanning columns 0..8 in the outer loop and rows 0..8 in
the inner loop; the size is greater than zero when `valid` is true. -/
theorem shortestTicks_first (b : Board) (c0 r0 : Fin 9) (h0 : b.grid c0 r0 = 0)
    (h10 : (b.ticks c0 r0).card < 10) :
    ∃ col row : Fin 9, b.shortestTicks = ((col.val : Int), (row.val : Int)) ∧
      b.grid col row = 0 ∧
      (∀ c r, b.grid c r = 0 → (b.ticks col row).card ≤ (b.ticks c r).card) ∧
      (∀ c r, b.grid c r = 0 → (c < col ∨ (c = col ∧ r < row)) →
        (b.ticks col row).card < (b.ticks c r).card) ∧
      (b.valid = true → 0 < (b.ticks col row).card) := by
  have e := foldl_nested (fun (st : Nat × Int × Int) (col row : Fin 9) =>
      if b.grid col row = 0 ∧ (b.ticks col row).card < st.1 then
        ((b.ticks col row).card, (col.val : Int), (row.val : Int))
      else st) (List.finRange 9) (List.finRange 9) (10, -1, -1)
  have hs : b.shortestTicksScan = (List.finRange 9).foldl (fun st col =>
      (List.finRange 9).foldl (fun (st : Nat × Int × Int) row =>
        if b.grid col row = 0 ∧ (b.ticks col row).card < st.1 then
          ((b.ticks col row).card, (col.val : Int), (row.val : Int))
        else st) st) (10, -1, -1) := rfl
  have hm : ∀ c r : Fin 9,
      (c, r) ∈ ((List.finRange 9).flatMap fun a => (List.finRange 9).map fun b => (a, b)) :=
    fun c r => (mem_pairs c r).mpr ⟨List.mem_finRange c, List.mem_finRange r⟩
  rcases shortest_scan_first b
    ((List.finRange 9).flatMap fun a => (List.finRange 9).map fun b => (a, b)) (10, -1, -1)
    with ⟨-, hall⟩ | ⟨l1, p, l2, el, hp0, -, hres, h1, h2⟩
  · have := hall (c0, r0) (hm c0 r0) h0
    simp only at this
    omega
  · rw [← e, ← hs] at hres
    refine ⟨p.1, p.2, by unfold Board.shortestTicks; rw [hres], hp0, fun c r hz => ?_,
      fun c r hz hlt => h1 (c, r) (pairs_split_lt l1 l2 p (c, r) el hlt) hz,
      fun hv => ((valid_iff b).mp hv).2.2.1 p.1 p.2 hp0⟩
    have hmem := hm c r
    rw [el] at hmem
    rcases List.mem_append.mp hmem with hq | hq
    · exact le_of_lt (h1 (c, r) hq hz)
    · rcases List.mem_cons.mp hq with hq | hq
      · rw [← hq]
      · exact h2 (c, r) hq hz

/-- Witness of the amended C16 on the open board. -/
theorem shortestTicks_first_witness :
    ∃ col row : Fin 9, openBoard.shortestTicks = ((col.val : Int), (row.val : Int)) ∧
      openBoard.grid col row = 0 ∧
      (∀ c r, openBoard.grid c r = 0 →
        (openBoard.ticks col row).card ≤ (openBoard.ticks c r).card) ∧
      (∀ c r, openBoard.grid c r = 0 → (c < col ∨ (c = col ∧ r < row)) →
        (openBoard.ticks col row).card < (openBoard.ticks c r).card) ∧
      (openBoard.valid = true → 0 < (openBoard.ticks col row).card) :=
  shortestTicks_first openBoard 0 0 (by decide) (by decide)

/-! ## Single candidates, cell by cell -/

theorem consistent_candidate {b : Board} {S : Fin 9 → Fin 9 → Int} (h : Consistent b S)
    (c r : Fin 9) (h0 : b.grid c r = 0) : S c r ∈ b.ticks c r := (h c r).2 h0

/-- Body of `singleTick` on the cell `x`: nothing, or `setDigit` with the one
candidate `e` of the cell. -/
theorem singleTick_cell_cases (g : Board) (x : Fin 9 × Fin 9) :
    (¬ (g.ticks x.1 x.2).card = 1 ∧
      (if (g.ticks x.1 x.2).card = 1 then
        (keys (g.ticks x.1 x.2)).foldl (fun b digit => b.setDigit x.1 x.2 digit) g
       else g) = g) ∨
    ∃ e, g.ticks x.1 x.2 = {e} ∧
      (if (g.ticks x.1 x.2).card = 1 then
        (keys (g.ticks x.1 x.2)).foldl (fun b digit => b.setDigit x.1 x.2 digit) g
       else g) = g.setDigit x.1 x.2 e := by
  by_cases h1 : (g.ticks x.1 x.2).card = 1
  · obtain ⟨e, he⟩ := Finset.card_eq_one.mp h1
    refine Or.inr ⟨e, he, ?_⟩
    rw [if_pos h1, he, keys_singleton, List.foldl_cons, List.foldl_nil]
  · exact Or.inl ⟨h1, by rw [if_neg h1]⟩

/-- Sweep of `singleTick` over cells other than `(col,row)`, before that cell
is visited: the cell stays unsolved, and its candidate `d` is still there
unless a peer has been set to `d`. -/
theorem singleTick_before (col row : Fin 9) (d : Int) (hd0 : d ≠ 0)
    (l : List (Fin 9 × Fin 9)) (hl : ∀ x ∈ l, x ≠ (col, row)) (b : Board)
    (hc : Clean b) (hk : KeysOk b) (h0 : b.grid col row = 0)
    (hd : d ∈ b.ticks col row ∨ ∃ c r, peer col row c r ∧ b.grid c r = d) :
    Clean (l.foldl (fun g x => if (g.ticks x.1 x.2).card = 1 then
        (keys (g.ticks x.1 x.2)).foldl (fun b digit => b.setDigit x.1 x.2 digit) g
       else g) b) ∧
    KeysOk (l.foldl (fun g x => if (g.ticks x.1 x.2).card = 1 then
        (keys (g.ticks x.1 x.2)).foldl (fun b digit => b.setDigit x.1 x.2 digit) g
       else g) b) ∧
    Grows b (l.foldl (fun g x => if (g.ticks x.1 x.2).card = 1 then
        (keys (g.ticks x.1 x.2)).foldl (fun b digit => b.setDigit x.1 x.2 digit) g
       else g) b) ∧
    (l.foldl (fun g x => if (g.ticks x.1 x.2).card = 1 then
        (keys (g.ticks x.1 x.2)).foldl (fun b digit => b.setDigit x.1 x.2 digit) g
       else g) b).grid col row = 0 ∧
    (d ∈ (l.foldl (fun g x => if (g.ticks x.1 x.2).card = 1 then
        (keys (g.ticks x.1 x.2)).foldl (fun b digit => b.setDigit x.1 x.2 digit) g
       else g) b).ticks col row ∨
      ∃ c r, peer col row c r ∧ (l.foldl (fun g x => if (g.ticks x.1 x.2).card = 1 then
        (keys (g.ticks x.1 x.2)).foldl (fun b digit => b.setDigit x.1 x.2 digit) g
       else g) b).grid c r = d) := by
  induction l generalizing b with
  | nil => exact ⟨hc, hk, grows_refl b, h0, hd⟩
  | cons x xs ih =>
    rw [List.foldl_cons]
    have hx : x ≠ (col, row) := hl x (List.mem_cons_self _ _)
    have hxs : ∀ y ∈ xs, y ≠ (col, row) := fun y hy => hl y (List.mem_cons_of_mem _ hy)
    rcases singleTick_cell_cases b x with ⟨-, e1⟩ | ⟨e, he, e1⟩
    · rw [e1]
      exact ih hxs b hc hk h0 hd
    · rw [e1]
      have hem : e ∈ b.ticks x.1 x.2 := by rw [he]; exact Finset.mem_singleton_self e
      have he0 : e ≠ 0 := by have := hk x.1 x.2 e hem; omega
      obtain ⟨c2, k2, g2, -⟩ := setDigit_pres b x.1 x.2 e hem hc hk
      obtain ⟨-, sg, st⟩ := setDigit_spec b x.1 x.2 e he0
      have hne : ¬ (col = x.1 ∧ row = x.2) := fun h => hx (by ext <;> simp [h.1, h.2])
      have h0' : (b.setDigit x.1 x.2 e).grid col row = 0 := by
        rw [sg, if_neg hne]; exact h0
      have hd' : d ∈ (b.setDigit x.1 x.2 e).ticks col row ∨
          ∃ c r, peer col row c r ∧ (b.setDigit x.1 x.2 e).grid c r = d := by
        rcases hd with hd | ⟨c, r, hp, hg⟩
        · by_cases hm : d ∈ (b.setDigit x.1 x.2 e).ticks col row
          · exact Or.inl hm
          · right
            rw [st, if_neg hne] at hm
            by_cases hs : sees x.1 x.2 col row
            · rw [if_pos hs] at hm
              have hde : d = e := by
                by_contra hne2
                exact hm (Finset.mem_erase.mpr ⟨hne2, hd⟩)
              refine ⟨x.1, x.2, ⟨sees_symm hs, fun h => hne ⟨h.1.symm, h.2.symm⟩⟩, ?_⟩
              rw [sg, if_pos ⟨rfl, rfl⟩, hde]
            · rw [if_neg hs] at hm
              exact absurd hd hm
        · exact Or.inr ⟨c, r, hp, by rw [g2.1 c r (by rw [hg]; exact hd0), hg]⟩
      obtain ⟨r1, r2, r3, r4, r5⟩ := ih hxs (b.setDigit x.1 x.2 e) c2 k2 h0' hd'
      exact ⟨r1, r2, grows_trans g2 r3, r4, r5⟩

/-- Sweep of `singleTick` over cells other than `(col,row)`, after that cell
was visited: it keeps its digit `d`, or stays unsolved without candidates
next to a peer that holds `d`. -/
theorem singleTick_after (col row : Fin 9) (d : Int) (hd0 : d ≠ 0)
    (l : List (Fin 9 × Fin 9)) (hl : ∀ x ∈ l, x ≠ (col, row)) (b : Board)
    (hc : Clean b) (hk : KeysOk b)
    (hd : b.grid col row = d ∨ (b.grid col row = 0 ∧ b.ticks col row = ∅ ∧
      ∃ c r, peer col row c r ∧ b.grid c r = d)) :
    (l.foldl (fun g x => if (g.ticks x.1 x.2).card = 1 then
        (keys (g.ticks x.1 x.2)).foldl (fun b digit => b.setDigit x.1 x.2 digit) g
       else g) b).grid col row = d ∨
    ((l.foldl (fun g x => if (g.ticks x.1 x.2).card = 1 then
        (keys (g.ticks x.1 x.2)).foldl (fun b digit => b.setDigit x.1 x.2 digit) g
       else g) b).grid col row = 0 ∧
     (l.foldl (fun g x => if (g.ticks x.1 x.2).card = 1 then
        (keys (g.ticks x.1 x.2)).foldl (fun b digit => b.setDigit x.1 x.2 digit) g
       else g) b).ticks col row = ∅ ∧
     ∃ c r, peer col row c r ∧ (l.foldl (fun g x => if (g.ticks x.1 x.2).card = 1 then
        (keys (g.ticks x.1 x.2)).foldl (fun b digit => b.setDigit x.1 x.2 digit) g
       else g) b).grid c r = d) := by
  induction l generalizing b with
  | nil => exact hd
  | cons x xs ih =>
    rw [List.foldl_cons]
    have hx : x ≠ (col, row) := hl x (List.mem_cons_self _ _)
    have hxs : ∀ y ∈ xs, y ≠ (col, row) := fun y hy => hl y (List.mem_cons_of_mem _ hy)
    rcases singleTick_cell_cases b x with ⟨-, e1⟩ | ⟨e, he, e1⟩
    · rw [e1]
      exact ih hxs b hc hk hd
    · rw [e1]
      have hem : e ∈ b.ticks x.1 x.2 := by rw [he]; exact Finset.mem_singleton_self e
      have he0 : e ≠ 0 := by have := hk x.1 x.2 e hem; omega
      obtain ⟨c2, k2, g2, -⟩ := setDigit_pres b x.1 x.2 e hem hc hk
      obtain ⟨-, sg, -⟩ := setDigit_spec b x.1 x.2 e he0
      have hne : ¬ (col = x.1 ∧ row = x.2) := fun h => hx (by ext <;> simp [h.1, h.2])
      refine ih hxs (b.setDigit x.1 x.2 e) c2 k2 ?_
      rcases hd with hd | ⟨h0, ht, c, r, hp, hg⟩
      · exact Or.inl (by rw [g2.1 col row (by rw [hd]; exact hd0), hd])
      · refine Or.inr ⟨by rw [sg, if_neg hne]; exact h0,
          Finset.subset_empty.mp (ht ▸ g2.2 col row), c, r, hp, ?_⟩
        rw [g2.1 c r (by rw [hg]; exact hd0), hg]

set_option maxRecDepth 100000 in
/-- C15 as stated fails: on the board built from `singlesLines` solved cells
have no candidates and the cell in column 1 of row 0 is unsolved with the one
candidate 5, yet after `singleTick` it is still unsolved (the cell in column
0 of the same row took the 5 earlier in the sweep). -/
theorem singles_conflict :
    ∃ b, New "singles" singlesLines = some b ∧ Clean b ∧ b.grid 1 0 = 0 ∧
      b.ticks 1 0 = {5} ∧ b.singleTick.grid 1 0 = 0 ∧ b.singleTick.grid 1 0 ≠ 5 ∧
      b.singleTick.grid 0 0 = 5 := by
  have h : (New "singles" singlesLines).map (fun b => (decide (b.ticks 1 0 = {5}), b.grid 1 0,
      b.singleTick.grid 1 0, b.singleTick.grid 0 0)) = some (true, 0, 0, 5) := by decide
  obtain ⟨b, e, -, -, hc, -, -⟩ := New_inv "singles" singlesLines (by decide)
  rw [e] at h
  simp only [Option.map_some', Option.some.injEq, Prod.mk.injEq, decide_eq_true_eq] at h
  exact ⟨b, e, hc, h.2.1, h.1, h.2.2.1, by rw [h.2.2.1]; decide, h.2.2.2⟩

/-- C15 amended: on a board in which solved cells have no candidates and all
candidates are digits 1..9, a cell that is unsolved with exactly one
candidate `d` when `singleTick` is called is afterwards solved with `d`, or,
when a cell of its row, column or block was set to `d` earlier in the sweep,
still unsolved and without candidates.  On a board consistent with a complete
valid Sudoku it is always solved with `d`. -/
theorem singleTick_single (b : Board) (hc : Clean b) (hk : KeysOk b) (col row : Fin 9)
    (d : Int) (h0 : b.grid col row = 0) (hT : b.ticks col row = {d}) :
    (b.singleTick.grid col row = d ∨
      (b.singleTick.grid col row = 0 ∧ b.singleTick.ticks col row = ∅ ∧
        ∃ c r, peer col row c r ∧ b.singleTick.grid c r = d)) ∧
    ∀ S, CompleteValid S → Consistent b S → b.singleTick.grid col row = d := by
  have hdm : d ∈ b.ticks col row := by rw [hT]; exact Finset.mem_singleton_self d
  have hd0 : d ≠ 0 := by have := hk col row d hdm; omega
  have hmem : (col, row) ∈
      ((List.finRange 9).flatMap fun a => (List.finRange 9).map fun b => (a, b)) :=
    (mem_pairs col row).mpr ⟨List.mem_finRange col, List.mem_finRange row⟩
  obtain ⟨l1, l2, el⟩ := List.append_of_mem hmem
  have hnd := pairs_nodup
  rw [el] at hnd
  have hl1 : ∀ x ∈ l1, x ≠ (col, row) := by
    intro x hx heq
    have := (List.nodup_append.mp hnd).2.2
    exact this hx (by rw [heq]; exact List.mem_cons_self _ _)
  have hl2 : ∀ x ∈ l2, x ≠ (col, row) := by
    intro x hx heq
    have := (List.nodup_cons.mp (List.nodup_append.mp hnd).2.1).1
    exact this (heq ▸ hx)
  have e := foldl_nested (fun (g : Board) (c r : Fin 9) =>
      if (g.ticks c r).card = 1 then
        (keys (g.ticks c r)).foldl (fun b digit => b.setDigit c r digit) g
      else g) (List.finRange 9) (List.finRange 9) b
  have hst : b.singleTick = (l1 ++ (col, row) :: l2).foldl (fun g x =>
      if (g.ticks x.1 x.2).card = 1 then
        (keys (g.ticks x.1 x.2)).foldl (fun b digit => b.setDigit x.1 x.2 digit) g
      else g) b := by
    rw [← el, ← e]
    rfl
  have key : b.singleTick.grid col row = d ∨
      (b.singleTick.grid col row = 0 ∧ b.singleTick.ticks col row = ∅ ∧
        ∃ c r, peer col row c r ∧ b.singleTick.grid c r = d) := by
    rw [hst, List.foldl_append, List.foldl_cons]
    obtain ⟨c1, k1, g1, z1, d1⟩ := singleTick_before col row d hd0 l1 hl1 b hc hk h0 (Or.inl hdm)
    generalize l1.foldl (fun g x =>
      if (g.ticks x.1 x.2).card = 1 then
        (keys (g.ticks x.1 x.2)).foldl (fun b digit => b.setDigit x.1 x.2 digit) g
      else g) b = g at c1 k1 g1 z1 d1 ⊢
    have hsub : g.ticks col row ⊆ {d} := hT ▸ g1.2 col row
    rcases d1 with d1 | d1
    · have hgT : g.ticks col row = {d} :=
        Finset.Subset.antisymm hsub (Finset.singleton_subset_iff.mpr d1)
      have h1 : (g.ticks col row).card = 1 := by rw [hgT]; rfl
      simp only [h1, if_true]
      rw [hgT, keys_singleton, List.foldl_cons, List.foldl_nil]
      obtain ⟨c2, k2, -, -⟩ := setDigit_pres g col row d d1 c1 k1
      exact singleTick_after col row d hd0 l2 hl2 _ c2 k2
        (Or.inl (by rw [setDigit_grid, if_pos ⟨hd0, rfl, rfl⟩]))
    · have hne : ¬ d ∈ g.ticks col row ∨ d ∈ g.ticks col row := (em _).symm
      rcases hne with hne | hne
      · have hgE : g.ticks col row = ∅ := by
          apply Finset.eq_empty_of_forall_not_mem
          intro y hy
          have := Finset.mem_singleton.mp (hsub hy)
          exact hne (this ▸ hy)
        have h1 : ¬ (g.ticks col row).card = 1 := by rw [hgE]; decide
        simp only [h1, if_false]
        exact singleTick_after col row d hd0 l2 hl2 g c1 k1 (Or.inr ⟨z1, hgE, d1⟩)
      · have hgT : g.ticks col row = {d} :=
          Finset.Subset.antisymm hsub (Finset.singleton_subset_iff.mpr hne)
        have h1 : (g.ticks col row).card = 1 := by rw [hgT]; rfl
        simp only [h1, if_true]
        rw [hgT, keys_singleton, List.foldl_cons, List.foldl_nil]
        obtain ⟨c2, k2, -, -⟩ := setDigit_pres g col row d hne c1 k1
        exact singleTick_after col row d hd0 l2 hl2 _ c2 k2
          (Or.inl (by rw [setDigit_grid, if_pos ⟨hd0, rfl, rfl⟩]))
  refine ⟨key, fun S hS hcons => ?_⟩
  rcases key with h | ⟨hz, he, -⟩
  · exact h
  · exfalso
    have hcs : Consistent b.singleTick S :=
      (singleTick_pres_safe b).2 S (completeValid_isSolution S hS) hcons
    revert hz he hcs
    generalize b.singleTick = g
    intro hz he hcs
    have := consistent_candidate hcs col row hz
    rw [he] at this
    exact absurd this (Finset.not_mem_empty _)

/-- Witness of the amended C15 on `oneSingleBoard`. -/
theorem singleTick_single_witness :
    (oneSingleBoard.singleTick.grid 0 0 = 5 ∨
      (oneSingleBoard.singleTick.grid 0 0 = 0 ∧ oneSingleBoard.singleTick.ticks 0 0 = ∅ ∧
        ∃ c r, peer 0 0 c r ∧ oneSingleBoard.singleTick.grid c r = 5)) ∧
    ∀ S, CompleteValid S → Consistent oneSingleBoard S →
      oneSingleBoard.singleTick.grid 0 0 = 5 :=
  singleTick_single oneSingleBoard (by decide) (by decide) 0 0 5 (by decide) (by decide)

/-! ## The propagation loop on its own -/

theorem solveLoop_succ (n : Nat) (b : Board) :
    b.solveLoop (n + 1) =
      if b.singleTick.doubleTick.Solved then some (b.singleTick.doubleTick, false)
      else if ¬ b.singleTick.doubleTick.valid then some (b.singleTick.doubleTick, false)
      else if b.countSolved = b.singleTick.doubleTick.countSolved then
        some (b.singleTick.doubleTick, true)
      else Board.solveLoop n b.singleTick.doubleTick := rfl

/-- With fuel above the number of unsolved cells the propagation loop is
left, on a board of the same name that keeps the invariants and every
solution the input is consistent with. -/
theorem solveLoop_main (n : Nat) :
    ∀ b : Board, Clean b → KeysOk b → 81 - b.countSolved < n →
      ∃ g st, b.solveLoop n = some (g, st) ∧ g.name = b.name ∧ Pres b g ∧ Safe b g := by
  induction n with
  | zero => intro b _ _ h; omega
  | succ n ih =>
    intro b hc hk hn
    obtain ⟨pp, ps⟩ := propagate_pres_safe b
    have hname : b.singleTick.doubleTick.name = b.name := by
      rw [doubleTick_name, singleTick_name]
    rw [solveLoop_succ]
    generalize b.singleTick.doubleTick = b1 at pp ps hname ⊢
    obtain ⟨c1, k1, g1, -⟩ := pp hc hk
    have hle := g1.count_le
    have h81 := countSolved_le b1
    by_cases hs : b1.Solved = true
    · rw [if_pos hs]
      exact ⟨_, _, rfl, hname, pp, ps⟩
    · rw [if_neg hs]
      by_cases hv : ¬ b1.valid = true
      · rw [if_pos hv]
        exact ⟨_, _, rfl, hname, pp, ps⟩
      · rw [if_neg hv]
        by_cases hcnt : b.countSolved = b1.countSolved
        · rw [if_pos hcnt]
          exact ⟨_, _, rfl, hname, pp, ps⟩
        · rw [if_neg hcnt]
          obtain ⟨g, st, e, hg, p2, s2⟩ := ih b1 c1 k1 (by omega)
          exact ⟨g, st, e, hg.trans hname, pres_trans pp p2, safe_trans ps s2⟩

/-- More fuel does not change the result of the propagation loop. -/
theorem solveLoop_mono (n : Nat) :
    ∀ (b : Board) (p : Board × Bool), b.solveLoop n = some p → b.solveLoop (n + 1) = some p := by
  induction n with
  | zero => intro b p h; exact absurd h (by simp [Board.solveLoop])
  | succ n ih =>
    intro b p h
    rw [solveLoop_succ] at h ⊢
    generalize b.singleTick.doubleTick = b1 at h ⊢
    by_cases hs : b1.Solved = true
    · rw [if_pos hs] at h ⊢; exact h
    · rw [if_neg hs] at h ⊢
      by_cases hv : ¬ b1.valid = true
      · rw [if_pos hv] at h ⊢; exact h
      · rw [if_neg hv] at h ⊢
        by_cases hc : b.countSolved = b1.countSolved
        · rw [if_pos hc] at h ⊢; exact h
        · rw [if_neg hc] at h ⊢
          exact ih b1 p h

theorem solveLoop_fuel (b : Board) (p : Board × Bool) (n m : Nat) (hnm : n ≤ m)
    (h : b.solveLoop n = some p) : b.solveLoop m = some p := by
  induction m with
  | zero =>
    have : n = 0 := by omega
    rw [← this]; exact h
  | succ m ih =>
    by_cases e : n = m + 1
    · rw [← e]; exact h
    · exact solveLoop_mono m b p (ih (by omega))

/-- Method `Solve` in terms of its loop: when the loop is left by `return`,
`Solve` returns the board of the loop; when it is left by `break`, that board
is valid and not solved, and `Solve` returns what `guess` returns on it. -/
theorem solveLoop_solve (o : RangeOrder) (n : Nat) :
    ∀ (b g : Board) (st : Bool), b.solveLoop n = some (g, st) →
      (st = false → b.Solve o n = .done g) ∧
      (st = true → g.Solved = false ∧ g.valid = true ∧
        ∃ k, b.Solve o n = g.guess o (Board.Solve o k)) := by
  induction n with
  | zero => intro b g st h; exact absurd h (by simp [Board.solveLoop])
  | succ n ih =>
    intro b g st h
    rw [solveLoop_succ] at h
    rw [Solve_succ]
    generalize b.singleTick.doubleTick = b1 at h ⊢
    by_cases hs : b1.Solved = true
    · rw [if_pos hs] at h ⊢
      simp only [Option.some.injEq, Prod.mk.injEq] at h
      obtain ⟨rfl, rfl⟩ := h
      exact ⟨fun _ => rfl, fun h => absurd h (by simp)⟩
    · rw [if_neg hs] at h ⊢
      by_cases hv : ¬ b1.valid = true
      · rw [if_pos hv] at h ⊢
        simp only [Option.some.injEq, Prod.mk.injEq] at h
        obtain ⟨rfl, rfl⟩ := h
        exact ⟨fun _ => rfl, fun h => absurd h (by simp)⟩
      · rw [if_neg hv] at h ⊢
        by_cases hc : b.countSolved = b1.countSolved
        · rw [if_pos hc] at h
          rw [if_pos hc, if_pos hs]
          simp only [Option.some.injEq, Prod.mk.injEq] at h
          obtain ⟨rfl, rfl⟩ := h
          refine ⟨fun h => absurd h (by simp), fun _ => ⟨?_, not_not.mp hv, n, rfl⟩⟩
          exact Bool.eq_false_iff.mpr hs
        · rw [if_neg hc] at h ⊢
          exact ih b1 g st h

/-! ## Outcomes that do not depend on the order of the guesses -/

/-- A loop of `guess` that ends on an unsolved board returns the board it
started from, every digit having been tried without success. -/
theorem guessLoop_none (solve : Board → Outcome) (b : Board) (col row : Fin 9) (L : List Int)
    (b3 : Board) (h : b.guessLoop solve col row L = .done b3) (hs : ¬ b3.Solved = true) :
    b3 = b ∧ ∀ d ∈ L, ∃ r, solve (b.copy.setDigit col row d) = .done r ∧ ¬ r.Solved = true := by
  induction L with
  | nil =>
    unfold Board.guessLoop at h
    cases h
    exact ⟨rfl, fun d hd => absurd hd (List.not_mem_nil _)⟩
  | cons d ds ih =>
    unfold Board.guessLoop at h
    cases e : solve (b.copy.setDigit col row d) with
    | done b2 =>
      rw [e] at h
      simp only at h
      by_cases h2 : b2.Solved = true
      · rw [if_pos h2] at h
        cases h
        exact absurd h2 hs
      · rw [if_neg h2] at h
        obtain ⟨h3, h4⟩ := ih h
        refine ⟨h3, fun x hx => ?_⟩
        rcases List.mem_cons.mp hx with rfl | hx
        · exact ⟨b2, e, h2⟩
        · exact h4 x hx
    | panic => rw [e] at h; exact absurd h (by simp)
    | outOfFuel => rw [e] at h; exact absurd h (by simp)

/-- When `Solve` ends on an unsolved board under one order of the guesses,
it ends on the very same board under every order. -/
theorem Solve_unsolved (o1 o2 : RangeOrder) (n : Nat) :
    ∀ b r1 : Board, b.Solve o1 n = .done r1 → ¬ r1.Solved = true →
      ∀ (m : Nat) (r2 : Board), b.Solve o2 m = .done r2 → r2 = r1 := by
  induction n with
  | zero => intro b r1 h; exact absurd h (by simp [Board.Solve])
  | succ n ih =>
    intro b r1 h1 hs m r2 h2
    cases m with
    | zero => exact absurd h2 (by simp [Board.Solve])
    | succ m =>
      rw [Solve_succ] at h1 h2
      generalize b.singleTick.doubleTick = b1 at h1 h2
      by_cases hs1 : b1.Solved = true
      · rw [if_pos hs1] at h1 h2
        cases h1; cases h2; rfl
      · rw [if_neg hs1] at h1 h2
        by_cases hv : ¬ b1.valid = true
        · rw [if_pos hv] at h1 h2
          cases h1; cases h2; rfl
        · rw [if_neg hv] at h1 h2
          by_cases hc : b.countSolved = b1.countSolved
          · rw [if_pos hc, if_pos hs1] at h1 h2
            unfold Board.guess at h1 h2
            cases e1 : toIndex b1.shortestTicks.1 with
            | none => rw [e1] at h1; exact absurd h1 (by simp)
            | some col =>
              cases e2 : toIndex b1.shortestTicks.2 with
              | none => rw [e1, e2] at h1; exact absurd h1 (by simp)
              | some row =>
                rw [e1, e2] at h1 h2
                obtain ⟨h3, h4⟩ := guessLoop_none _ b1 col row _ r1 h1 hs
                rcases guessLoop_done _ b1 col row _ r2 h2 with h5 | ⟨h5, d, hd, h6⟩
                · rw [h5, h3]
                · exfalso
                  have hd1 : d ∈ o1.pick b1 (b1.ticks col row) :=
                    (o1.mem _ _ d).mpr ((o2.mem _ _ d).mp hd)
                  obtain ⟨r, hr, hrs⟩ := h4 d hd1
                  have := ih _ r hr hrs m r2 h6
                  rw [this] at h5
                  exact hrs h5
          · rw [if_neg hc] at h1 h2
            exact ih b1 r1 h1 hs m r2 h2

/-! ## The puzzle `forkLines` -/

theorem board_ext (a b : Board) (hn : a.name = b.name) (hg : ∀ c r, a.grid c r = b.grid c r)
    (ht : ∀ c r, a.ticks c r = b.ticks c r) : a = b := by
  cases a
  cases b
  simp only at hn hg ht
  have h1 := funext fun c => funext fun r => hg c r
  have h2 := funext fun c => funext fun r => ht c r
  subst hn h1 h2
  rfl

set_option maxRecDepth 100000 in
theorem fork_shape : Lines9 forkLines ∧ DigitChars forkLines ∧ Distinct (givens forkLines) := by
  decide

theorem fork_new : New "fork" forkLines = some forkBoard := by
  obtain ⟨b, e, -⟩ := New_inv "fork" forkLines fork_shape.1
  unfold forkBoard
  rw [e]
  rfl

theorem fork_name : forkBoard.name = "fork" := by
  obtain ⟨b, e, hn, -⟩ := New_inv "fork" forkLines fork_shape.1
  rw [fork_new] at e
  rw [Option.some.inj e]
  exact hn

set_option maxRecDepth 100000 in
theorem fork_pass_grid :
    ∀ c r, forkBoard.singleTick.doubleTick.grid c r = forkStall.grid c r := by decide

set_option maxRecDepth 100000 in
theorem fork_pass_ticks :
    ∀ c r, forkBoard.singleTick.doubleTick.ticks c r = forkStall.ticks c r := by decide

/-- First pass of the propagation loop on `forkBoard`. -/
theorem fork_pass : forkBoard.singleTick.doubleTick = forkStall :=
  board_ext _ _ (by rw [doubleTick_name, singleTick_name, fork_name]; rfl)
    fork_pass_grid fork_pass_ticks

set_option maxRecDepth 100000 in
theorem fork_stall_grid :
    ∀ c r, forkStall.singleTick.doubleTick.grid c r = forkStall.grid c r := by decide

set_option maxRecDepth 100000 in
theorem fork_stall_ticks :
    ∀ c r, forkStall.singleTick.doubleTick.ticks c r = forkStall.ticks c r := by decide

/-- Second pass of the propagation loop on `forkBoard`: nothing changes. -/
theorem fork_stall : forkStall.singleTick.doubleTick = forkStall :=
  board_ext _ _ (by rw [doubleTick_name, singleTick_name]) fork_stall_grid fork_stall_ticks

set_option maxRecDepth 100000 in
theorem fork_counts : forkBoard.countSolved = 63 ∧ forkStall.countSolved = 64 := by decide

set_option maxRecDepth 100000 in
theorem fork_stall_state :
    forkStall.Solved = false ∧ forkStall.valid = true ∧ forkStall.shortestTicks = (0, 4) ∧
      forkStall.grid 0 4 = 0 ∧ forkStall.ticks 0 4 = {5, 6} := by decide

/-- The propagation loop on `forkBoard` is left by `break` after two passes,
on the board `forkStall`. -/
theorem fork_loop (n : Nat) (hn : 82 ≤ n) : forkBoard.solveLoop n = some (forkStall, true) := by
  refine solveLoop_fuel forkBoard _ 2 n (by omega) ?_
  obtain ⟨h1, h2⟩ := fork_counts
  obtain ⟨h3, h4, -⟩ := fork_stall_state
  rw [solveLoop_succ, fork_pass, h1, h2, h3, h4, solveLoop_succ, fork_stall, h3, h4]
  rfl

set_option maxRecDepth 100000 in
theorem fork_six : ((forkStall.setDigit 0 4 6).singleTick.doubleTick).valid = false := by
  decide

set_option maxRecDepth 100000 in
theorem fork_five_cells :
    ∀ c r, ((forkStall.setDigit 0 4 5).singleTick.doubleTick).grid c r = forkFive.grid c r ∧
      ((forkStall.setDigit 0 4 5).singleTick.doubleTick).ticks c r = forkFive.ticks c r := by
  decide

set_option maxRecDepth 100000 in
theorem fork_five_solved :
    ∀ c r, forkFive.singleTick.doubleTick.grid c r = shifted c r := by decide

set_option maxRecDepth 100000 in
theorem fork_stall_inv : Clean forkStall ∧ KeysOk forkStall := by decide

set_option maxRecDepth 100000 in
theorem shifted_ne : ∀ c r, shifted c r ≠ 0 := by decide

theorem consistent_congr {a b : Board} {S : Fin 9 → Fin 9 → Int}
    (hg : ∀ c r, a.grid c r = b.grid c r) (ht : ∀ c r, a.ticks c r = b.ticks c r)
    (h : Consistent a S) : Consistent b S := by
  intro c r
  rw [← hg, ← ht]
  exact h c r

/-- The board built from `forkLines` is consistent with every solution that
extends the given digits. -/
theorem fork_consistent (S : Fin 9 → Fin 9 → Int) (hS : IsSolution S)
    (hx : ∀ c r, givens forkLines c r ≠ 0 → S c r = givens forkLines c r) :
    Consistent forkBoard S := by
  refine New_consistent "fork" forkLines fork_shape.1 forkBoard fork_new S hS (fun c r hn => ?_)
  rw [(digitAt_eq_givens forkLines fork_shape.1 fork_shape.2.1 c r).1] at hn ⊢
  exact hx c r hn

/-- Only the grid `shifted` completes `forkLines`: a completion has 5 or 6 in
column 0 of row 4; with 6 one pass of propagation ends in a board that is not
valid, with 5 two passes solve the board. -/
theorem fork_unique (S : Fin 9 → Fin 9 → Int) (hS : IsSolution S)
    (hx : ∀ c r, givens forkLines c r ≠ 0 → S c r = givens forkLines c r) : S = shifted := by
  have h0 : Consistent forkStall S := by
    have := (propagate_pres_safe forkBoard).2 S hS (fork_consistent S hS hx)
    rw [fork_pass] at this
    exact this
  obtain ⟨-, -, -, hz, ht⟩ := fork_stall_state
  have hm := (h0 0 4).2 hz
  rw [ht] at hm
  have hcase : S 0 4 = 5 ∨ S 0 4 = 6 := by
    simpa [Finset.mem_insert, Finset.mem_singleton] using hm
  have hset := setDigit_consistent forkStall 0 4 S hS h0 hz
  rcases hcase with h5 | h6
  · rw [h5] at hset
    have h1 := (propagate_pres_safe _).2 S hS hset
    have h2 : Consistent forkFive S :=
      consistent_congr (fun c r => (fork_five_cells c r).1) (fun c r => (fork_five_cells c r).2) h1
    have h3 := (propagate_pres_safe _).2 S hS h2
    funext c r
    have h4 := fork_five_solved c r
    have hn : forkFive.singleTick.doubleTick.grid c r ≠ 0 := by
      rw [h4]
      exact shifted_ne c r
    rw [← ((h3 c r).1 hn).1, h4]
  · exfalso
    rw [h6] at hset
    have h1 := (propagate_pres_safe _).2 S hS hset
    obtain ⟨c1, k1⟩ := setDigit_clean forkStall 0 4 6 fork_stall_inv.1 fork_stall_inv.2
    obtain ⟨-, k2, -⟩ := (propagate_pres_safe _).1 c1 k1
    have hv := consistent_valid _ S hS h1 k2
    rw [fork_six] at hv
    exact absurd hv (by simp)

/-! ## Results of `Solve` on boards built by `New` -/

/-- Run of `Solve` on a freshly built board: it returns, and a solved result
for givens without duplicates is a solution that extends the givens, with no
candidate left. -/
theorem New_solve (o : RangeOrder) (name : String) (lines : List GoString) (h9 : Lines9 lines) :
    ∃ b r, New name lines = some b ∧ (∀ n, 82 ≤ n → b.Solve o n = .done r) ∧
      (∀ S, IsSolution S → Consistent b S → r.Solved = true) ∧
      (DigitChars lines → Distinct (givens lines) → r.Solved = true →
        IsSolution r.grid ∧ (∀ c r2, givens lines c r2 ≠ 0 → r.grid c r2 = givens lines c r2) ∧
          r.ticks = fun _ _ => ∅) := by
  obtain ⟨b, e, -, hgrid, hc, hk, hx⟩ := New_inv name lines h9
  obtain ⟨r, er, pr, sr⟩ := Solve_total o b hc hk
  refine ⟨b, r, e, er, sr, fun hd hg hs => ?_⟩
  have hgv : ∀ c r, b.grid c r = givens lines c r :=
    fun c r => (hgrid c r).trans (digitAt_eq_givens lines h9 hd c r).1
  have hfun : b.grid = givens lines := funext fun c => funext fun r => hgv c r
  obtain ⟨cr, -, gr, snd⟩ := pr hc hk
  obtain ⟨-, dr, -⟩ := snd hx (hfun ▸ hg)
    (fun c r => by rw [hgv]; exact (digitAt_eq_givens lines h9 hd c r).2)
  have hrange := ((Solved_iff r).mp hs).2
  refine ⟨⟨hrange, dr⟩, fun c r2 hn => ?_, funext fun c => funext fun r2 => ?_⟩
  · rw [← hgv] at hn ⊢
    exact gr.1 c r2 hn
  · exact cr c r2 (by have := hrange c r2; omega)

/-- C12 amended: for every board built by `New` from 9 strings of 9
characters, whether `Solve` ends on a solved board does not depend on the
order in which `guess` enumerates the candidates; when it does not, the final
board is one and the same under every order; and when the characters are
`'0'..'9'` and the given digits have no digit twice in a row, column or block
and extend to at most one complete valid Sudoku, the final grid and
candidate sets are the same under every order. -/
theorem order_independent (o1 o2 : RangeOrder) (name : String) (lines : List GoString)
    (h9 : Lines9 lines) :
    ∃ b r1 r2, New name lines = some b ∧
      (∀ n, 82 ≤ n → b.Solve o1 n = .done r1) ∧ (∀ n, 82 ≤ n → b.Solve o2 n = .done r2) ∧
      r1.Solved = r2.Solved ∧
      (r1.Solved = false → r1 = r2) ∧
      (DigitChars lines → Distinct (givens lines) →
        (∀ S1 S2, CompleteValid S1 → CompleteValid S2 →
          (∀ c r, givens lines c r ≠ 0 → S1 c r = givens lines c r) →
          (∀ c r, givens lines c r ≠ 0 → S2 c r = givens lines c r) → S1 = S2) →
        r1.grid = r2.grid ∧ r1.ticks = r2.ticks) := by
  obtain ⟨b, r1, e, e1, -, s1⟩ := New_solve o1 name lines h9
  obtain ⟨b', r2, e', e2, -, s2⟩ := New_solve o2 name lines h9
  rw [e] at e'
  cases e'
  have k1 : ¬ r1.Solved = true → r2 = r1 := fun h =>
    Solve_unsolved o1 o2 82 b r1 (e1 82 (le_refl _)) h 82 r2 (e2 82 (le_refl _))
  have k2 : ¬ r2.Solved = true → r1 = r2 := fun h =>
    Solve_unsolved o2 o1 82 b r2 (e2 82 (le_refl _)) h 82 r1 (e1 82 (le_refl _))
  have hsame : r1.Solved = r2.Solved := by
    by_cases h1 : r1.Solved = true
    · by_cases h2 : r2.Solved = true
      · rw [h1, h2]
      · rw [k2 h2]
    · rw [k1 h1]
  refine ⟨b, r1, r2, e, e1, e2, hsame, fun h => (k1 (by rw [h]; simp)).symm, fun hd hg hu => ?_⟩
  by_cases h1 : r1.Solved = true
  · have h2 : r2.Solved = true := hsame ▸ h1
    obtain ⟨a1, x1, t1⟩ := s1 hd hg h1
    obtain ⟨a2, x2, t2⟩ := s2 hd hg h2
    exact ⟨hu _ _ (isSolution_completeValid _ a1) (isSolution_completeValid _ a2) x1 x2,
      t1.trans t2.symm⟩
  · rw [k1 h1]
    exact ⟨rfl, rfl⟩

/-- Run of `Solve` on `forkBoard`, whatever the order of the guesses: the
result is solved, its grid is `shifted`, no candidate is left, and its name
is the empty one of the copy it was solved on. -/
theorem fork_solved (o : RangeOrder) :
    ∃ r, (∀ n, 82 ≤ n → forkBoard.Solve o n = .done r) ∧ r.Solved = true ∧
      r.grid = shifted ∧ (r.ticks = fun _ _ => ∅) ∧ r.name = "" := by
  obtain ⟨b, r, e, er, sr, snd⟩ := New_solve o "fork" forkLines fork_shape.1
  rw [fork_new] at e
  rw [← Option.some.inj e] at er sr
  have hsh : IsSolution shifted := by decide
  have hs : r.Solved = true :=
    sr shifted hsh (fork_consistent shifted hsh (by decide))
  obtain ⟨a, x, t⟩ := snd fork_shape.2.1 fork_shape.2.2 hs
  refine ⟨r, er, hs, fork_unique r.grid a x, t, ?_⟩
  obtain ⟨h1, -, k, hk⟩ := (solveLoop_solve o 82 forkBoard forkStall true
    (fork_loop 82 (le_refl _))).2 rfl
  rw [er 82 (le_refl _)] at hk
  rcases guess_done o _ forkStall r hk.symm with h3 | ⟨-, col, row, d, h3⟩
  · rw [h3, h1] at hs
    exact absurd hs (by simp)
  · rcases Solve_name_cases o k _ _ h3 with h4 | h4
    · rw [h4, setDigit_name, (copy_spec _).2.2]
    · exact h4.1

/-! ## Witnesses on the puzzle `forkLines` -/

set_option maxRecDepth 100000 in
/-- Witness of the amended C12 on `forkLines`, with the increasing and the
decreasing order: the propagation loop stalls after two passes, `guess`
branches on the cell in column 0 of row 4 with the candidates 5 and 6, tried
as 5, 6 under one order and as 6, 5 under the other, and both runs end on the
grid `shifted`. -/
theorem order_independent_witness :
    ∃ b r1 r2, New "fork" forkLines = some b ∧
      (∀ n, 82 ≤ n → b.Solve RangeOrder.increasing n = .done r1) ∧
      (∀ n, 82 ≤ n → b.Solve RangeOrder.decreasing n = .done r2) ∧
      r1.Solved = r2.Solved ∧ (r1.Solved = false → r1 = r2) ∧
      r1.grid = r2.grid ∧ r1.ticks = r2.ticks ∧ r1.Solved = true ∧ r1.grid = shifted ∧
      ∃ g, (∀ n, 82 ≤ n → b.solveLoop n = some (g, true)) ∧ g.shortestTicks = (0, 4) ∧
        RangeOrder.increasing.pick g (g.ticks 0 4) = [5, 6] ∧
        RangeOrder.decreasing.pick g (g.ticks 0 4) = [6, 5] := by
  obtain ⟨b, r1, r2, e, e1, e2, hs, hu, hd⟩ := order_independent RangeOrder.increasing
    RangeOrder.decreasing "fork" forkLines (by decide)
  have hb : forkBoard = b := Option.some.inj (fork_new.symm.trans e)
  subst hb
  obtain ⟨r, er, hr, hg, -⟩ := fork_solved RangeOrder.increasing
  have h1 : r = r1 := Outcome.done.inj ((er 82 (le_refl _)).symm.trans (e1 82 (le_refl _)))
  subst h1
  obtain ⟨hg2, ht2⟩ := hd (by decide) (by decide) (fun S1 S2 c1 c2 x1 x2 =>
    (fork_unique S1 (completeValid_isSolution S1 c1) x1).trans
      (fork_unique S2 (completeValid_isSolution S2 c2) x2).symm)
  exact ⟨forkBoard, r, r2, e, e1, e2, hs, hu, hg2, ht2, hr, hg, forkStall, fork_loop,
    by decide, by decide, by decide⟩

set_option maxRecDepth 100000 in
/-- Witness of C1 on `forkLines`, 63 given digits, with candidates tried in
increasing order: the run ends solved on a complete valid Sudoku, which keeps
the given 1 in column 0 of row 0 and fills the blank in column 4 of row 0
with 5. -/
theorem solve_sound_witness :
    ∃ b b2, New "fork" forkLines = some b ∧
      (∀ n, 82 ≤ n → b.Solve RangeOrder.increasing n = .done b2) ∧
      (b2.Solved = true → CompleteValid b2.grid ∧
        ∀ c r, givens forkLines c r ≠ 0 → b2.grid c r = givens forkLines c r) ∧
      b2.Solved = true ∧ givens forkLines 0 0 = 1 ∧ b2.grid 0 0 = 1 ∧
      givens forkLines 4 0 = 0 ∧ b2.grid 4 0 = 5 := by
  obtain ⟨b, b2, e, e2, h⟩ := solve_sound RangeOrder.increasing "fork" forkLines
    (by decide) (by decide) (by decide)
  have hb : forkBoard = b := Option.some.inj (fork_new.symm.trans e)
  subst hb
  obtain ⟨r, er, hr, hg, -⟩ := fork_solved RangeOrder.increasing
  have h1 : r = b2 := Outcome.done.inj ((er 82 (le_refl _)).symm.trans (e2 82 (le_refl _)))
  subst h1
  refine ⟨forkBoard, r, e, e2, h, hr, by decide, ?_, by decide, ?_⟩
  · rw [hg]; decide
  · rw [hg]; decide

set_option maxRecDepth 100000 in
/-- Witness of C8 on `forkLines`: the `'4'` that starts string 1 is the entry
of column 0 in row 1, the `'2'` in place 1 of string 0 that of column 1 in
row 0; the cell given 4 has no candidates; the blank in column 4 of row 0
has the one candidate 5, and the blank in column 1 of row 7 the candidates
1, 6 and 7. -/
theorem New_postcondition_witness :
    ∃ b, New "fork" forkLines = some b ∧
      (∀ i j : Fin 9, ∀ byte, byteAt forkLines i j = some byte →
        b.grid j i = (byte : Int) - 48) ∧
      (∀ c r, b.grid c r ≠ 0 → b.ticks c r = ∅) ∧
      (∀ c r, b.grid c r = 0 → ∀ d, d ∈ b.ticks c r ↔
        (1 ≤ d ∧ d ≤ 9 ∧ ∀ c2 r2, sees c r c2 r2 → b.grid c2 r2 ≠ d)) ∧
      byteAt forkLines 1 0 = some 52 ∧ b.grid 0 1 = 4 ∧ b.ticks 0 1 = ∅ ∧
      byteAt forkLines 0 1 = some 50 ∧ b.grid 1 0 = 2 ∧
      byteAt forkLines 0 4 = some 48 ∧ b.grid 4 0 = 0 ∧ b.ticks 4 0 = {5} ∧
      b.grid 1 7 = 0 ∧ b.ticks 1 7 = {1, 6, 7} := by
  obtain ⟨b, e, h1, h2, h3⟩ := New_postcondition "fork" forkLines (by decide) (by decide)
  have hb : forkBoard = b := Option.some.inj (fork_new.symm.trans e)
  subst hb
  exact ⟨forkBoard, e, h1, h2, h3, by decide, by decide, by decide, by decide, by decide,
    by decide, by decide, by decide, by decide, by decide⟩

set_option maxRecDepth 100000 in
/-- Witness of C13 on the board built from `forkLines` and the grid
`shifted`: `singleTick` solves the cell in column 4 of row 0, `doubleTick`
takes the candidate 6 from the cell in column 1 of row 7, and both boards
are still consistent with `shifted`. -/
theorem propagation_keeps_solutions_witness :
    Consistent forkBoard shifted ∧
      (Consistent forkBoard.singleTick shifted ∧ Consistent forkBoard.doubleTick shifted) ∧
      forkBoard.grid 4 0 = 0 ∧ forkBoard.singleTick.grid 4 0 = 5 ∧
      6 ∈ forkBoard.ticks 1 7 ∧ 6 ∉ forkBoard.doubleTick.ticks 1 7 :=
  ⟨by decide,
    propagation_keeps_solutions forkBoard shifted
      (isSolution_completeValid shifted (by decide)) (by decide),
    by decide, by decide, by decide, by decide⟩

set_option maxRecDepth 100000 in
/-- Witness of C17 on `forkLines` with candidates tried in decreasing order:
the given 1 in column 0 of row 0 stays, `singleTick` solves the cell in
column 4 of row 0, `doubleTick` takes the candidate 6 from the cell in column
1 of row 7, and `Solve` ends on a solved board that still has the 1. -/
theorem solving_one_way_witness :
    ∃ b, New "fork" forkLines = some b ∧ Grows b b.singleTick ∧ Grows b b.doubleTick ∧
      (∃ b2, (∀ n, 82 ≤ n → b.Solve RangeOrder.decreasing n = .done b2) ∧ Grows b b2 ∧
        b2.Solved = true ∧ b2.grid 0 0 = 1 ∧ b2.grid 4 0 = 5) ∧
      b.countSolved = 63 ∧ b.grid 0 0 = 1 ∧ b.singleTick.grid 0 0 = 1 ∧
      b.grid 4 0 = 0 ∧ b.singleTick.grid 4 0 = 5 ∧
      b.ticks 1 7 = {1, 6, 7} ∧ b.doubleTick.ticks 1 7 = {1, 7} := by
  obtain ⟨b, e, h1, h2, b2, e2, h3⟩ :=
    solving_one_way RangeOrder.decreasing "fork" forkLines (by decide)
  have hb : forkBoard = b := Option.some.inj (fork_new.symm.trans e)
  subst hb
  obtain ⟨r, er, hr, hg, -⟩ := fork_solved RangeOrder.decreasing
  have h4 : r = b2 := Outcome.done.inj ((er 82 (le_refl _)).symm.trans (e2 82 (le_refl _)))
  subst h4
  refine ⟨forkBoard, e, h1, h2, ⟨r, e2, h3, hr, ?_, ?_⟩, by decide, by decide, by decide,
    by decide, by decide, by decide, by decide⟩
  · rw [hg]; decide
  · rw [hg]; decide

/-! ## Name of the board after `Solve` -/

/-- C20, effect of `Solve` on the name: `copy` returns a board with the empty
name whatever the name of its source.  On a board built by `New` with name
`n` the propagation loop is left on a board `g` of name `n`, and `Solve`
returns a board `b2`: when the loop is left by `return`, `b2` is `g`, name
`n`; when it is left by `break`, `g` is not solved and `guess` runs: `b2` is
not solved exactly when `guess` found no solution, and then `b2` is `g`,
name `n`; `b2` is solved exactly when `Solve` adopts the board that `guess`
solved from a copy, and then its name is empty; and this is what happens
whenever the board is consistent with some complete valid Sudoku. -/
theorem solve_name (o : RangeOrder) (name : String) (lines : List GoString)
    (h9 : Lines9 lines) :
    (∀ g : Board, g.copy.name = "") ∧
    ∃ b g stalled b2, New name lines = some b ∧ b.name = name ∧
      (∀ n, 82 ≤ n → b.solveLoop n = some (g, stalled)) ∧
      (∀ n, 82 ≤ n → b.Solve o n = .done b2) ∧
      g.name = name ∧
      (stalled = false → b2 = g ∧ b2.name = name) ∧
      (stalled = true → g.Solved = false ∧
        (b2.Solved = false → b2 = g ∧ b2.name = name) ∧
        (b2.Solved = true → b2.name = "" ∧
          ∃ col row d k, (g.copy.setDigit col row d).Solve o k = .done b2) ∧
        ((∃ S, CompleteValid S ∧ Consistent b S) → b2.Solved = true ∧ b2.name = "")) := by
  refine ⟨fun g => (copy_spec g).2.2, ?_⟩
  obtain ⟨b, e, hn, -, hc, hk, -⟩ := New_inv name lines h9
  obtain ⟨g, st, el, hg, -, -⟩ := solveLoop_main 82 b hc hk (by omega)
  obtain ⟨b2, e2, -, s2⟩ := Solve_total o b hc hk
  obtain ⟨l1, l2⟩ := solveLoop_solve o 82 b g st el
  have hgn : g.name = name := hg.trans hn
  refine ⟨b, g, st, b2, e, hn, fun n h => solveLoop_fuel b _ 82 n h el, e2, hgn,
    fun h => ?_, fun h => ?_⟩
  · have h1 := l1 h
    rw [e2 82 (le_refl _)] at h1
    rw [Outcome.done.inj h1]
    exact ⟨rfl, hgn⟩
  · obtain ⟨gs, -, k, hk2⟩ := l2 h
    rw [e2 82 (le_refl _)] at hk2
    have hadopt : b2.Solved = true → b2.name = "" ∧
        ∃ col row d k, (g.copy.setDigit col row d).Solve o k = .done b2 := by
      intro hs
      rcases guess_done o _ g b2 hk2.symm with h3 | ⟨-, col, row, d, h3⟩
      · rw [h3, gs] at hs
        exact absurd hs (by simp)
      · refine ⟨?_, col, row, d, k, h3⟩
        rcases Solve_name_cases o k _ _ h3 with h4 | h4
        · rw [h4, setDigit_name, (copy_spec _).2.2]
        · exact h4.1
    refine ⟨gs, fun hs => ?_, hadopt, fun hx => ?_⟩
    · rcases guess_done o _ g b2 hk2.symm with h3 | ⟨h3, -⟩
      · rw [h3]
        exact ⟨rfl, hgn⟩
      · rw [hs] at h3
        exact absurd h3 (by simp)
    · obtain ⟨S, hS, hcs⟩ := hx
      have hs := s2 S (completeValid_isSolution S hS) hcs
      exact ⟨hs, (hadopt hs).1⟩

set_option maxRecDepth 100000 in
/-- Witness of C20 on `forkLines`, built under the name `"fork"`, with
candidates tried in increasing order: the loop is left by `break` on a board
named `"fork"` that is not solved, and `Solve` ends on a solved board with
the empty name. -/
theorem solve_name_witness :
    (∀ g : Board, g.copy.name = "") ∧
    ∃ b g b2, New "fork" forkLines = some b ∧ b.name = "fork" ∧
      (∀ n, 82 ≤ n → b.solveLoop n = some (g, true)) ∧
      (∀ n, 82 ≤ n → b.Solve RangeOrder.increasing n = .done b2) ∧
      g.name = "fork" ∧ g.Solved = false ∧ b2.Solved = true ∧ b2.name = "" ∧
      b2.name ≠ b.name := by
  obtain ⟨hcopy, b, g, st, b2, e, hn, el, e2, hg, -, h2⟩ :=
    solve_name RangeOrder.increasing "fork" forkLines (by decide)
  have hb : forkBoard = b := Option.some.inj (fork_new.symm.trans e)
  subst hb
  have hl := Option.some.inj ((el 82 (le_refl _)).symm.trans (fork_loop 82 (le_refl _)))
  have hst : st = true := congrArg Prod.snd hl
  subst hst
  obtain ⟨gs, -, -, h3⟩ := h2 rfl
  obtain ⟨hs, hname⟩ := h3 ⟨shifted, isSolution_completeValid shifted (by decide),
    fork_consistent shifted (by decide) (by decide)⟩
  refine ⟨hcopy, forkBoard, g, b2, e, hn, el, e2, hg, gs, hs, hname, ?_⟩
  rw [hname, hn]
  decide

/-! ## Blank characters of the input -/

set_option maxRecDepth 100000 in
/-- C9 as stated fails, for either character.  In `spaceLines` the first
character of the first string is a space, yet `New` stores 240 (the byte 32
minus 48, modulo 256) in that cell instead of leaving it unsolved, and `valid`
rejects the board.  In `deadLines`, made of characters `'0'..'9'`, the last
character of the first string is `'0'`; the cell is left unsolved, but every
digit is given in its row or column, so no candidate is left and `valid`
rejects the board because of that cell: every other cell passes the per-cell
checks of `valid`, and no row or column holds a digit twice. -/
theorem blank_rejected :
    (Lines9 spaceLines ∧ byteAt spaceLines 0 0 = some 32 ∧
      ∃ b, New "space" spaceLines = some b ∧ b.grid 0 0 = 240 ∧ b.grid 0 0 ≠ 0 ∧
        b.valid = false) ∧
    (Lines9 deadLines ∧ DigitChars deadLines ∧ byteAt deadLines 0 8 = some 48 ∧
      ∃ b, New "dead" deadLines = some b ∧ b.grid 8 0 = 0 ∧ b.ticks 8 0 = ∅ ∧
        b.valid = false ∧ cellOk b 8 0 = false ∧
        (∀ c r, ¬ (c = 8 ∧ r = 0) → cellOk b c r = true) ∧
        (∀ c r r2, r ≠ r2 → b.grid c r ≠ 0 → b.grid c r ≠ b.grid c r2) ∧
        (∀ r c c2, c ≠ c2 → b.grid c r ≠ 0 → b.grid c r ≠ b.grid c2 r)) := by
  have h : (New "space" spaceLines).map (fun b => (b.grid 0 0, b.valid))
      = some (240, false) := by decide
  have h2 : (New "dead" deadLines).map (fun b => decide (b.grid 8 0 = 0 ∧ b.ticks 8 0 = ∅ ∧
      b.valid = false ∧ cellOk b 8 0 = false ∧
      (∀ c r, ¬ (c = 8 ∧ r = 0) → cellOk b c r = true) ∧
      (∀ c r r2, r ≠ r2 → b.grid c r ≠ 0 → b.grid c r ≠ b.grid c r2) ∧
      (∀ r c c2, c ≠ c2 → b.grid c r ≠ 0 → b.grid c r ≠ b.grid c2 r))) = some true := by
    decide
  refine ⟨⟨by decide, by decide, ?_⟩, by decide, by decide, by decide, ?_⟩
  · cases e : New "space" spaceLines with
    | none => rw [e] at h; exact absurd h (by simp)
    | some b =>
      rw [e] at h
      simp only [Option.map_some', Option.some.injEq, Prod.mk.injEq] at h
      exact ⟨b, rfl, h.1, by rw [h.1]; decide, h.2⟩
  · cases e : New "dead" deadLines with
    | none => rw [e] at h2; exact absurd h2 (by simp)
    | some b =>
      rw [e] at h2
      simp only [Option.map_some', Option.some.injEq, decide_eq_true_eq] at h2
      exact ⟨b, rfl, h2⟩

/-- C9 amended: of the two characters only `'0'` is a blank, and `valid`
accepts a blank cell exactly when a digit is left for it.  For every input of
9 strings of 9 characters, a cell whose character is `'0'` is left unsolved
(grid entry 0) and passes the digit-range and tick-count checks of `valid`;
its check for an unsolved cell without candidates fires exactly when every
digit 1..9 is the grid entry of a cell of its row, column or block, so the
cell passes the three checks exactly when some digit 1..9 is the entry of no
such cell, and otherwise `valid` is false on the board.  A cell whose
character is a space gets the grid entry 240, and `valid` is false on the
board.  Beyond these per-cell checks `valid` only compares the non-zero
entries of each column and of each row, where an unsolved cell has no part. -/
theorem blank_sentinel (name : String) (lines : List GoString) (h9 : Lines9 lines) :
    ∃ b, New name lines = some b ∧
      (∀ r c, byteAt lines r c = some 48 →
        b.grid c r = 0 ∧ ¬ (b.grid c r > 9 ∨ b.grid c r < 0) ∧ ¬ (b.ticks c r).card > 9 ∧
        ((b.grid c r = 0 ∧ (b.ticks c r).card ≤ 0) ↔
          ∀ d, 1 ≤ d → d ≤ 9 → ∃ c2 r2, sees c r c2 r2 ∧ b.grid c2 r2 = d) ∧
        (cellOk b c r = true ↔
          ∃ d, 1 ≤ d ∧ d ≤ 9 ∧ ∀ c2 r2, sees c r c2 r2 → b.grid c2 r2 ≠ d) ∧
        (cellOk b c r = false → b.valid = false)) ∧
      (∀ r c, byteAt lines r c = some 32 →
        b.grid c r = 240 ∧ cellOk b c r = false ∧ b.valid = false) ∧
      (b.valid = true ↔ (∀ c r, cellOk b c r = true) ∧
        (∀ c r r2, r ≠ r2 → b.grid c r ≠ 0 → b.grid c r2 ≠ 0 → b.grid c r ≠ b.grid c r2) ∧
        (∀ r c c2, c ≠ c2 → b.grid c r ≠ 0 → b.grid c2 r ≠ 0 → b.grid c r ≠ b.grid c2 r)) := by
  obtain ⟨b, e, -, hg, ht⟩ := New_spec name lines h9
  have hk : KeysOk b := fun c r d hd => ⟨((ht c r d).mp hd).2.1, ((ht c r d).mp hd).2.2.1⟩
  have hbad : ∀ c r, cellOk b c r = false → b.valid = false := by
    intro c r hc
    rw [Bool.eq_false_iff]
    intro hv
    obtain ⟨v1, v2, v3, -⟩ := (valid_iff b).mp hv
    have : cellOk b c r = true := by
      unfold cellOk
      exact decide_eq_true ⟨(v1 c r).1, (v1 c r).2, v2 c r, v3 c r⟩
    rw [hc] at this
    exact absurd this (by simp)
  have hval : b.valid = true ↔ (∀ c r, cellOk b c r = true) ∧
      (∀ c r r2, r ≠ r2 → b.grid c r ≠ 0 → b.grid c r2 ≠ 0 → b.grid c r ≠ b.grid c r2) ∧
      (∀ r c c2, c ≠ c2 → b.grid c r ≠ 0 → b.grid c2 r ≠ 0 → b.grid c r ≠ b.grid c2 r) := by
    rw [valid_iff]
    constructor
    · rintro ⟨v1, v2, v3, v4, v5⟩
      refine ⟨fun c r => ?_, fun c r r2 hne hn _ => v4 c r r2 hne hn,
        fun r c c2 hne hn _ => v5 r c c2 hne hn⟩
      unfold cellOk
      exact decide_eq_true ⟨(v1 c r).1, (v1 c r).2, v2 c r, v3 c r⟩
    · rintro ⟨w1, w2, w3⟩
      have hcell : ∀ c r, 0 ≤ b.grid c r ∧ b.grid c r ≤ 9 ∧ (b.ticks c r).card ≤ 9 ∧
          (b.grid c r = 0 → 1 ≤ (b.ticks c r).card) := by
        intro c r
        have := w1 c r
        unfold cellOk at this
        exact of_decide_eq_true this
      refine ⟨fun c r => ⟨(hcell c r).1, (hcell c r).2.1⟩, fun c r => (hcell c r).2.2.1,
        fun c r => (hcell c r).2.2.2, fun c r r2 hne hn => ?_, fun r c c2 hne hn => ?_⟩
      · by_cases h2 : b.grid c r2 = 0
        · rw [h2]; exact hn
        · exact w2 c r r2 hne hn h2
      · by_cases h2 : b.grid c2 r = 0
        · rw [h2]; exact hn
        · exact w3 r c c2 hne hn h2
  refine ⟨b, e, fun r c hb => ?_, fun r c hb => ?_, hval⟩
  · have h0 : b.grid c r = 0 := by
      rw [hg]
      unfold digitAt
      rw [hb]
      rfl
    have hd0 : digitAt lines r c = 0 := by rw [← hg]; exact h0
    have hcard := hk.card_le c r
    have hmem : ∀ d, d ∈ b.ticks c r ↔
        (1 ≤ d ∧ d ≤ 9 ∧ ∀ c2 r2, sees c r c2 r2 → b.grid c2 r2 ≠ d) := by
      intro d
      rw [ht]
      constructor
      · rintro ⟨-, h1, h2, h3⟩
        exact ⟨h1, h2, fun c2 r2 hs => by rw [hg]; exact h3 c2 r2 (sees_symm hs)⟩
      · rintro ⟨h1, h2, h3⟩
        exact ⟨hd0, h1, h2, fun c2 r2 hs => by rw [← hg]; exact h3 c2 r2 (sees_symm hs)⟩
    have hpos : 1 ≤ (b.ticks c r).card ↔
        ∃ d, 1 ≤ d ∧ d ≤ 9 ∧ ∀ c2 r2, sees c r c2 r2 → b.grid c2 r2 ≠ d := by
      rw [Nat.succ_le_iff, Finset.card_pos]
      constructor
      · rintro ⟨d, hd⟩
        exact ⟨d, (hmem d).mp hd⟩
      · rintro ⟨d, hd⟩
        exact ⟨d, (hmem d).mpr hd⟩
    refine ⟨h0, by omega, by omega, ?_, ?_, hbad c r⟩
    · constructor
      · rintro ⟨-, hz⟩ d h1 h2
        by_contra hne
        have : ∃ d, 1 ≤ d ∧ d ≤ 9 ∧ ∀ c2 r2, sees c r c2 r2 → b.grid c2 r2 ≠ d :=
          ⟨d, h1, h2, fun c2 r2 hs heq => hne ⟨c2, r2, hs, heq⟩⟩
        have := hpos.mpr this
        omega
      · intro hall
        refine ⟨h0, ?_⟩
        by_contra hne
        obtain ⟨d, h1, h2, h3⟩ := hpos.mp (by omega)
        obtain ⟨c2, r2, hs, heq⟩ := hall d h1 h2
        exact h3 c2 r2 hs heq
    · rw [← hpos]
      unfold cellOk
      rw [decide_eq_true_iff]
      constructor
      · intro h
        exact h.2.2.2 h0
      · intro h
        exact ⟨by omega, by omega, hcard, fun _ => h⟩
  · have h240 : b.grid c r = 240 := by
      rw [hg]
      unfold digitAt
      rw [hb]
      rfl
    have hc : cellOk b c r = false := by
      unfold cellOk
      rw [decide_eq_false_iff_not]
      intro h
      omega
    exact ⟨h240, hc, hbad c r hc⟩

set_option maxRecDepth 100000 in
/-- Witness of the amended C9 on `spaceLines` and on `deadLines`.  In
`spaceLines` the `'0'` in place 1 of string 0 gives a cell that passes the
checks, while the space gives 240 in column 0 of row 0 and `valid` is false.
In `deadLines` the `'0'` in place 8 of string 0 gives an unsolved cell with
every digit among the entries of its row and column; it fails the checks and
`valid` is false, while the `'0'` in place 0 of string 1 gives a cell that
passes them. -/
theorem blank_sentinel_witness :
    (∃ b, New "space" spaceLines = some b ∧
      byteAt spaceLines 0 1 = some 48 ∧ b.grid 1 0 = 0 ∧ cellOk b 1 0 = true ∧
      byteAt spaceLines 0 0 = some 32 ∧ b.grid 0 0 = 240 ∧ cellOk b 0 0 = false ∧
      b.valid = false) ∧
    (∃ b, New "dead" deadLines = some b ∧
      byteAt deadLines 0 8 = some 48 ∧ b.grid 8 0 = 0 ∧ cellOk b 8 0 = false ∧
      (∀ d, 1 ≤ d → d ≤ 9 → ∃ c2 r2, sees 8 0 c2 r2 ∧ b.grid c2 r2 = d) ∧
      b.valid = false ∧
      byteAt deadLines 1 0 = some 48 ∧ b.grid 0 1 = 0 ∧ cellOk b 0 1 = true) := by
  constructor
  · obtain ⟨b, e, h0, h32, -⟩ := blank_sentinel "space" spaceLines (by decide)
    obtain ⟨a1, -, -, -, a5, -⟩ := h0 0 1 (by decide)
    obtain ⟨b1, b2, b3⟩ := h32 0 0 (by decide)
    refine ⟨b, e, by decide, a1, a5.mpr ⟨1, by decide, by decide, fun c2 r2 hs => ?_⟩,
      by decide, b1, b2, b3⟩
    have hg : (New "space" spaceLines).map
        (fun b => decide (∀ c2 r2, b.grid c2 r2 ≠ 1)) = some true := by decide
    rw [e] at hg
    simp only [Option.map_some', Option.some.injEq, decide_eq_true_eq] at hg
    exact hg c2 r2
  · obtain ⟨b, e, h0, -, -⟩ := blank_sentinel "dead" deadLines (by decide)
    obtain ⟨a1, -, -, a4, a5, a6⟩ := h0 0 8 (by decide)
    obtain ⟨c1, -, -, -, c5, -⟩ := h0 1 0 (by decide)
    have hg : (New "dead" deadLines).map
        (fun b => decide (cellOk b 8 0 = false ∧ cellOk b 0 1 = true ∧ b.ticks 8 0 = ∅))
        = some true := by decide
    rw [e] at hg
    simp only [Option.map_some', Option.some.injEq, decide_eq_true_eq] at hg
    obtain ⟨g1, g2, g3⟩ := hg
    have hcard : (b.ticks 8 0).card ≤ 0 := by rw [g3]; simp
    exact ⟨b, e, by decide, a1, g1, a4.mp ⟨a1, hcard⟩, a6 g1, by decide, c1, g2⟩

/-! ## A puzzle with a digit twice in a block -/

set_option maxRecDepth 100000 in
theorem twist_shape : Lines9 twistLines ∧ DigitChars twistLines := by decide

set_option maxRecDepth 100000 in
theorem twist_cells :
    (New "twist" twistLines).map (fun b => decide (∀ c r,
      b.grid c r = (twistTable "twist").grid c r ∧ b.ticks c r = (twistTable "twist").ticks c r))
      = some true := by decide

/-- Board that `New` builds from `twistLines`. -/
theorem twist_new : New "twist" twistLines = some (twistTable "twist") := by
  obtain ⟨b, e, hn, -⟩ := New_inv "twist" twistLines twist_shape.1
  have h := twist_cells
  rw [e] at h
  simp only [Option.map_some', Option.some.injEq, decide_eq_true_eq] at h
  rw [e, board_ext b (twistTable "twist") hn (fun c r => (h c r).1) (fun c r => (h c r).2)]

set_option maxRecDepth 100000 in
theorem twist_pass_cells :
    ∀ c r, (twistTable "twist").singleTick.doubleTick.grid c r = (twistTable "twist").grid c r ∧
      (twistTable "twist").singleTick.doubleTick.ticks c r = (twistTable "twist").ticks c r := by
  decide

/-- The first pass of the propagation loop changes nothing on the board. -/
theorem twist_pass : (twistTable "twist").singleTick.doubleTick = twistTable "twist" :=
  board_ext _ _ (by rw [doubleTick_name, singleTick_name])
    (fun c r => (twist_pass_cells c r).1) (fun c r => (twist_pass_cells c r).2)

theorem twist_copy : (twistTable "twist").copy = twistTable "" := by
  obtain ⟨h1, h2, h3⟩ := copy_spec (twistTable "twist")
  exact board_ext _ _ h3 (fun c r => by rw [h1]; rfl) (fun c r => by rw [h2]; rfl)

set_option maxRecDepth 100000 in
theorem twist_state :
    (twistTable "twist").Solved = false ∧ (twistTable "twist").valid = true ∧
      (twistTable "twist").shortestTicks = (1, 0) ∧
      keys ((twistTable "twist").ticks 1 0) = [4, 5] := by decide

set_option maxRecDepth 100000 in
theorem twist_four :
    (((twistTable "").setDigit 1 0 4).singleTick.doubleTick).Solved = true ∧
      (((twistTable "").setDigit 1 0 4).singleTick.doubleTick).grid 1 0 = 4 := by decide

set_option maxRecDepth 100000 in
theorem twist_five :
    (((twistTable "").setDigit 1 0 5).singleTick.doubleTick).Solved = true ∧
      (((twistTable "").setDigit 1 0 5).singleTick.doubleTick).grid 1 0 = 5 := by decide

/-- On a board that a pass of propagation leaves unchanged, valid and not
solved, `Solve` adopts the board solved from the first digit that `guess`
tries when one more pass solves the copy with that digit. -/
theorem Solve_adopt (o : RangeOrder) (b : Board) (col row : Fin 9) (d : Int) (rest : List Int)
    (hp : b.singleTick.doubleTick = b) (hs : b.Solved = false) (hv : b.valid = true)
    (hst : b.shortestTicks = ((col.val : Int), (row.val : Int)))
    (hpick : o.pick b (b.ticks col row) = d :: rest)
    (hx : ((b.copy.setDigit col row d).singleTick.doubleTick).Solved = true) (n : Nat)
    (hn : 2 ≤ n) :
    b.Solve o n = .done (b.copy.setDigit col row d).singleTick.doubleTick := by
  refine Solve_fuel o b _ 2 n hn ?_
  have h1 : (b.copy.setDigit col row d).Solve o 1
      = .done (b.copy.setDigit col row d).singleTick.doubleTick := by
    rw [Solve_succ, if_pos hx]
  rw [Solve_succ, hp, hs, hv]
  simp only [Bool.false_eq_true, if_false, not_true_eq_false, not_false_eq_true, if_true]
  rw [guess_eq o _ b col row hst, hpick]
  unfold Board.guessLoop
  rw [h1]
  simp only
  rw [if_pos hx]

set_option maxRecDepth 100000 in
/-- On the puzzle `twistLines`, whose givens have a digit twice in a block
and no digit twice in a row or column, `Solve` ends on a solved board under
both orders, with a 4 in column 1 of row 0 under the increasing order and a
5 there under the decreasing order. -/
theorem twist_two_orders :
    Lines9 twistLines ∧ DigitChars twistLines ∧
      (∀ c r r2, r ≠ r2 → givens twistLines c r ≠ 0 →
        givens twistLines c r ≠ givens twistLines c r2) ∧
      (∀ r c c2, c ≠ c2 → givens twistLines c r ≠ 0 →
        givens twistLines c r ≠ givens twistLines c2 r) ∧
      sameBlock 2 3 1 4 ∧ givens twistLines 2 3 = 7 ∧ givens twistLines 1 4 = 7 ∧
      (∀ S, CompleteValid S →
        ¬ ∀ c r, givens twistLines c r ≠ 0 → S c r = givens twistLines c r) ∧
      ∃ b r1 r2, New "twist" twistLines = some b ∧
        (∀ n, 82 ≤ n → b.Solve RangeOrder.increasing n = .done r1) ∧
        (∀ n, 82 ≤ n → b.Solve RangeOrder.decreasing n = .done r2) ∧
        r1.Solved = true ∧ r2.Solved = true ∧ r1.grid 1 0 = 4 ∧ r2.grid 1 0 = 5 ∧
        r1.grid ≠ r2.grid := by
  obtain ⟨hs, hv, hst, hk⟩ := twist_state
  obtain ⟨s4, g4⟩ := twist_four
  obtain ⟨s5, g5⟩ := twist_five
  have e1 := Solve_adopt RangeOrder.increasing (twistTable "twist") 1 0 4 [5] twist_pass hs hv
    hst hk (by rw [twist_copy]; exact s4)
  have e2 := Solve_adopt RangeOrder.decreasing (twistTable "twist") 1 0 5 [4] twist_pass hs hv
    hst (by
      show (keys ((twistTable "twist").ticks 1 0)).reverse = _
      rw [hk]
      rfl) (by rw [twist_copy]; exact s5)
  rw [twist_copy] at e1 e2
  refine ⟨by decide, by decide, by decide, by decide, by decide, by decide, by decide,
    fun S hS hx => ?_, twistTable "twist", _, _, twist_new, fun n hn => e1 n (by omega),
    fun n hn => e2 n (by omega), s4, s5, g4, g5, fun heq => ?_⟩
  · have hd := (completeValid_isSolution S hS).2 2 3 1 4 (by decide)
      (by rw [hx 2 3 (by decide)]; decide)
    rw [hx 2 3 (by decide), hx 1 4 (by decide)] at hd
    exact hd (by decide)
  · have := congrFun (congrFun heq 1) 0
    rw [g4, g5] at this
    exact absurd this (by decide)

/-- C12 as stated fails.  On the empty puzzle `Solve` ends with a 1 in column
0 of row 0 when `guess` visits the candidates in increasing order, and with a
9 there when it visits them in decreasing order.  On `twistLines`, whose
givens have no digit twice in a row or a column but the digit 7 twice in a
block, so that no complete valid Sudoku extends them, `Solve` ends on a
solved board under both orders, with a 4 in column 1 of row 0 under the
increasing order and with a 5 there under the decreasing order. -/
theorem order_matters :
    (∃ b r1 r2, New "empty" blankLines = some b ∧
      (∀ n, 82 ≤ n → b.Solve RangeOrder.increasing n = .done r1) ∧
      (∀ n, 82 ≤ n → b.Solve RangeOrder.decreasing n = .done r2) ∧
      r1.grid 0 0 = 1 ∧ r2.grid 0 0 = 9 ∧ r1.grid ≠ r2.grid) ∧
    (Lines9 twistLines ∧ DigitChars twistLines ∧
      (∀ c r r2, r ≠ r2 → givens twistLines c r ≠ 0 →
        givens twistLines c r ≠ givens twistLines c r2) ∧
      (∀ r c c2, c ≠ c2 → givens twistLines c r ≠ 0 →
        givens twistLines c r ≠ givens twistLines c2 r) ∧
      sameBlock 2 3 1 4 ∧ givens twistLines 2 3 = 7 ∧ givens twistLines 1 4 = 7 ∧
      (∀ S, CompleteValid S →
        ¬ ∀ c r, givens twistLines c r ≠ 0 → S c r = givens twistLines c r) ∧
      ∃ b r1 r2, New "twist" twistLines = some b ∧
        (∀ n, 82 ≤ n → b.Solve RangeOrder.increasing n = .done r1) ∧
        (∀ n, 82 ≤ n → b.Solve RangeOrder.decreasing n = .done r2) ∧
        r1.Solved = true ∧ r2.Solved = true ∧ r1.grid 1 0 = 4 ∧ r2.grid 1 0 = 5 ∧
        r1.grid ≠ r2.grid) :=
  ⟨blank_two_orders, twist_two_orders⟩

end Sudoku
